import Mathlib

/-!
# toml2c: schema inference and C code synthesis

A shallow embedding of `src/toml2c.cpp`.

* `std::string` is `String`; the character-wise operations go through `String.data`.
* The `std::deque<Table>` owned by `Reader` is a `List Table`; a `Table*` (and a
  `const Table&` handed to a writer pass) is the index of the element in that
  deque.  `emplace_back` appends at the end and never moves earlier elements.
* `Reader::tabler` is explicit state passing over `Reader`; the uncaught
  `std::out_of_range` thrown by `toml::array::at(0)` on an empty array is `none`.
* The parsed document (`toml::table`) is the sequence of key/value pairs in the
  order `for_each` visits them, with keys as the C strings given by `key.data()`.
* Recursion through `parent` / `children` pointers takes a fuel argument;
  running out of fuel or following a dangling pointer is `none`.
* `Writer::out` is kept as the list of appended pieces, each labelled with the
  statement of the source that appended it; the text is their concatenation.
  Statements about what a pass emits are made on that text, against the code
  expected for a field or a table (`member_code`, `read_code`, `print_code`,
  `release_code`, `lookup_code`).
* `Writer::write` returns the two files it writes as `Artifact`s (file name and
  text); `run` is `main` after the argument check.
-/

namespace Toml2c

/-! ## Constants -/

def lib_base_name : String := "t2c"

def s_table : String := "struct \x7b\n"
def s_type_int : String := "int64_t "
def s_type_double : String := "double "
def s_type_bool : String := "bool "
def s_type_string : String := "char* "
def s_type_array : String := "void** "
def s_type_array_of_int : String := "int64_t* "
def s_type_array_of_double : String := "double* "
def s_type_array_of_bool : String := "bool* "
def s_type_array_of_string : String := "char** "

/-! ## Identifier sanitising -/

/-- The call `std::replace(s.begin(), s.end(), a, b)` on a copy of the string. -/
def replace_char (a b : Char) (s : String) : String :=
  String.mk (s.data.map fun c => if c = a then b else c)

/-- Source function `cvar`: every `-` becomes `_`. -/
def cvar (var : String) : String := replace_char '-' '_' var

/-- Source function `tvar`: every `_` becomes `-`. -/
def tvar (var : String) : String := replace_char '_' '-' var

/-! ## Data model -/

/-- The enumeration `Field::Type`. -/
inductive FieldType where
  | t_int
  | t_double
  | t_bool
  | t_string
  | t_array
  | t_array_of_int
  | t_array_of_double
  | t_array_of_bool
  | t_array_of_string
  deriving DecidableEq, Repr

/-- The struct `Field`. -/
structure Field where
  name : String
  type : FieldType
  deriving DecidableEq, Repr

/-- The constructor `Field::Field(name, type)`: the stored name is `cvar(name)`. -/
def Field.new (name : String) (type : FieldType) : Field :=
  { name := cvar name, type := type }

/-- The struct `Table`.  `children` and `parent` hold deque indices,
`depth` is a `uint8_t`. -/
structure Table where
  fields : List Field
  children : List Nat
  parent : Option Nat
  depth : Nat
  name : String
  deriving DecidableEq, Repr

/-- The state of `class Reader`. -/
structure Reader where
  tables : List Table
  c_depth : Int
  deriving DecidableEq, Repr

/-! ## The parsed document -/

/-- The enumeration `toml::node_type`. -/
inductive NodeType where
  | none
  | table
  | array
  | string
  | integer
  | floating_point
  | boolean
  | date
  | time
  | date_time
  deriving DecidableEq, Repr

/-- A parsed TOML value.  Scalar payloads are carried along although the schema
builder never reads them; a floating-point value is its bit pattern. -/
inductive Node where
  | table (entries : List (String × Node))
  | array (elems : List Node)
  | string (v : String)
  | integer (v : Int)
  | floating_point (bits : Nat)
  | boolean (v : Bool)
  | date (v : Nat)
  | time (v : Nat)
  | date_time (v : Nat)

/-- The method `node::type()`. -/
def Node.type : Node → NodeType
  | .table _ => .table
  | .array _ => .array
  | .string _ => .string
  | .integer _ => .integer
  | .floating_point _ => .floating_point
  | .boolean _ => .boolean
  | .date _ => .date
  | .time _ => .time
  | .date_time _ => .date_time

/-! ## Reader -/

/-- The statement `parent.fields.emplace_back(f)` on the table at index `parent`. -/
def push_field (parent : Nat) (f : Field) (r : Reader) : Reader :=
  { r with tables := r.tables.modify (fun t => { t with fields := t.fields ++ [f] }) parent }

/-- The statement `parent.children.emplace_back(c)` on the table at index `parent`. -/
def push_child (parent : Nat) (c : Nat) (r : Reader) : Reader :=
  { r with tables := r.tables.modify (fun t => { t with children := t.children ++ [c] }) parent }

/-- The loop of the array case: does some element carry a type tag other than
that of element 0? -/
def mixed_array (first : Node) (elems : List Node) : Bool :=
  elems.any fun el => decide (el.type ≠ first.type)

/-- The inner `switch` of the array case, on the type tag of element 0. -/
def array_field (key : String) : NodeType → Option Field
  | .integer => some (Field.new key .t_array_of_int)
  | .floating_point => some (Field.new key .t_array_of_double)
  | .boolean => some (Field.new key .t_array_of_bool)
  | .string => some (Field.new key .t_array_of_string)
  | _ => none

mutual
/-- The body of the lambda of `Reader::tabler` for one key/value pair. -/
def tabler_entry (parent : Nat) (key : String) : Node → Reader → Option Reader
  | .table entries, r =>
    let t : Table :=
      { fields := [], children := [], parent := some parent,
        depth := (r.c_depth % 256).toNat, name := key }
    let idx := r.tables.length
    let r1 : Reader :=
      push_child parent idx { tables := r.tables ++ [t], c_depth := r.c_depth + 1 }
    (tabler idx entries r1).map fun r2 => { r2 with c_depth := r2.c_depth - 1 }
  | .integer _, r => some (push_field parent (Field.new key .t_int) r)
  | .string _, r => some (push_field parent (Field.new key .t_string) r)
  | .floating_point _, r => some (push_field parent (Field.new key .t_double) r)
  | .boolean _, r => some (push_field parent (Field.new key .t_bool) r)
  | .array [], _ => none
  | .array (first :: rest), r =>
    if mixed_array first (first :: rest) then some r
    else
      match array_field key first.type with
      | some f => some (push_field parent f r)
      | none => some r
  | .date _, r => some r
  | .time _, r => some r
  | .date_time _, r => some r
/-- Source function `Reader::tabler`: `table->for_each` over the entries. -/
def tabler (parent : Nat) : List (String × Node) → Reader → Option Reader
  | [], r => some r
  | (key, value) :: rest, r =>
    match tabler_entry parent key value r with
    | some r1 => tabler parent rest r1
    | none => none
end

/-- The call `s.find_last_of("\\/")`: index of the last `\` or `/`. -/
def find_last_sep : List Char → Nat → Option Nat → Option Nat
  | [], _, acc => acc
  | c :: cs, i, acc =>
    find_last_sep cs (i + 1) (if c = '\\' ∨ c = '/' then some i else acc)

/-- The call `s.find(pat)`: index of the first occurrence of `pat`. -/
def find_str (pat : List Char) : List Char → Nat → Option Nat
  | [], i => if pat = [] then some i else none
  | c :: cs, i => if pat <+: (c :: cs) then some i else find_str pat cs (i + 1)

/-- The shared "Remove path / Remove extension" steps of `Reader::parser` and
`Writer::write`. -/
def strip_name (file : String) : String :=
  let s1 : List Char :=
    match find_last_sep file.data 0 none with
    | some pdir => file.data.drop (pdir + 1)
    | none => file.data
  let s2 : List Char :=
    match find_str ".toml".data s1 0 with
    | some pext => s1.take pext
    | none => s1
  String.mk s2

/-- Source function `Reader::parser`, after a successful `toml::parse_file`
that produced the table `tbl`. -/
def parser (file : String) (tbl : List (String × Node)) : Option Reader :=
  let s_name := cvar (strip_name file) ++ "_t"
  let t : Table :=
    { fields := [], children := [], parent := none, depth := 0, name := s_name }
  tabler 0 tbl { tables := [t], c_depth := 1 }

/-- Source function `Reader::get_root`: the deque index of the root. -/
def get_root : Nat := 0

/-! ## Writer: emitted pieces -/

/-- The statement of the source that appended a piece of `Writer::out`. -/
inductive Stmt where
  | indent
  | block_open
  | member
  | member_len
  | block_close
  | handle
  | lookup
  | extract
  | store
  | alloc
  | copy_head
  | copy_store
  | copy_end
  | store_len
  | print
  | print_head
  | print_elem
  | print_end
  | free_head
  | free_elem
  | free_end
  | release
  deriving DecidableEq, Repr

/-- One `out += ...` of a writer pass: the appended text, the statement that
appended it, the deque index of the table being visited and, inside a loop over
`t.fields`, the field of the current iteration. -/
structure Piece where
  stmt : Stmt
  table : Nat
  field : Option Field
  text : String
  deriving DecidableEq, Repr

/-- The text accumulated in `Writer::out` by a list of pieces. -/
def render (ps : List Piece) : String := String.join (ps.map fun p => p.text)

/-- Run `f` over a sequence in order, appending what it emits; `none` as soon as
one call fails. -/
def collect {α β : Type} (f : α → Option (List β)) : List α → Option (List β)
  | [] => some []
  | x :: xs =>
    match f x with
    | none => none
    | some a =>
      match collect f xs with
      | none => none
      | some b => some (a ++ b)

/-- Source function `Writer::mk_indent`: the text of `depth` indentation steps. -/
def mk_indent (depth : Nat) : String := String.join (List.replicate depth "    ")

/-! ## Writer: declaration pass -/

/-- The member name that `h_struct` writes when it closes the block of `t`. -/
def block_member_name (t : Table) : String := cvar t.name

/-- The body of the loop over `t.fields` in `Writer::h_struct`, for the table
`t` at index `i`. -/
def h_field (i : Nat) (t : Table) (f : Field) : List Piece :=
  let ind : Piece := ⟨.indent, i, some f, mk_indent (t.depth + 1)⟩
  let len : Piece := ⟨.member_len, i, some f, "size_t " ++ f.name ++ "_len;\n"⟩
  match f.type with
  | .t_int => [ind, ⟨.member, i, some f, s_type_int ++ f.name ++ ";\n"⟩]
  | .t_string => [ind, ⟨.member, i, some f, s_type_string ++ f.name ++ ";\n"⟩]
  | .t_double => [ind, ⟨.member, i, some f, s_type_double ++ f.name ++ ";\n"⟩]
  | .t_bool => [ind, ⟨.member, i, some f, s_type_bool ++ f.name ++ ";\n"⟩]
  | .t_array => [ind, ⟨.member, i, some f, s_type_array ++ f.name ++ ";\n"⟩, ind, len]
  | .t_array_of_int =>
    [ind, ⟨.member, i, some f, s_type_array_of_int ++ f.name ++ ";\n"⟩, ind, len]
  | .t_array_of_double =>
    [ind, ⟨.member, i, some f, s_type_array_of_double ++ f.name ++ ";\n"⟩, ind, len]
  | .t_array_of_bool =>
    [ind, ⟨.member, i, some f, s_type_array_of_bool ++ f.name ++ ";\n"⟩, ind, len]
  | .t_array_of_string =>
    [ind, ⟨.member, i, some f, s_type_array_of_string ++ f.name ++ ";\n"⟩, ind, len]

/-- Source function `Writer::h_struct` on the table at index `i`. -/
def h_struct (ts : List Table) : Nat → Nat → Option (List Piece)
  | 0, _ => none
  | fuel + 1, i =>
    match ts[i]? with
    | none => none
    | some t =>
      match collect (h_struct ts fuel) t.children with
      | none => none
      | some cs =>
        some ([⟨.indent, i, none, mk_indent t.depth⟩, ⟨.block_open, i, none, s_table⟩]
          ++ t.fields.flatMap (h_field i t)
          ++ cs
          ++ [⟨.indent, i, none, mk_indent t.depth⟩,
              ⟨.block_close, i, none, "\x7d " ++ block_member_name t ++ ";\n"⟩])

/-! ## Writer: the three path lambdas of `c_src` -/

/-- The lambda `get_path` of `Writer::c_src` on the table at index `i`. -/
def get_path (ts : List Table) : Nat → Nat → String → Option String
  | 0, _, _ => none
  | fuel + 1, i, path =>
    match ts[i]? with
    | none => none
    | some t =>
      match t.parent with
      | some p =>
        match ts[p]? with
        | none => none
        | some pt =>
          if pt.depth ≠ 0 then get_path ts fuel p (pt.name ++ "_" ++ path)
          else get_path ts fuel p ("root_" ++ path)
      | none => some (cvar path)

/-- The lambda `get_parent_path` of `Writer::c_src` on the table at index `i`. -/
def get_parent_path (ts : List Table) : Nat → Nat → String → Option String
  | 0, _, _ => none
  | fuel + 1, i, path =>
    match ts[i]? with
    | none => none
    | some t =>
      match t.parent with
      | some p =>
        match ts[p]? with
        | none => none
        | some pt =>
          if pt.depth ≠ 0 then
            get_parent_path ts fuel p (pt.name ++ (if path.length ≠ 0 then "_" ++ path else ""))
          else
            get_parent_path ts fuel p ("root" ++ (if path.length ≠ 0 then "_" ++ path else ""))
      | none => some (cvar path)

/-- The lambda `get_path_var` of `Writer::c_src` on the table at index `i`. -/
def get_path_var (ts : List Table) : Nat → Nat → String → Option String
  | 0, _, _ => none
  | fuel + 1, i, path =>
    match ts[i]? with
    | none => none
    | some t =>
      match t.parent with
      | some p => get_path_var ts fuel p (t.name ++ "." ++ path)
      | none => some (cvar path)

/-- Fuel that lets a path lambda walk any acyclic parent chain of the deque. -/
def path_fuel (ts : List Table) : Nat := ts.length + 1

/-- The expression `name.substr(0, name.size()-2)` of `c_src` and `h_functions`. -/
def base_name_of (name : String) : String :=
  if 2 ≤ name.data.length then String.mk (name.data.take (name.data.length - 2)) else name

/-- The expression `lib_base_name.size() ? lib_base_name + "_" : ""`. -/
def lib_tag : String := if lib_base_name.length ≠ 0 then lib_base_name ++ "_" else ""

/-! ## Writer: the recursive lambdas of `c_src` -/

/-- The lambda `decl_r` on the table at index `i`. -/
def decl_r (ts : List Table) : Nat → Nat → Option (List Piece)
  | 0, _ => none
  | fuel + 1, i =>
    match ts[i]? with
    | none => none
    | some t =>
      match get_path ts (path_fuel ts) i t.name with
      | none => none
      | some h =>
        match collect (decl_r ts fuel) t.children with
        | none => none
        | some cs => some (⟨.handle, i, none, "*" ++ h ++ ", "⟩ :: cs)

/-- The lambda `check_r` on the table at index `i`. -/
def check_r (ts : List Table) (base_name : String) : Nat → Nat → Option (List Piece)
  | 0, _ => none
  | fuel + 1, i =>
    match ts[i]? with
    | none => none
    | some t =>
      match get_path ts (path_fuel ts) i t.name, get_parent_path ts (path_fuel ts) i "" with
      | some h, some ph =>
        match collect (check_r ts base_name fuel) t.children with
        | none => none
        | some cs =>
          some (⟨.lookup, i, none,
            "    if (!(" ++ h ++ " = toml_table_in(" ++ ph ++ ", \"" ++ tvar t.name
              ++ "\"))) \x7b\n        fprintf(stderr, \"" ++ lib_tag ++ base_name
              ++ "_read() failed: failed locating [" ++ t.name
              ++ "] table\");\n        return 1;\n    \x7d\n"⟩ :: cs)
      | _, _ => none

/-- The body of the loop over `t.fields` in the lambda `read_r`, for the table
`t` at index `i`. -/
def read_field (ts : List Table) (base_name : String) (i : Nat) (t : Table) (f : Field) :
    Option (List Piece) :=
  match f.type with
  | .t_array => some []
  | ty =>
    match get_path ts (path_fuel ts) i t.name, get_path_var ts (path_fuel ts) i f.name with
    | some h, some m =>
      match ty with
      | .t_int =>
        some [⟨.extract, i, some f, "    datum = toml_int_in(" ++ h ++ ", \"" ++ tvar f.name ++ "\");\n"⟩,
              ⟨.store, i, some f, "    (*" ++ base_name ++ ")->" ++ m ++ " = datum.u.i;\n"⟩]
      | .t_double =>
        some [⟨.extract, i, some f, "    datum = toml_double_in(" ++ h ++ ", \"" ++ tvar f.name ++ "\");\n"⟩,
              ⟨.store, i, some f, "    (*" ++ base_name ++ ")->" ++ m ++ " = datum.u.d;\n"⟩]
      | .t_bool =>
        some [⟨.extract, i, some f, "    datum = toml_bool_in(" ++ h ++ ", \"" ++ tvar f.name ++ "\");\n"⟩,
              ⟨.store, i, some f, "    (*" ++ base_name ++ ")->" ++ m ++ " = datum.u.b;\n"⟩]
      | .t_string =>
        some [⟨.extract, i, some f, "    datum = toml_string_in(" ++ h ++ ", \"" ++ tvar f.name ++ "\");\n"⟩,
              ⟨.store, i, some f, "    (*" ++ base_name ++ ")->" ++ m ++ " = datum.u.s;\n"⟩]
      | .t_array_of_int =>
        some [⟨.extract, i, some f, "    arr = toml_array_in(" ++ h ++ ", \"" ++ tvar f.name ++ "\");\n"⟩,
              ⟨.alloc, i, some f, "    (*" ++ base_name ++ ")->" ++ m
                ++ " = malloc(toml_array_nelem(arr) * sizeof(int64_t));\n"⟩,
              ⟨.copy_head, i, some f,
                "    for (int i = 0; i < toml_array_nelem(arr); ++i) \x7b\n        datum = toml_int_at(arr, i);\n"⟩,
              ⟨.copy_store, i, some f, "        (*" ++ base_name ++ ")->" ++ m ++ "[i] = datum.u.i;\n"⟩,
              ⟨.copy_end, i, some f, "    \x7d\n"⟩,
              ⟨.store_len, i, some f, "    (*" ++ base_name ++ ")->" ++ m
                ++ "_len = toml_array_nelem(arr);\n"⟩]
      | .t_array_of_double =>
        some [⟨.extract, i, some f, "    arr = toml_array_in(" ++ h ++ ", \"" ++ tvar f.name ++ "\");\n"⟩,
              ⟨.alloc, i, some f, "    (*" ++ base_name ++ ")->" ++ m
                ++ " = malloc(toml_array_nelem(arr) * sizeof(double));\n"⟩,
              ⟨.copy_head, i, some f,
                "    for (int i = 0; i < toml_array_nelem(arr); ++i) \x7b\n        datum = toml_double_at(arr, i);\n"⟩,
              ⟨.copy_store, i, some f, "        (*" ++ base_name ++ ")->" ++ m ++ "[i] = datum.u.d;\n"⟩,
              ⟨.copy_end, i, some f, "    \x7d\n"⟩,
              ⟨.store_len, i, some f, "    (*" ++ base_name ++ ")->" ++ m
                ++ "_len = toml_array_nelem(arr);\n"⟩]
      | .t_array_of_bool =>
        some [⟨.extract, i, some f, "    arr = toml_array_in(" ++ h ++ ", \"" ++ tvar f.name ++ "\");\n"⟩,
              ⟨.alloc, i, some f, "    (*" ++ base_name ++ ")->" ++ m
                ++ " = malloc(toml_array_nelem(arr) * sizeof(double));\n"⟩,
              ⟨.copy_head, i, some f,
                "    for (int i = 0; i < toml_array_nelem(arr); ++i) \x7b\n        datum = toml_bool_at(arr, i);\n"⟩,
              ⟨.copy_store, i, some f, "        (*" ++ base_name ++ ")->" ++ m ++ "[i] = datum.u.b;\n"⟩,
              ⟨.copy_end, i, some f, "    \x7d\n"⟩,
              ⟨.store_len, i, some f, "(*" ++ base_name ++ ")->" ++ m
                ++ "_len = toml_array_nelem(arr);\n"⟩]
      | .t_array_of_string =>
        some [⟨.extract, i, some f, "    arr = toml_array_in(" ++ h ++ ", \"" ++ tvar f.name ++ "\");\n"⟩,
              ⟨.alloc, i, some f, "    (*" ++ base_name ++ ")->" ++ m
                ++ " = malloc(toml_array_nelem(arr) * sizeof(char*));\n"⟩,
              ⟨.copy_head, i, some f,
                "    for (int i = 0; i < toml_array_nelem(arr); ++i) \x7b\n        datum = toml_string_at(arr, i);\n"⟩,
              ⟨.copy_store, i, some f, "        (*" ++ base_name ++ ")->" ++ m ++ "[i] = datum.u.s;\n"⟩,
              ⟨.copy_end, i, some f, "    \x7d\n"⟩,
              ⟨.store_len, i, some f, "    (*" ++ base_name ++ ")->" ++ m
                ++ "_len = toml_array_nelem(arr);\n"⟩]
      | .t_array => some []
    | _, _ => none

/-- The lambda `read_r` on the table at index `i`. -/
def read_r (ts : List Table) (base_name : String) : Nat → Nat → Option (List Piece)
  | 0, _ => none
  | fuel + 1, i =>
    match ts[i]? with
    | none => none
    | some t =>
      match collect (read_field ts base_name i t) t.fields with
      | none => none
      | some fs =>
        match collect (read_r ts base_name fuel) t.children with
        | none => none
        | some cs => some (fs ++ cs)

/-- The body of the loop over `t.fields` in the lambda `print_r`, for the table
at index `i`. -/
def print_field (ts : List Table) (base_name : String) (i : Nat) (f : Field) :
    Option (List Piece) :=
  match f.type with
  | .t_array => some []
  | ty =>
    match get_path_var ts (path_fuel ts) i f.name with
    | some m =>
      match ty with
      | .t_int =>
        some [⟨.print, i, some f, "    printf(\"" ++ base_name ++ "." ++ m ++ " = %ld\\n\", "
                ++ base_name ++ "->" ++ m ++ ");\n"⟩]
      | .t_double =>
        some [⟨.print, i, some f, "    printf(\"" ++ base_name ++ "." ++ m ++ " = %lf\\n\", "
                ++ base_name ++ "->" ++ m ++ ");\n"⟩]
      | .t_bool =>
        some [⟨.print, i, some f, "    printf(\"" ++ base_name ++ "." ++ m ++ " = %s\\n\", "
                ++ base_name ++ "->" ++ m ++ "? \"true\":\"false\");\n"⟩]
      | .t_string =>
        some [⟨.print, i, some f, "    printf(\"" ++ base_name ++ "." ++ m ++ " = %s\\n\", "
                ++ base_name ++ "->" ++ m ++ ");\n"⟩]
      | .t_array_of_int =>
        some [⟨.print_head, i, some f, "    for (int i = 0; i < " ++ base_name ++ "->" ++ m
                ++ "_len; ++i) \x7b\n"⟩,
              ⟨.print_elem, i, some f, "        printf(\"" ++ base_name ++ "." ++ m
                ++ "[%d] = %ld\\n\", i, " ++ base_name ++ "->" ++ m ++ "[i]);\n"⟩,
              ⟨.print_end, i, some f, "    \x7d;\n"⟩]
      | .t_array_of_double =>
        some [⟨.print_head, i, some f, "    for (int i = 0; i < " ++ base_name ++ "->" ++ m
                ++ "_len; ++i) \x7b\n"⟩,
              ⟨.print_elem, i, some f, "        printf(\"" ++ base_name ++ "." ++ m
                ++ "[%d] = %lf\\n\", i, " ++ base_name ++ "->" ++ m ++ "[i]);\n"⟩,
              ⟨.print_end, i, some f, "    \x7d;\n"⟩]
      | .t_array_of_bool =>
        some [⟨.print_head, i, some f, "    for (int i = 0; i < " ++ base_name ++ "->" ++ m
                ++ "_len; ++i) \x7b\n"⟩,
              ⟨.print_elem, i, some f, "        printf(\"" ++ base_name ++ "." ++ m
                ++ "[%d] = %s\\n\", i, " ++ base_name ++ "->" ++ m ++ "[i]?\"true\":\"false\");\n"⟩,
              ⟨.print_end, i, some f, "    \x7d;\n"⟩]
      | .t_array_of_string =>
        some [⟨.print_head, i, some f, "    for (int i = 0; i < " ++ base_name ++ "->" ++ m
                ++ "_len; ++i) \x7b\n"⟩,
              ⟨.print_elem, i, some f, "        printf(\"" ++ base_name ++ "." ++ m
                ++ "[%d] = %s\\n\", i, " ++ base_name ++ "->" ++ m ++ "[i]);\n"⟩,
              ⟨.print_end, i, some f, "    \x7d;\n"⟩]
      | .t_array => some []
    | none => none

/-- The lambda `print_r` on the table at index `i`. -/
def print_r (ts : List Table) (base_name : String) : Nat → Nat → Option (List Piece)
  | 0, _ => none
  | fuel + 1, i =>
    match ts[i]? with
    | none => none
    | some t =>
      match collect (print_field ts base_name i) t.fields with
      | none => none
      | some fs =>
        match collect (print_r ts base_name fuel) t.children with
        | none => none
        | some cs => some (fs ++ cs)

/-- The body of the loop over `t.fields` in the lambda `free_r`, for the table
at index `i`. -/
def free_field (ts : List Table) (base_name : String) (i : Nat) (f : Field) :
    Option (List Piece) :=
  match f.type with
  | .t_string | .t_array_of_int | .t_array_of_bool | .t_array_of_double =>
    match get_path_var ts (path_fuel ts) i f.name with
    | some m => some [⟨.release, i, some f, "    free(" ++ base_name ++ "->" ++ m ++ ");\n"⟩]
    | none => none
  | .t_array_of_string =>
    match get_path_var ts (path_fuel ts) i f.name with
    | some m =>
      some [⟨.free_head, i, some f, "    for (int i = 0; i < " ++ base_name ++ "->" ++ m
              ++ "_len; ++i) \x7b\n"⟩,
            ⟨.free_elem, i, some f, "        free(" ++ base_name ++ "->" ++ m ++ "[i]);\n"⟩,
            ⟨.free_end, i, some f, "    \x7d\n"⟩,
            ⟨.release, i, some f, "    free(" ++ base_name ++ "->" ++ m ++ ");\n"⟩]
    | none => none
  | _ => some []

/-- The lambda `free_r` on the table at index `i`. -/
def free_r (ts : List Table) (base_name : String) : Nat → Nat → Option (List Piece)
  | 0, _ => none
  | fuel + 1, i =>
    match ts[i]? with
    | none => none
    | some t =>
      match collect (free_field ts base_name i) t.fields with
      | none => none
      | some fs =>
        match collect (free_r ts base_name fuel) t.children with
        | none => none
        | some cs => some (fs ++ cs)

/-! ## Writer: the passes as `Writer::write` and `c_src` start them -/

/-- The call `this->h_struct(root)` of `Writer::write`. -/
def write_h_struct (ts : List Table) : Option (List Piece) :=
  h_struct ts (path_fuel ts) get_root

/-- The loop `for (c : root.children) decl_r(*c)` of `c_src`. -/
def c_src_decl (ts : List Table) : Option (List Piece) :=
  match ts[get_root]? with
  | none => none
  | some root => collect (decl_r ts (path_fuel ts)) root.children

/-- The loop `for (c : root.children) check_r(*c)` of `c_src`. -/
def c_src_check (ts : List Table) : Option (List Piece) :=
  match ts[get_root]? with
  | none => none
  | some root => collect (check_r ts (base_name_of root.name) (path_fuel ts)) root.children

/-- The call `read_r(root)` of `c_src`. -/
def c_src_read (ts : List Table) : Option (List Piece) :=
  match ts[get_root]? with
  | none => none
  | some root => read_r ts (base_name_of root.name) (path_fuel ts) get_root

/-- The call `print_r(root)` of `c_src`. -/
def c_src_print (ts : List Table) : Option (List Piece) :=
  match ts[get_root]? with
  | none => none
  | some root => print_r ts (base_name_of root.name) (path_fuel ts) get_root

/-- The call `free_r(root)` of `c_src`. -/
def c_src_free (ts : List Table) : Option (List Piece) :=
  match ts[get_root]? with
  | none => none
  | some root => free_r ts (base_name_of root.name) (path_fuel ts) get_root

/-! ## Writer: fixed text and the two artifacts -/

/-- The expression `lib_base_name.size() ? lib_base_name + "-" : ""`. -/
def lib_dash : String := if lib_base_name.length ≠ 0 then lib_base_name ++ "-" else ""

/-- Source function `Writer::h_header`. -/
def h_header : String :=
  "#pragma once\n#include <stdbool.h>\n#include <stdint.h>\n#include <stdio.h>\n\ntypedef "

/-- Source function `Writer::h_functions`. -/
def h_functions (name : String) : String :=
  "\n#ifdef __cplusplus\nextern \"C\" \x7b\n#endif\nint  "
    ++ lib_tag
    ++ (base_name_of name ++ "_read(const char* file, " ++ name ++ "** " ++ base_name_of name
      ++ ");\n")
    ++ ("void " ++ lib_tag ++ base_name_of name ++ "_print(const " ++ name ++ "* "
      ++ base_name_of name ++ ");\n")
    ++ ("void " ++ lib_tag ++ base_name_of name ++ "_free(" ++ name ++ "* " ++ base_name_of name
      ++ ");")
    ++ "\n#ifdef __cplusplus\n\x7d\n#endif"

/-- The file name opened by `Writer::h_finalize`. -/
def h_file_name (o_name : String) : String := lib_dash ++ o_name ++ ".h"

/-- The file name opened by `Writer::c_finalize`. -/
def c_file_name (o_name : String) : String := lib_dash ++ o_name ++ ".c"

/-- The text appended by `c_src` before the handle declarations, ending in
`toml_table_t `. -/
def c_src_prologue (o_name name : String) : String :=
  ("#include \"" ++ lib_dash ++ o_name)
    ++ ".h\"\n#include <stdlib.h>\n#include <toml.h>\n\nint "
    ++ lib_tag
    ++ (base_name_of name ++ "_read(const char* file_path, " ++ name ++ "** "
      ++ base_name_of name ++ ") \x7b")
    ++ "\n    FILE* fp;\n    toml_table_t* root;\n    char errbuf[200];\n\n    if (*"
    ++ (base_name_of name ++ " == NULL) \x7b\n")
    ++ ("        *" ++ base_name_of name ++ " = calloc(1, sizeof(" ++ name ++ "));\n")
    ++ "    \x7d\n"
    ++ "\n    /* Open the file. */\n    if (0 == (fp = fopen(file_path, \"r\"))) \x7b\n        fprintf(stderr, \""
    ++ (lib_tag ++ base_name_of name)
    ++ "_read() failed: couldn\x27t open %s\", file_path);\n        return 1;\n    \x7d\n\n    /* Run the file through the parser. */\n    root = toml_parse_file(fp, errbuf, sizeof(errbuf));\n    if (0 == root) \x7b\n        fprintf(stderr, \""
    ++ (lib_tag ++ base_name_of name)
    ++ "_read() failed: error while parsing %s\", file_path);\n        return 1;\n    \x7d\n    fclose(fp);\n    // Tables \n    toml_table_t "

/-- The assignment `*(this->out.end()-2) = ';'`. -/
def rewrite_terminator (out : String) : String :=
  String.mk (out.data.set (out.data.length - 2) ';')

/-- The text in `Writer::out` of `c_src` after the terminator rewrite and the
line break that follows it: prologue and handle declarations. -/
def c_src_handles (o_name : String) (ts : List Table) : Option String :=
  match ts[get_root]?, c_src_decl ts with
  | some root, some ds =>
    some (rewrite_terminator (c_src_prologue o_name root.name ++ render ds) ++ "\n")
  | _, _ => none

/-- Source function `Writer::c_src`: the whole implementation text. -/
def c_src (o_name : String) (ts : List Table) : Option String :=
  match ts[get_root]?, c_src_handles o_name ts, c_src_check ts, c_src_read ts,
    c_src_print ts, c_src_free ts with
  | some root, some hs, some cs, some rs, some ps, some fs =>
    some (hs ++ render cs
      ++ "\n    toml_datum_t datum;\n    toml_array_t* arr;\n"
      ++ render rs
      ++ "\n    toml_free(root);\n    return 0;\n\x7d\n\n"
      ++ ("void " ++ lib_tag ++ base_name_of root.name ++ "_print(const " ++ root.name ++ "* "
        ++ base_name_of root.name ++ ") \x7b\n")
      ++ ("    printf(\"Read " ++ base_name_of root.name ++ ".toml values:\\n\");\n\n")
      ++ render ps
      ++ "\n    fflush(stdout);\n\x7d\n\n"
      ++ ("    void " ++ lib_tag ++ base_name_of root.name ++ "_free(" ++ root.name ++ "* "
        ++ base_name_of root.name ++ ") \x7b\n")
      ++ render fs
      ++ ("\n    free(" ++ base_name_of root.name ++ ");\n\x7d\n"))
  | _, _, _, _, _, _ => none

/-- A file written by the writer: its name and its content. -/
structure Artifact where
  name : String
  text : String
  deriving DecidableEq, Repr

/-- The declaration text assembled by `Writer::write` before `h_finalize`. -/
def h_text (ts : List Table) : Option String :=
  match ts[get_root]?, write_h_struct ts with
  | some root, some ds => some (h_header ++ render ds ++ h_functions root.name)
  | _, _ => none

/-- Source function `Writer::write`: the declaration artifact and the
implementation artifact for the input path `name` and the schema tree `ts`. -/
def write (name : String) (ts : List Table) : Option (Artifact × Artifact) :=
  match h_text ts, c_src (strip_name name) ts with
  | some h, some c =>
    some (⟨h_file_name (strip_name name), h⟩, ⟨c_file_name (strip_name name), c⟩)
  | _, _ => none

/-- The body of `main` after the argument check: parse, then write. -/
def run (file : String) (tbl : List (String × Node)) : Option (Artifact × Artifact) :=
  match parser file tbl with
  | some r => write file r.tables
  | none => none

/-! ## Vocabulary of the specification -/

/-- The member-access path `m1 + "." + ... + mk + "." + last`. -/
def member_path (ms : List String) (last : String) : String :=
  ms.foldr (fun m acc => m ++ "." ++ acc) last

/-- The chain of non-root tables from the outermost ancestor of the table at
index `i` down to that table itself (empty for the root). -/
def ancestors (ts : List Table) : Nat → Nat → Option (List Table)
  | 0, _ => none
  | fuel + 1, i =>
    match ts[i]? with
    | none => none
    | some t =>
      match t.parent with
      | none => some []
      | some p => (ancestors ts fuel p).map fun l => l ++ [t]

/-- The Field that the classification rules of the Schema Builder assign to
one key/value pair, if any: a scalar of a supported type gives the Field of that
kind, a non-empty homogeneous array gives the array kind of its first element
when that is a supported scalar, everything else gives nothing. -/
def entry_field (key : String) : Node → Option Field
  | .integer _ => some ⟨cvar key, .t_int⟩
  | .string _ => some ⟨cvar key, .t_string⟩
  | .floating_point _ => some ⟨cvar key, .t_double⟩
  | .boolean _ => some ⟨cvar key, .t_bool⟩
  | .array (first :: rest) =>
    if rest.all (fun el => decide (el.type = first.type)) then
      match first.type with
      | .integer => some ⟨cvar key, .t_array_of_int⟩
      | .floating_point => some ⟨cvar key, .t_array_of_double⟩
      | .boolean => some ⟨cvar key, .t_array_of_bool⟩
      | .string => some ⟨cvar key, .t_array_of_string⟩
      | _ => none
    else none
  | _ => none

/-- The keys of the table-valued entries, in encounter order. -/
def table_keys : List (String × Node) → List String
  | [] => []
  | (key, .table _) :: rest => key :: table_keys rest
  | _ :: rest => table_keys rest

mutual
/-- No table reachable through nested tables holds an empty array as a value. -/
def Node.no_empty_array : Node → Bool
  | .table entries => entries_no_empty_array entries
  | .array [] => false
  | _ => true
/-- No value of these entries, at any table nesting, is an empty array. -/
def entries_no_empty_array : List (String × Node) → Bool
  | [] => true
  | (_, value) :: rest => value.no_empty_array && entries_no_empty_array rest
end

/-- The table `inner` put back into its enclosing tables: each frame of `ctx`,
innermost first, gives the entries before, the key of, and the entries after
the nested table. -/
def plug : List (List (String × Node) × String × List (String × Node)) →
    List (String × Node) → List (String × Node)
  | [], inner => inner
  | (before, key, after) :: ctx, inner => plug ctx (before ++ (key, Node.table inner) :: after)

/-- The pre-order sequence of the Fields below the table at index `i`, each with
the index of its table: the fields of the table in encounter order, then those
of its children in encounter order. -/
def preorder_fields (ts : List Table) : Nat → Nat → Option (List (Nat × Field))
  | 0, _ => none
  | fuel + 1, i =>
    match ts[i]? with
    | none => none
    | some t =>
      match collect (preorder_fields ts fuel) t.children with
      | none => none
      | some cs => some (t.fields.map (fun f => (i, f)) ++ cs)

/-- Every parent index is smaller than the index of the table, every child index
is larger and inside the deque. -/
def well_formed (ts : List Table) : Bool :=
  (List.range ts.length).all fun i =>
    match ts[i]? with
    | none => false
    | some t =>
      (match t.parent with
        | some p => decide (p < i)
        | none => true)
      && t.children.all fun c => decide (i < c) && decide (c < ts.length)

/-- The kinds of Field that own heap memory. -/
def heap_kind : FieldType → Bool
  | .t_string => true
  | .t_array_of_int => true
  | .t_array_of_double => true
  | .t_array_of_bool => true
  | .t_array_of_string => true
  | _ => false

/-- The (table index, Field) pairs for which pieces of statement `s` were
emitted, in emission order. -/
def fields_of (s : Stmt) (ps : List Piece) : List (Nat × Field) :=
  ps.filterMap fun p =>
    if p.stmt = s then p.field.map fun f => (p.table, f) else none

/-- The fields of statement `member` and `member_len` among the pieces: the
texts of the member declarations, in emission order. -/
def member_decls (ps : List Piece) : List String :=
  (ps.filter fun p => decide (p.stmt = .member ∨ p.stmt = .member_len)).map fun p => p.text

/-- The name, parent pointer and depth of the table at index `c`. -/
def child_info (ts : List Table) (c : Nat) : Option (String × Option Nat × Nat) :=
  ts[c]?.map fun t => (t.name, t.parent, t.depth)

/-- What one run of the `for_each` of `tabler` on the table `tp` at index `p`
does to the reader state: `fs` are the appended fields, `cs` the indices of the
appended children, `keys` their names; tables other than `p` that existed
before are untouched and the depth counter is restored. -/
def Extends (p : Nat) (tp : Table) (fs : List Field) (keys : List String)
    (r r' : Reader) (cs : List Nat) : Prop :=
  r'.c_depth = r.c_depth
  ∧ r.tables.length ≤ r'.tables.length
  ∧ (∀ i, i < r.tables.length → i ≠ p → r'.tables[i]? = r.tables[i]?)
  ∧ r'.tables[p]? = some { tp with fields := tp.fields ++ fs, children := tp.children ++ cs }
  ∧ (∀ c ∈ cs, r.tables.length ≤ c ∧ c < r'.tables.length)
  ∧ cs.Pairwise (fun a b => a < b)
  ∧ cs.map (child_info r'.tables)
      = keys.map fun k => some (k, some p, (r.c_depth % 256).toNat)

/-- No field of any table has the untyped-array kind. -/
def no_untyped (ts : List Table) : Prop :=
  ∀ (i : Nat) (t : Table), ts[i]? = some t → ∀ f ∈ t.fields, f.type ≠ FieldType.t_array

/-- The two conditions of `well_formed` on every table, as a proposition. -/
def WellFormed (ts : List Table) : Prop :=
  ∀ (i : Nat) (t : Table), ts[i]? = some t →
    (∀ p, t.parent = some p → p < i) ∧ ∀ c ∈ t.children, i < c ∧ c < ts.length

/-- The pieces `fs` of the free pass release the heap-owning fields declared by
the pieces `ds` of the declaration pass, in the same order, each through its
member-access path. -/
def free_mirrors (ts : List Table) (base_name : String) (ds fs : List Piece) : Prop :=
  fields_of .release fs = (fields_of .member ds).filter (fun tf => heap_kind tf.2.type)
  ∧ ∀ q ∈ fs, q.stmt = .release →
      ∃ f m, q.field = some f ∧ get_path_var ts (path_fuel ts) q.table f.name = some m
        ∧ q.text = "    free(" ++ base_name ++ "->" ++ m ++ ");\n"

/-- The table that the table case of `tabler` creates for `key` below the table
at index `parent`. -/
def new_table (parent : Nat) (key : String) (r : Reader) : Table :=
  { fields := [], children := [], parent := some parent,
    depth := (r.c_depth % 256).toNat, name := key }

/-- The document `[t]`, `[t.t]`, ... : `n` tables named `t`, each nested in the
one before. -/
def nest : Nat → List (String × Node)
  | 0 => []
  | n + 1 => [("t", Node.table (nest n))]

/-- The name, parent pointer and stored depth of every table that existed in
`r` are the same in `r'`. -/
def keeps_tables (r r' : Reader) : Prop :=
  ∀ (i : Nat) (t : Table), r.tables[i]? = some t →
    ∃ t', r'.tables[i]? = some t' ∧ t'.name = t.name ∧ t'.parent = t.parent
      ∧ t'.depth = t.depth

/-- The kinds of Field read by one scalar extraction call. -/
def scalar_kind : FieldType → Bool
  | .t_int => true
  | .t_double => true
  | .t_bool => true
  | .t_string => true
  | _ => false

/-- The number of pieces appended by statement `s`. -/
def count_stmt (s : Stmt) (ps : List Piece) : Nat :=
  (ps.filter fun p => decide (p.stmt = s)).length

/-- The number of scalar extraction statements (`toml_int_in`, `toml_double_in`,
`toml_bool_in`, `toml_string_in`) among the pieces of the read pass. -/
def count_scalar_extract (ps : List Piece) : Nat :=
  ((fields_of .extract ps).filter fun tf => scalar_kind tf.2.type).length

/-- The document of the end-to-end example: `title = "x"` and a table
`[server]` with `port = 8080` and `tags = ["a","b"]`. -/
def example_doc : List (String × Node) :=
  [("title", .string "x"),
    ("server", .table [("port", .integer 8080), ("tags", .array [.string "a", .string "b"])])]

/-- The Field kind of a scalar value of a supported type. -/
def supported_scalar : Node → Option FieldType
  | .integer _ => some .t_int
  | .string _ => some .t_string
  | .floating_point _ => some .t_double
  | .boolean _ => some .t_bool
  | _ => none

/-- The value is a scalar: neither a table nor an array. -/
def is_scalar : Node → Bool
  | .table _ => false
  | .array _ => false
  | _ => true

/-- Two characters agree, or each of them is `-` or `_`. -/
def same_or_dash (a b : Char) : Prop :=
  a = b ∨ ((a = '-' ∨ a = '_') ∧ (b = '-' ∨ b = '_'))

/-- The table indices for which pieces of statement `s` were emitted, in
emission order. -/
def tables_of (s : Stmt) (ps : List Piece) : List Nat :=
  ps.filterMap fun p => if p.stmt = s then some p.table else none

/-- The (table index, Field) pairs for which pieces of one of the statements
`ss` were emitted, in emission order. -/
def fields_of_any (ss : List Stmt) (ps : List Piece) : List (Nat × Field) :=
  ps.filterMap fun p =>
    if p.stmt ∈ ss then p.field.map fun f => (p.table, f) else none

/-- The pre-order sequence of the tables at and below index `i`: the table
itself, then the tables of its children in encounter order. -/
def preorder_tables (ts : List Table) : Nat → Nat → Option (List Nat)
  | 0, _ => none
  | fuel + 1, i =>
    match ts[i]? with
    | none => none
    | some t =>
      match collect (preorder_tables ts fuel) t.children with
      | none => none
      | some cs => some (i :: cs)

/-- The recursion scheme shared by `read_r`, `print_r` and `free_r`: the loop
body `fld` over the fields of the table, then the pass over its children. -/
def is_walk (ts : List Table) (fld : Nat → Table → Field → Option (List Piece))
    (pass : Nat → Nat → Option (List Piece)) : Prop :=
  (∀ i, pass 0 i = none)
  ∧ ∀ fuel i, pass (fuel + 1) i =
      match ts[i]? with
      | none => none
      | some t =>
        match collect (fld i t) t.fields with
        | none => none
        | some fs =>
          match collect (pass fuel) t.children with
          | none => none
          | some cs => some (fs ++ cs)

/-- The recursion scheme shared by `decl_r` and `check_r`: one piece `head` for
the table, then the pass over its children. -/
def is_headed_walk (ts : List Table) (head : Nat → Table → Option Piece)
    (pass : Nat → Nat → Option (List Piece)) : Prop :=
  (∀ i, pass 0 i = none)
  ∧ ∀ fuel i, pass (fuel + 1) i =
      match ts[i]? with
      | none => none
      | some t =>
        match head i t with
        | none => none
        | some q =>
          match collect (pass fuel) t.children with
          | none => none
          | some cs => some (q :: cs)

/-- The schema tree of the end-to-end example document. -/
def example_tables : List Table :=
  [⟨[⟨"title", .t_string⟩], [1], none, 0, "cfg_t"⟩,
    ⟨[⟨"port", .t_int⟩, ⟨"tags", .t_array_of_string⟩], [], some 0, 1, "server"⟩]

mutual
/-- Two values differ at most in scalar values and in the elements or lengths
of non-empty homogeneous arrays with the same element type tag: tables are
compared entry by entry, a scalar matches any scalar of its type, an array
matches itself or, when both are non-empty and homogeneous, an array whose
first element has the same type tag. -/
def Node.same_shape : Node → Node → Prop
  | .table entries, w =>
    match w with
    | .table entries' => entries_same_shape entries entries'
    | _ => False
  | .array elems, w =>
    w = .array elems
    ∨ ∃ first rest first' rest', elems = first :: rest ∧ w = .array (first' :: rest')
        ∧ (∀ el ∈ rest, el.type = first.type) ∧ (∀ el ∈ rest', el.type = first'.type)
        ∧ first.type = first'.type
  | .string _, w => w.type = .string
  | .integer _, w => w.type = .integer
  | .floating_point _, w => w.type = .floating_point
  | .boolean _, w => w.type = .boolean
  | .date _, w => w.type = .date
  | .time _, w => w.type = .time
  | .date_time _, w => w.type = .date_time
/-- Two documents have the same keys in the same order, with values that differ
at most as `Node.same_shape` allows. -/
def entries_same_shape : List (String × Node) → List (String × Node) → Prop
  | [], d' => d' = []
  | (key, value) :: rest, d' =>
    match d' with
    | [] => False
    | (key', value') :: rest' =>
      key = key' ∧ value.same_shape value' ∧ entries_same_shape rest rest'
end

/-- The loop head, the allocation and the length assignment emitted by the read
pass use the runtime element count `toml_array_nelem(arr)`. -/
def runtime_bound (q : Piece) : Prop :=
  (q.stmt = .copy_head → ∃ at_fn, q.text
      = "    for (int i = 0; i < toml_array_nelem(arr); ++i) \x7b\n        datum = " ++ at_fn
        ++ "(arr, i);\n")
  ∧ (q.stmt = .store_len → ∃ lhs, q.text = lhs ++ "_len = toml_array_nelem(arr);\n")
  ∧ (q.stmt = .alloc → ∃ lhs c_type, q.text
      = lhs ++ " = malloc(toml_array_nelem(arr) * sizeof(" ++ c_type ++ "));\n")

/-- The number of `.` characters of a string. -/
def dots (s : String) : Nat := s.data.count '.'

/-- The number of open blocks after the piece `q`, when `d` were open before. -/
def next_depth (d : Nat) (q : Piece) : Nat :=
  match q.stmt with
  | .block_open => d + 1
  | .block_close => d - 1
  | _ => d

/-- The number of open blocks after all the pieces, when `d` were open before. -/
def end_depth : Nat → List Piece → Nat
  | d, [] => d
  | d, q :: rest => end_depth (next_depth d q) rest

/-- Every piece with the number of blocks of the declaration that are open when
it is emitted, `d` being open at the start. -/
def with_block_depth : Nat → List Piece → List (Piece × Nat)
  | _, [] => []
  | d, q :: rest => (q, d) :: with_block_depth (next_depth d q) rest

/-- Every child pointer of a table leads to a table whose parent pointer leads
back. -/
def Linked (ts : List Table) : Prop :=
  ∀ (i : Nat) (t : Table), ts[i]? = some t →
    ∀ c ∈ t.children, ∃ tc, ts[c]? = some tc ∧ tc.parent = some i

/-- What the declaration pass emits below one table keeps the blocks balanced,
and every member is declared inside one block more than the table has
ancestors, counted from the `base` blocks open around the root. -/
def nested_right (ts : List Table) (base d : Nat) (out : List Piece) : Prop :=
  end_depth d out = d
  ∧ ∀ qe ∈ with_block_depth d out, qe.1.stmt = .member →
      ∃ chq, ancestors ts (path_fuel ts) qe.1.table = some chq
        ∧ qe.2 = chq.length + base + 1

/-- The texts of the allocation statements among the pieces. -/
def alloc_texts (ps : List Piece) : List String :=
  (ps.filter fun p => decide (p.stmt = .alloc)).map fun p => p.text

/-! ## The text that the generated code is expected to hold -/

/-- The member declaration of a Field of kind `ty` named `name` in the
declaration text, at indentation `ind`: one member for a scalar kind, the
pointer member followed by its paired length member for an array kind. -/
def member_code (ind name : String) : FieldType → String
  | .t_int => ind ++ "int64_t " ++ name ++ ";\n"
  | .t_string => ind ++ "char* " ++ name ++ ";\n"
  | .t_double => ind ++ "double " ++ name ++ ";\n"
  | .t_bool => ind ++ "bool " ++ name ++ ";\n"
  | .t_array => ind ++ "void** " ++ name ++ ";\n" ++ ind ++ "size_t " ++ name ++ "_len;\n"
  | .t_array_of_int =>
    ind ++ "int64_t* " ++ name ++ ";\n" ++ ind ++ "size_t " ++ name ++ "_len;\n"
  | .t_array_of_double =>
    ind ++ "double* " ++ name ++ ";\n" ++ ind ++ "size_t " ++ name ++ "_len;\n"
  | .t_array_of_bool =>
    ind ++ "bool* " ++ name ++ ";\n" ++ ind ++ "size_t " ++ name ++ "_len;\n"
  | .t_array_of_string =>
    ind ++ "char** " ++ name ++ ";\n" ++ ind ++ "size_t " ++ name ++ "_len;\n"

/-- The extraction code of the read routine for a Field of kind `ty`: the
extraction call on the table handle `h` with the key literal `key`, then the
assignment to the member `m` of the record `base`; for an array kind the
allocation, the copy loop and the assignment of the length member.  The text is
that of the source: the Bool array case sizes its allocation by `double` and
does not indent its length assignment. -/
def read_code (base h key m : String) : FieldType → String
  | .t_int =>
    "    datum = toml_int_in(" ++ h ++ ", \"" ++ key ++ "\");\n"
      ++ "    (*" ++ base ++ ")->" ++ m ++ " = datum.u.i;\n"
  | .t_double =>
    "    datum = toml_double_in(" ++ h ++ ", \"" ++ key ++ "\");\n"
      ++ "    (*" ++ base ++ ")->" ++ m ++ " = datum.u.d;\n"
  | .t_bool =>
    "    datum = toml_bool_in(" ++ h ++ ", \"" ++ key ++ "\");\n"
      ++ "    (*" ++ base ++ ")->" ++ m ++ " = datum.u.b;\n"
  | .t_string =>
    "    datum = toml_string_in(" ++ h ++ ", \"" ++ key ++ "\");\n"
      ++ "    (*" ++ base ++ ")->" ++ m ++ " = datum.u.s;\n"
  | .t_array_of_int =>
    "    arr = toml_array_in(" ++ h ++ ", \"" ++ key ++ "\");\n"
      ++ "    (*" ++ base ++ ")->" ++ m ++ " = malloc(toml_array_nelem(arr) * sizeof(int64_t));\n"
      ++ "    for (int i = 0; i < toml_array_nelem(arr); ++i) \x7b\n        datum = toml_int_at(arr, i);\n"
      ++ "        (*" ++ base ++ ")->" ++ m ++ "[i] = datum.u.i;\n"
      ++ "    \x7d\n"
      ++ "    (*" ++ base ++ ")->" ++ m ++ "_len = toml_array_nelem(arr);\n"
  | .t_array_of_double =>
    "    arr = toml_array_in(" ++ h ++ ", \"" ++ key ++ "\");\n"
      ++ "    (*" ++ base ++ ")->" ++ m ++ " = malloc(toml_array_nelem(arr) * sizeof(double));\n"
      ++ "    for (int i = 0; i < toml_array_nelem(arr); ++i) \x7b\n        datum = toml_double_at(arr, i);\n"
      ++ "        (*" ++ base ++ ")->" ++ m ++ "[i] = datum.u.d;\n"
      ++ "    \x7d\n"
      ++ "    (*" ++ base ++ ")->" ++ m ++ "_len = toml_array_nelem(arr);\n"
  | .t_array_of_bool =>
    "    arr = toml_array_in(" ++ h ++ ", \"" ++ key ++ "\");\n"
      ++ "    (*" ++ base ++ ")->" ++ m ++ " = malloc(toml_array_nelem(arr) * sizeof(double));\n"
      ++ "    for (int i = 0; i < toml_array_nelem(arr); ++i) \x7b\n        datum = toml_bool_at(arr, i);\n"
      ++ "        (*" ++ base ++ ")->" ++ m ++ "[i] = datum.u.b;\n"
      ++ "    \x7d\n"
      ++ "(*" ++ base ++ ")->" ++ m ++ "_len = toml_array_nelem(arr);\n"
  | .t_array_of_string =>
    "    arr = toml_array_in(" ++ h ++ ", \"" ++ key ++ "\");\n"
      ++ "    (*" ++ base ++ ")->" ++ m ++ " = malloc(toml_array_nelem(arr) * sizeof(char*));\n"
      ++ "    for (int i = 0; i < toml_array_nelem(arr); ++i) \x7b\n        datum = toml_string_at(arr, i);\n"
      ++ "        (*" ++ base ++ ")->" ++ m ++ "[i] = datum.u.s;\n"
      ++ "    \x7d\n"
      ++ "    (*" ++ base ++ ")->" ++ m ++ "_len = toml_array_nelem(arr);\n"
  | .t_array => ""

/-- The output code of the print routine for a Field of kind `ty` at the member
`m` of the record `base`: one `printf` statement for a scalar kind, one index
loop over the length member for an array kind. -/
def print_code (base m : String) : FieldType → String
  | .t_int =>
    "    printf(\"" ++ base ++ "." ++ m ++ " = %ld\\n\", " ++ base ++ "->" ++ m ++ ");\n"
  | .t_double =>
    "    printf(\"" ++ base ++ "." ++ m ++ " = %lf\\n\", " ++ base ++ "->" ++ m ++ ");\n"
  | .t_bool =>
    "    printf(\"" ++ base ++ "." ++ m ++ " = %s\\n\", " ++ base ++ "->" ++ m
      ++ "? \"true\":\"false\");\n"
  | .t_string =>
    "    printf(\"" ++ base ++ "." ++ m ++ " = %s\\n\", " ++ base ++ "->" ++ m ++ ");\n"
  | .t_array_of_int =>
    "    for (int i = 0; i < " ++ base ++ "->" ++ m ++ "_len; ++i) \x7b\n"
      ++ "        printf(\"" ++ base ++ "." ++ m ++ "[%d] = %ld\\n\", i, " ++ base ++ "->" ++ m
      ++ "[i]);\n" ++ "    \x7d;\n"
  | .t_array_of_double =>
    "    for (int i = 0; i < " ++ base ++ "->" ++ m ++ "_len; ++i) \x7b\n"
      ++ "        printf(\"" ++ base ++ "." ++ m ++ "[%d] = %lf\\n\", i, " ++ base ++ "->" ++ m
      ++ "[i]);\n" ++ "    \x7d;\n"
  | .t_array_of_bool =>
    "    for (int i = 0; i < " ++ base ++ "->" ++ m ++ "_len; ++i) \x7b\n"
      ++ "        printf(\"" ++ base ++ "." ++ m ++ "[%d] = %s\\n\", i, " ++ base ++ "->" ++ m
      ++ "[i]?\"true\":\"false\");\n" ++ "    \x7d;\n"
  | .t_array_of_string =>
    "    for (int i = 0; i < " ++ base ++ "->" ++ m ++ "_len; ++i) \x7b\n"
      ++ "        printf(\"" ++ base ++ "." ++ m ++ "[%d] = %s\\n\", i, " ++ base ++ "->" ++ m
      ++ "[i]);\n" ++ "    \x7d;\n"
  | .t_array => ""

/-- The lookup statement of the read routine for the table with key `name`:
the handle `h` is resolved from the handle `ph`, and a missing table is
reported by name. -/
def lookup_code (base h ph name : String) : String :=
  "    if (!(" ++ h ++ " = toml_table_in(" ++ ph ++ ", \"" ++ tvar name
    ++ "\"))) \x7b\n        fprintf(stderr, \"" ++ lib_tag ++ base
    ++ "_read() failed: failed locating [" ++ name
    ++ "] table\");\n        return 1;\n    \x7d\n"

/-- The text `code` is the extraction code of the read routine for the Field
`tf.2` of the table at index `tf.1`. -/
def reads_field (ts : List Table) (base : String) (tf : Nat × Field) (code : String) : Prop :=
  ∃ t h m, ts[tf.1]? = some t ∧ get_path ts (path_fuel ts) tf.1 t.name = some h
    ∧ get_path_var ts (path_fuel ts) tf.1 tf.2.name = some m
    ∧ code = read_code base h (tvar tf.2.name) m tf.2.type

/-- The text `code` is the output code of the print routine for the Field
`tf.2` of the table at index `tf.1`. -/
def prints_field (ts : List Table) (base : String) (tf : Nat × Field) (code : String) : Prop :=
  ∃ m, get_path_var ts (path_fuel ts) tf.1 tf.2.name = some m
    ∧ code = print_code base m tf.2.type

/-- The text `code` is the declarator of the handle of the table at index `c`
in the handle declaration of the read routine. -/
def declares_handle (ts : List Table) (c : Nat) (code : String) : Prop :=
  ∃ t h, ts[c]? = some t ∧ get_path ts (path_fuel ts) c t.name = some h
    ∧ code = "*" ++ h ++ ", "

/-- The text `code` is the lookup statement of the read routine for the table
at index `c`. -/
def looks_up (ts : List Table) (base : String) (c : Nat) (code : String) : Prop :=
  ∃ t h ph, ts[c]? = some t ∧ get_path ts (path_fuel ts) c t.name = some h
    ∧ get_parent_path ts (path_fuel ts) c "" = some ph
    ∧ code = lookup_code base h ph t.name

/-- One step of the pre-order walk of the declaration pass: a table is entered,
one of its fields is visited, or the table is left. -/
inductive Visit where
  | enter (i : Nat)
  | field (i : Nat) (f : Field)
  | leave (i : Nat)
  deriving DecidableEq, Repr

/-- The pre-order walk below the table at index `i`: the table is entered, its
fields are visited in encounter order, then its children are walked in
encounter order, then the table is left. -/
def preorder_visits (ts : List Table) : Nat → Nat → Option (List Visit)
  | 0, _ => none
  | fuel + 1, i =>
    match ts[i]? with
    | none => none
    | some t =>
      match collect (preorder_visits ts fuel) t.children with
      | none => none
      | some cs => some (Visit.enter i :: t.fields.map (Visit.field i) ++ cs ++ [Visit.leave i])

/-- The text of the declaration for one step of the walk: the opening of a
block, the member declaration of a Field, or the closing of the block under the
sanitised name of the table. -/
def declaration_code (ts : List Table) : Visit → String
  | .enter i =>
    match ts[i]? with
    | some t => mk_indent t.depth ++ "struct \x7b\n"
    | none => ""
  | .field i f =>
    match ts[i]? with
    | some t => member_code (mk_indent (t.depth + 1)) f.name f.type
    | none => ""
  | .leave i =>
    match ts[i]? with
    | some t => mk_indent t.depth ++ "\x7d " ++ cvar t.name ++ ";\n"
    | none => ""

/-- The Fields visited by a walk, each with the index of its table. -/
def visit_fields (vs : List Visit) : List (Nat × Field) :=
  vs.filterMap fun v =>
    match v with
    | .field i f => some (i, f)
    | _ => none

/-- In the sequence `l` every table stands before its children: whenever the
table `c` occurs, each child of `c` occurs later. -/
def parents_first (ts : List Table) (l : List Nat) : Prop :=
  ∀ (before after : List Nat) (c : Nat) (t : Table), l = before ++ c :: after →
    ts[c]? = some t → ∀ d ∈ t.children, d ∈ after

/-- The pieces `out` are one block of the declaration: after the indentation
the line that opens a struct block, at the end the indentation and the closing line
that names the block `m`; the pieces `inner` stand inside it, between the
opening line and the closing line. -/
def holds_in_block (out : List Piece) (m : String) (inner : List Piece) : Prop :=
  ∃ (i1 opening : Piece) (a b : List Piece) (i2 closing : Piece),
    out = i1 :: opening :: a ++ inner ++ b ++ [i2, closing]
    ∧ opening.text = "struct \x7b\n" ∧ closing.text = "\x7d " ++ m ++ ";\n"

/-- The pieces `inner` stand in the declaration `out`, a block named `m`, below
the chain of tables `chain` (outermost first): the block that `h_struct` emits
for the first table of the chain stands inside `out` and is named by the
sanitised name of that table, the block of each further table stands inside the
block of the table before it, and `inner` stands inside the block of the last
table of the chain (inside `out` itself when the chain is empty). -/
def nested_decl (ts : List Table) : List Piece → String → List Table → List Piece → Prop
  | out, m, [], inner => holds_in_block out m inner
  | out, m, tc :: rest, inner =>
    ∃ c oc, ts[c]? = some tc ∧ h_struct ts (path_fuel ts) c = some oc
      ∧ holds_in_block out m oc ∧ nested_decl ts oc (cvar tc.name) rest inner

/-- Every table other than the root is listed among the children of the table
that its parent pointer leads to. -/
def Attached (ts : List Table) : Prop :=
  ∀ (i : Nat) (t : Table), ts[i]? = some t → i ≠ 0 →
    ∃ p tp, t.parent = some p ∧ ts[p]? = some tp ∧ i ∈ tp.children

/-- Every field name is left unchanged by `cvar`. -/
def Sanitised (ts : List Table) : Prop :=
  ∀ (i : Nat) (t : Table), ts[i]? = some t → ∀ f ∈ t.fields, cvar f.name = f.name

/-- A document with a table nested in a table: `[web-server.tls]` holding
`max-conn = 1`. -/
def nested_example_doc : List (String × Node) :=
  [("web-server", .table [("tls", .table [("max-conn", .integer 1)])])]

/-- The schema tree of `nested_example_doc` for the input path `cfg.toml`. -/
def nested_example_tables : List Table :=
  [⟨[], [1], none, 0, "cfg_t"⟩, ⟨[], [2], some 0, 1, "web-server"⟩,
    ⟨[⟨"max_conn", .t_int⟩], [], some 1, 2, "tls"⟩]

/-! # Theorems -/

set_option maxRecDepth 100000

/-! ## Strings -/

theorem replace_char_append (a b : Char) (s t : String) :
    replace_char a b (s ++ t) = replace_char a b s ++ replace_char a b t := by
  apply String.ext
  simp [replace_char]

theorem cvar_append (s t : String) : cvar (s ++ t) = cvar s ++ cvar t :=
  replace_char_append _ _ s t

theorem cvar_cvar (s : String) : cvar (cvar s) = cvar s := by
  apply String.ext
  simp only [cvar, replace_char, List.map_map]
  apply List.map_congr_left
  intro c _
  by_cases h : c = '-'
  · subst h; decide
  · simp [h]

theorem cvar_dot : cvar "." = "." := by decide

/-! ## The path lambdas -/

theorem get_path_var_of_ancestors (ts : List Table) :
    ∀ (fuel i : Nat) (path : String) (chain : List Table),
      ancestors ts fuel i = some chain →
      get_path_var ts fuel i path
        = some (cvar (chain.foldr (fun t acc => t.name ++ "." ++ acc) path)) := by
  intro fuel
  induction fuel with
  | zero => intro i path chain h; simp [ancestors] at h
  | succ n ih =>
    intro i path chain h
    unfold ancestors at h
    unfold get_path_var
    cases hi : ts[i]? with
    | none => simp [hi] at h
    | some t =>
      simp only [hi] at h ⊢
      cases hp : t.parent with
      | none =>
        simp only [hp] at h ⊢
        cases h
        rfl
      | some p =>
        simp only [hp] at h ⊢
        cases hl : ancestors ts n p with
        | none => simp [hl] at h
        | some l =>
          simp only [hl, Option.map_some', Option.some.injEq] at h
          subst h
          rw [ih p _ l hl, List.foldr_append]
          rfl

theorem cvar_chain (chain : List Table) (path : String) :
    cvar (chain.foldr (fun t acc => t.name ++ "." ++ acc) path)
      = member_path (chain.map block_member_name) (cvar path) := by
  induction chain with
  | nil => rfl
  | cons t rest ih =>
    simp only [List.foldr_cons, List.map_cons, member_path, cvar_append, cvar_dot] at ih ⊢
    rw [ih]
    rfl

/-- For a field built by the `Field` constructor in a table whose chain of
non-root ancestors (outermost first, the table itself last) is `chain`, the
member-access path `get_path_var` is the dot-joined sequence of the sanitised
names of the tables of the chain, followed by the field name. -/
theorem get_path_var_of_field_new (ts : List Table) (fuel i : Nat)
    (chain : List Table) (key : String) (ty : FieldType)
    (h : ancestors ts fuel i = some chain) :
    get_path_var ts fuel i (Field.new key ty).name
      = some (member_path (chain.map block_member_name) (Field.new key ty).name) := by
  rw [get_path_var_of_ancestors ts fuel i _ chain h, cvar_chain]
  simp only [Field.new, cvar_cvar]

/-- C1: on the document `[""]`, `["".x]` the table `x` (index 2) has the
non-root parent `""` (index 1) whose handle is declared as `root_`, yet
`get_parent_path` names the handle `root`, and the lookup statement of `x`
searches the document root. -/
theorem get_parent_path_empty_key :
    (parser "a.toml" [("", .table [("x", .table [])])]).map (fun r =>
        r.tables.map (fun t => (t.name, t.parent)))
      = some [("a_t", none), ("", some 0), ("x", some 1)]
    ∧ (parser "a.toml" [("", .table [("x", .table [])])]).bind (fun r =>
        get_parent_path r.tables (path_fuel r.tables) 2 "") = some "root"
    ∧ (parser "a.toml" [("", .table [("x", .table [])])]).bind (fun r =>
        get_path r.tables (path_fuel r.tables) 1 "") = some "root_"
    ∧ (parser "a.toml" [("", .table [("x", .table [])])]).bind (fun r =>
        (c_src_decl r.tables).map render) = some "*root_, *root__x, "
    ∧ (parser "a.toml" [("", .table [("x", .table [])])]).bind (fun r =>
        (c_src_check r.tables).map render)
      = some ("    if (!(root_ = toml_table_in(root, \"\"))) \x7b\n"
          ++ "        fprintf(stderr, \"t2c_a_read() failed: failed locating [] table\");\n"
          ++ "        return 1;\n    \x7d\n"
          ++ "    if (!(root__x = toml_table_in(root, \"x\"))) \x7b\n"
          ++ "        fprintf(stderr, \"t2c_a_read() failed: failed locating [x] table\");\n"
          ++ "        return 1;\n    \x7d\n") := by
  decide

/-- C3: on a document with the two distinct sibling tables `[a-b]` and `[a_b]`
both tables get the local-binding path `root_a_b`, and the handle declaration
declares that identifier twice. -/
theorem get_path_collision :
    (parser "a.toml" [("a-b", .table []), ("a_b", .table [])]).map (fun r =>
        r.tables.map (fun t => (t.name, t.parent)))
      = some [("a_t", none), ("a-b", some 0), ("a_b", some 0)]
    ∧ (parser "a.toml" [("a-b", .table []), ("a_b", .table [])]).bind (fun r =>
        get_path r.tables (path_fuel r.tables) 1 "a-b") = some "root_a_b"
    ∧ (parser "a.toml" [("a-b", .table []), ("a_b", .table [])]).bind (fun r =>
        get_path r.tables (path_fuel r.tables) 2 "a_b") = some "root_a_b"
    ∧ (parser "a.toml" [("a-b", .table []), ("a_b", .table [])]).bind (fun r =>
        (c_src_decl r.tables).map render) = some "*root_a_b, *root_a_b, " := by
  decide

/-- C4: for the root key `a_b` with an integer value the read routine passes the
key literal `"a-b"` to `toml_int_in`: `tvar(cvar("a_b"))` is `a-b`, not `a_b`. -/
theorem extraction_key_underscore :
    tvar (cvar "a_b") = "a-b" ∧
    (parser "x.toml" [("a_b", .integer 1)]).bind (fun r => c_src_read r.tables)
      = some [⟨.extract, 0, some ⟨"a_b", .t_int⟩, "    datum = toml_int_in(x_t, \"a-b\");\n"⟩,
              ⟨.store, 0, some ⟨"a_b", .t_int⟩, "    (*x)->a_b = datum.u.i;\n"⟩] := by
  decide

/-- C5: for the table key `a_b` the lookup statement calls `toml_table_in` with
the key literal `"a-b"`, which is not the document key. -/
theorem lookup_key_underscore :
    (parser "x.toml" [("a_b", .table [])]).map (fun r =>
        (r.tables.map (fun t => t.name), (c_src_check r.tables).map render))
      = some (["x_t", "a_b"],
          some ("    if (!(root_a_b = toml_table_in(root, \"a-b\"))) \x7b\n"
            ++ "        fprintf(stderr, \"t2c_x_read() failed: failed locating [a_b] table\");\n"
            ++ "        return 1;\n    \x7d\n")) := by
  decide

/-! ## Reader: the effect of `tabler` -/

theorem tables_push_field (p : Nat) (f : Field) (r : Reader) (i : Nat) :
    (push_field p f r).tables[i]?
      = (r.tables[i]?).map
          (fun t : Table => if p = i then { t with fields := t.fields ++ [f] } else t) := by
  simp [push_field, List.getElem?_modify]

theorem tables_push_child (p c : Nat) (r : Reader) (i : Nat) :
    (push_child p c r).tables[i]?
      = (r.tables[i]?).map
          (fun t : Table => if p = i then { t with children := t.children ++ [c] } else t) := by
  simp [push_child, List.getElem?_modify]

theorem length_push_field (p : Nat) (f : Field) (r : Reader) :
    (push_field p f r).tables.length = r.tables.length := by
  simp [push_field]

theorem length_push_child (p c : Nat) (r : Reader) :
    (push_child p c r).tables.length = r.tables.length := by
  simp [push_child]

theorem lt_of_getElem? {ts : List Table} {p : Nat} {tp : Table} (h : ts[p]? = some tp) :
    p < ts.length := by
  obtain ⟨hlt, _⟩ := List.getElem?_eq_some.mp h
  exact hlt

theorem extends_refl (p : Nat) (tp : Table) (r : Reader) (h : r.tables[p]? = some tp) :
    Extends p tp [] [] r r [] := by
  refine ⟨rfl, Nat.le_refl _, fun _ _ _ => rfl, ?_, ?_, List.Pairwise.nil, rfl⟩
  · simp [h]
  · intro c hc; simp at hc

theorem extends_push_field (p : Nat) (tp : Table) (f : Field) (r : Reader)
    (h : r.tables[p]? = some tp) :
    Extends p tp [f] [] r (push_field p f r) [] := by
  refine ⟨rfl, ?_, ?_, ?_, ?_, List.Pairwise.nil, rfl⟩
  · rw [length_push_field]
  · intro i _ hne
    rw [tables_push_field]
    cases hi : r.tables[i]? with
    | none => rfl
    | some t => simp [Ne.symm hne]
  · rw [tables_push_field, h]; simp
  · intro c hc; simp at hc

theorem extends_trans {p : Nat} {tp : Table} {fs1 fs2 : List Field} {ks1 ks2 : List String}
    {r r1 r2 : Reader} {cs1 cs2 : List Nat}
    (hp : p < r.tables.length)
    (h1 : Extends p tp fs1 ks1 r r1 cs1)
    (h2 : Extends p { tp with fields := tp.fields ++ fs1, children := tp.children ++ cs1 }
      fs2 ks2 r1 r2 cs2) :
    Extends p tp (fs1 ++ fs2) (ks1 ++ ks2) r r2 (cs1 ++ cs2) := by
  obtain ⟨d1, l1, f1, t1, b1, p1, m1⟩ := h1
  obtain ⟨d2, l2, f2, t2, b2, p2, m2⟩ := h2
  refine ⟨d2.trans d1, Nat.le_trans l1 l2, ?_, ?_, ?_, ?_, ?_⟩
  · intro i hi hne
    rw [f2 i (Nat.lt_of_lt_of_le hi l1) hne, f1 i hi hne]
  · rw [t2]; simp [List.append_assoc]
  · intro c hc
    rcases List.mem_append.mp hc with hc | hc
    · exact ⟨(b1 c hc).1, Nat.lt_of_lt_of_le (b1 c hc).2 l2⟩
    · exact ⟨Nat.le_trans l1 (b2 c hc).1, (b2 c hc).2⟩
  · rw [List.pairwise_append]
    refine ⟨p1, p2, ?_⟩
    intro a ha b hb
    exact Nat.lt_of_lt_of_le (b1 a ha).2 (b2 b hb).1
  · rw [d1] at m2
    rw [List.map_append, List.map_append, m2, ← m1]
    congr 1
    apply List.map_congr_left
    intro c hc
    have hc1 := b1 c hc
    simp only [child_info]
    rw [f2 c hc1.2 (by omega)]

theorem mixed_array_cons (first : Node) (rest : List Node) :
    mixed_array first (first :: rest) = !(rest.all fun el => decide (el.type = first.type)) := by
  simp only [mixed_array, List.any_cons, ne_eq, not_true_eq_false, decide_False, Bool.false_or]
  rw [List.all_eq_not_any_not, Bool.not_not]
  congr 1
  funext el
  simp

theorem entry_field_array (key : String) (first : Node) (rest : List Node) :
    entry_field key (.array (first :: rest))
      = if mixed_array first (first :: rest) then none else array_field key first.type := by
  rw [mixed_array_cons]
  simp only [entry_field]
  cases hall : rest.all fun el => decide (el.type = first.type) with
  | false => simp
  | true =>
    simp only [if_true, Bool.not_true, Bool.false_eq_true, if_false]
    cases first.type <;> rfl

theorem table_keys_cons (key : String) (value : Node) (rest : List (String × Node)) :
    table_keys ((key, value) :: rest) = table_keys [(key, value)] ++ table_keys rest := by
  cases value <;> simp [table_keys]

theorem filterMap_entry_cons (key : String) (value : Node) (rest : List (String × Node)) :
    ((key, value) :: rest).filterMap (fun kv => entry_field kv.1 kv.2)
      = (entry_field key value).toList ++ rest.filterMap (fun kv => entry_field kv.1 kv.2) := by
  rw [List.filterMap_cons]
  cases entry_field key value <;> simp

mutual
theorem tabler_entry_extends : ∀ (value : Node) (p : Nat) (key : String) (r : Reader) (tp : Table),
    r.tables[p]? = some tp → value.no_empty_array = true →
    ∃ r' cs, tabler_entry p key value r = some r'
      ∧ Extends p tp (entry_field key value).toList (table_keys [(key, value)]) r r' cs
  | .table entries, p, key, r, tp, hp, hv => by
    have hlt := lt_of_getElem? hp
    simp only [Node.no_empty_array] at hv
    let t : Table :=
      { fields := [], children := [], parent := some p,
        depth := (r.c_depth % 256).toNat, name := key }
    let r1 : Reader :=
      push_child p r.tables.length { tables := r.tables ++ [t], c_depth := r.c_depth + 1 }
    have hr1n : r1.tables[r.tables.length]? = some t := by
      simp only [r1, tables_push_child, List.getElem?_concat_length, Option.map_some']
      rw [if_neg (by omega)]
    have hr1len : r1.tables.length = r.tables.length + 1 := by
      simp [r1, length_push_child]
    have hr1 : ∀ i, i < r.tables.length →
        r1.tables[i]? = (r.tables[i]?).map
          (fun t : Table => if p = i then { t with children := t.children ++ [r.tables.length] } else t) := by
      intro i hi
      simp only [r1, tables_push_child]
      rw [List.getElem?_append_left hi]
    obtain ⟨r2, cs2, h2, d2, l2, f2, t2, b2, p2, m2⟩ :=
      tabler_extends entries r.tables.length r1 t hr1n hv
    refine ⟨{ r2 with c_depth := r2.c_depth - 1 }, [r.tables.length], ?_, ?_, ?_, ?_, ?_, ?_, ?_, ?_⟩
    · simp only [tabler_entry]
      rw [show tabler r.tables.length entries
          (push_child p r.tables.length
            { tables := r.tables ++ [t], c_depth := r.c_depth + 1 }) = some r2 from h2]
      rfl
    · show r2.c_depth - 1 = r.c_depth
      rw [d2]
      show r.c_depth + 1 - 1 = r.c_depth
      omega
    · show r.tables.length ≤ r2.tables.length
      omega
    · intro i hi hne
      show r2.tables[i]? = r.tables[i]?
      rw [f2 i (by omega) (by omega), hr1 i hi]
      cases hri : r.tables[i]? with
      | none => rfl
      | some t0 => simp [Ne.symm hne]
    · show r2.tables[p]? = _
      rw [f2 p (by omega) (by omega), hr1 p hlt, hp]
      simp [entry_field]
    · intro c hc
      simp only [List.mem_singleton] at hc
      subst hc
      exact ⟨Nat.le_refl _, by show r.tables.length < r2.tables.length; omega⟩
    · exact List.pairwise_singleton _ _
    · show [child_info r2.tables r.tables.length] = _
      simp only [child_info, t2, table_keys, List.map_cons, List.map_nil, Option.map_some']
  | .integer _, p, key, r, tp, hp, _ =>
    ⟨_, [], rfl, extends_push_field p tp _ r hp⟩
  | .string _, p, key, r, tp, hp, _ =>
    ⟨_, [], rfl, extends_push_field p tp _ r hp⟩
  | .floating_point _, p, key, r, tp, hp, _ =>
    ⟨_, [], rfl, extends_push_field p tp _ r hp⟩
  | .boolean _, p, key, r, tp, hp, _ =>
    ⟨_, [], rfl, extends_push_field p tp _ r hp⟩
  | .array [], p, key, r, tp, hp, hv => by
    simp [Node.no_empty_array] at hv
  | .array (first :: rest), p, key, r, tp, hp, _ => by
    rw [entry_field_array]
    simp only [tabler_entry]
    cases hm : mixed_array first (first :: rest) with
    | true => exact ⟨r, [], by simp, extends_refl p tp r hp⟩
    | false =>
      cases hf : array_field key first.type with
      | none => exact ⟨r, [], by simp, extends_refl p tp r hp⟩
      | some f => exact ⟨_, [], by simp, extends_push_field p tp f r hp⟩
  | .date _, p, key, r, tp, hp, _ => ⟨r, [], rfl, extends_refl p tp r hp⟩
  | .time _, p, key, r, tp, hp, _ => ⟨r, [], rfl, extends_refl p tp r hp⟩
  | .date_time _, p, key, r, tp, hp, _ => ⟨r, [], rfl, extends_refl p tp r hp⟩
theorem tabler_extends : ∀ (entries : List (String × Node)) (p : Nat) (r : Reader) (tp : Table),
    r.tables[p]? = some tp → entries_no_empty_array entries = true →
    ∃ r' cs, tabler p entries r = some r'
      ∧ Extends p tp (entries.filterMap fun kv => entry_field kv.1 kv.2) (table_keys entries) r r' cs
  | [], p, r, tp, hp, _ => ⟨r, [], rfl, extends_refl p tp r hp⟩
  | (key, value) :: rest, p, r, tp, hp, hv => by
    simp only [entries_no_empty_array, Bool.and_eq_true] at hv
    obtain ⟨r1, cs1, h1, e1⟩ := tabler_entry_extends value p key r tp hp hv.1
    obtain ⟨r2, cs2, h2, e2⟩ := tabler_extends rest p r1 _ e1.2.2.2.1 hv.2
    refine ⟨r2, cs1 ++ cs2, ?_, ?_⟩
    · simp only [tabler, h1, h2]
    · rw [filterMap_entry_cons, table_keys_cons]
      exact extends_trans (lt_of_getElem? hp) e1 e2
end

/-- For a scalar key the Schema Builder appends one Field named `cvar key` of
kind Int, String, Double or Bool according to the type of the value, and for a
date or time value it changes nothing; run over the entries of one table (the
table `tp` at index `p`) of a document without empty arrays it returns, appends
to the fields of `tp` exactly the Fields that the classification assigns to the
entries (none for a table-valued key), appends to its children one fresh table
per table-valued key, named by that key with `p` as parent, keeps both sequences
in encounter order and leaves the other tables that existed as they were. -/
theorem tabler_classifies (entries : List (String × Node)) (p : Nat) (r : Reader) (tp : Table)
    (hp : r.tables[p]? = some tp) (hv : entries_no_empty_array entries = true) :
    (∀ (key : String) (q : Nat) (s : Reader),
      (∀ v, tabler_entry q key (.integer v) s = some (push_field q ⟨cvar key, .t_int⟩ s))
      ∧ (∀ v, tabler_entry q key (.string v) s = some (push_field q ⟨cvar key, .t_string⟩ s))
      ∧ (∀ v, tabler_entry q key (.floating_point v) s
          = some (push_field q ⟨cvar key, .t_double⟩ s))
      ∧ (∀ v, tabler_entry q key (.boolean v) s = some (push_field q ⟨cvar key, .t_bool⟩ s))
      ∧ (∀ v, tabler_entry q key (.date v) s = some s)
      ∧ (∀ v, tabler_entry q key (.time v) s = some s)
      ∧ (∀ v, tabler_entry q key (.date_time v) s = some s))
    ∧ ∃ r' cs, tabler p entries r = some r'
      ∧ r'.tables[p]? = some
          { tp with
            fields := tp.fields ++ entries.filterMap (fun kv => entry_field kv.1 kv.2),
            children := tp.children ++ cs }
      ∧ cs.map (child_info r'.tables)
          = (table_keys entries).map (fun k => some (k, some p, (r.c_depth % 256).toNat))
      ∧ cs.Pairwise (fun a b => a < b)
      ∧ (∀ c ∈ cs, r.tables.length ≤ c)
      ∧ (∀ i, i < r.tables.length → i ≠ p → r'.tables[i]? = r.tables[i]?) := by
  refine ⟨fun key q s => ⟨fun _ => rfl, fun _ => rfl, fun _ => rfl, fun _ => rfl,
    fun _ => rfl, fun _ => rfl, fun _ => rfl⟩, ?_⟩
  obtain ⟨r', cs, h, _, _, hf, ht, hb, hpw, hm⟩ := tabler_extends entries p r tp hp hv
  exact ⟨r', cs, h, ht, hm, hpw, fun c hc => (hb c hc).1, hf⟩

theorem tabler_classifies_witness :
    (⟨[⟨[], [], none, 0, "cfg_t"⟩], 1⟩ : Reader).tables[0]? = some ⟨[], [], none, 0, "cfg_t"⟩
    ∧ entries_no_empty_array
        [("port", .integer 8080), ("web-server", .table [("on", .boolean true)]),
          ("when", .date 0), ("host-name", .string "x"), ("ratio", .floating_point 0)] = true
    ∧ ∃ r' cs, tabler 0
          [("port", .integer 8080), ("web-server", .table [("on", .boolean true)]),
            ("when", .date 0), ("host-name", .string "x"), ("ratio", .floating_point 0)]
          ⟨[⟨[], [], none, 0, "cfg_t"⟩], 1⟩ = some r'
        ∧ r'.tables[0]? = some
            { (⟨[], [], none, 0, "cfg_t"⟩ : Table) with
              fields := [] ++
                [("port", Node.integer 8080), ("web-server", .table [("on", .boolean true)]),
                  ("when", .date 0), ("host-name", .string "x"),
                  ("ratio", .floating_point 0)].filterMap (fun kv => entry_field kv.1 kv.2),
              children := [] ++ cs }
        ∧ cs.map (child_info r'.tables)
            = (table_keys
                [("port", .integer 8080), ("web-server", .table [("on", .boolean true)]),
                  ("when", .date 0), ("host-name", .string "x"),
                  ("ratio", .floating_point 0)]).map
                (fun k => some (k, some 0, (((⟨[⟨[], [], none, 0, "cfg_t"⟩], 1⟩ : Reader).c_depth
                  % 256).toNat)))
        ∧ cs.Pairwise (fun a b => a < b)
        ∧ (∀ c ∈ cs, (⟨[⟨[], [], none, 0, "cfg_t"⟩], 1⟩ : Reader).tables.length ≤ c)
        ∧ (∀ i, i < (⟨[⟨[], [], none, 0, "cfg_t"⟩], 1⟩ : Reader).tables.length → i ≠ 0 →
            r'.tables[i]? = (⟨[⟨[], [], none, 0, "cfg_t"⟩], 1⟩ : Reader).tables[i]?) :=
  ⟨by decide, by decide,
    (tabler_classifies _ 0 ⟨[⟨[], [], none, 0, "cfg_t"⟩], 1⟩ ⟨[], [], none, 0, "cfg_t"⟩
      (by decide) (by decide)).2⟩

/-! ## Reader: arrays -/

theorem no_untyped_push_field (p : Nat) (f : Field) (r : Reader) (hf : f.type ≠ .t_array)
    (h : no_untyped r.tables) : no_untyped (push_field p f r).tables := by
  intro i t hi g hg
  rw [tables_push_field] at hi
  cases hr : r.tables[i]? with
  | none => simp [hr] at hi
  | some t0 =>
    simp only [hr, Option.map_some', Option.some.injEq] at hi
    subst hi
    by_cases hpi : p = i
    · simp only [hpi, if_true, List.mem_append, List.mem_singleton] at hg
      rcases hg with hg | hg
      · exact h i t0 hr g hg
      · subst hg; exact hf
    · simp only [hpi, if_false] at hg
      exact h i t0 hr g hg

theorem no_untyped_new_table (p : Nat) (t : Table) (r : Reader) (d : Int) (ht : t.fields = [])
    (h : no_untyped r.tables) :
    no_untyped (push_child p r.tables.length { tables := r.tables ++ [t], c_depth := d }).tables := by
  intro i t1 hi g hg
  rw [tables_push_child] at hi
  have key : ∀ t0 : Table, (r.tables ++ [t])[i]? = some t0 → ∀ g ∈ t0.fields, g.type ≠ .t_array := by
    intro t0 h0 g hg
    rw [List.getElem?_append] at h0
    by_cases hlt : i < r.tables.length
    · rw [if_pos hlt] at h0
      exact h i t0 h0 g hg
    · rw [if_neg hlt] at h0
      cases hz : i - r.tables.length with
      | zero =>
        rw [hz] at h0
        simp only [List.getElem?_cons_zero, Option.some.injEq] at h0
        subst h0
        rw [ht] at hg
        simp at hg
      | succ k =>
        rw [hz] at h0
        simp at h0
  cases h0 : (r.tables ++ [t])[i]? with
  | none =>
    change Option.map _ ((r.tables ++ [t])[i]?) = some t1 at hi
    rw [h0] at hi
    simp at hi
  | some t0 =>
    change Option.map _ ((r.tables ++ [t])[i]?) = some t1 at hi
    rw [h0] at hi
    simp only [Option.map_some', Option.some.injEq] at hi
    subst hi
    by_cases hpi : p = i
    · simp only [hpi, if_true] at hg
      exact key t0 h0 g hg
    · simp only [hpi, if_false] at hg
      exact key t0 h0 g hg

theorem array_field_typed (key : String) (ty : NodeType) (f : Field)
    (h : array_field key ty = some f) : f.type ≠ .t_array := by
  cases ty <;> simp [array_field, Field.new] at h <;> subst h <;> simp

mutual
theorem tabler_entry_no_untyped : ∀ (value : Node) (p : Nat) (key : String) (r r' : Reader),
    tabler_entry p key value r = some r' → no_untyped r.tables → no_untyped r'.tables
  | .table entries, p, key, r, r', h, hr => by
    simp only [tabler_entry, Option.map_eq_some'] at h
    obtain ⟨r2, h2, rfl⟩ := h
    exact tabler_no_untyped entries _ _ r2 h2 (no_untyped_new_table p _ r _ rfl hr)
  | .integer _, p, key, r, r', h, hr => by
    simp only [tabler_entry, Option.some.injEq] at h
    subst h
    exact no_untyped_push_field _ _ _ (by simp [Field.new]) hr
  | .string _, p, key, r, r', h, hr => by
    simp only [tabler_entry, Option.some.injEq] at h
    subst h
    exact no_untyped_push_field _ _ _ (by simp [Field.new]) hr
  | .floating_point _, p, key, r, r', h, hr => by
    simp only [tabler_entry, Option.some.injEq] at h
    subst h
    exact no_untyped_push_field _ _ _ (by simp [Field.new]) hr
  | .boolean _, p, key, r, r', h, hr => by
    simp only [tabler_entry, Option.some.injEq] at h
    subst h
    exact no_untyped_push_field _ _ _ (by simp [Field.new]) hr
  | .array [], p, key, r, r', h, hr => by
    simp [tabler_entry] at h
  | .array (first :: rest), p, key, r, r', h, hr => by
    simp only [tabler_entry] at h
    cases hm : mixed_array first (first :: rest) with
    | true =>
      simp only [hm, if_true, Option.some.injEq] at h
      subst h; exact hr
    | false =>
      simp only [hm, Bool.false_eq_true, if_false] at h
      cases hf : array_field key first.type with
      | none =>
        simp only [hf, Option.some.injEq] at h
        subst h; exact hr
      | some f =>
        simp only [hf, Option.some.injEq] at h
        subst h
        exact no_untyped_push_field _ _ _ (array_field_typed key _ f hf) hr
  | .date _, p, key, r, r', h, hr => by
    simp only [tabler_entry, Option.some.injEq] at h
    subst h; exact hr
  | .time _, p, key, r, r', h, hr => by
    simp only [tabler_entry, Option.some.injEq] at h
    subst h; exact hr
  | .date_time _, p, key, r, r', h, hr => by
    simp only [tabler_entry, Option.some.injEq] at h
    subst h; exact hr
theorem tabler_no_untyped : ∀ (entries : List (String × Node)) (p : Nat) (r r' : Reader),
    tabler p entries r = some r' → no_untyped r.tables → no_untyped r'.tables
  | [], p, r, r', h, hr => by
    simp only [tabler, Option.some.injEq] at h
    subst h; exact hr
  | (key, value) :: rest, p, r, r', h, hr => by
    simp only [tabler] at h
    cases h1 : tabler_entry p key value r with
    | none => simp [h1] at h
    | some r1 =>
      simp only [h1] at h
      exact tabler_no_untyped rest p r1 r' h (tabler_entry_no_untyped value p key r r1 h1 hr)
end

theorem parser_no_untyped (file : String) (doc : List (String × Node)) (r : Reader)
    (h : parser file doc = some r) : no_untyped r.tables := by
  refine tabler_no_untyped doc 0 _ r h ?_
  intro i t hi f hf
  cases i with
  | zero =>
    simp only [List.getElem?_cons_zero, Option.some.injEq] at hi
    subst hi
    simp at hf
  | succ k => simp at hi

theorem not_mixed_of_same_type (first : Node) (rest : List Node)
    (h : ∀ el ∈ first :: rest, el.type = first.type) :
    mixed_array first (first :: rest) = false := by
  rw [mixed_array_cons]
  simp only [Bool.not_eq_false', List.all_eq_true, decide_eq_true_eq]
  intro el hel
  exact h el (List.mem_cons_of_mem _ hel)

/-- C7: for a non-empty array all of whose elements carry the type tag of its
first element the Schema Builder appends one Field of kind ArrayOfInt,
ArrayOfDouble, ArrayOfBool or ArrayOfString when that tag is integer, float,
boolean or string, and leaves the state unchanged for every other tag; and no
Field of the untyped-array kind `t_array` occurs in the tables built from any
document. -/
theorem array_classification (p : Nat) (key : String) (first : Node) (rest : List Node)
    (r : Reader) (h : ∀ el ∈ first :: rest, el.type = first.type) :
    tabler_entry p key (.array (first :: rest)) r
        = some (match first.type with
          | .integer => push_field p ⟨cvar key, .t_array_of_int⟩ r
          | .floating_point => push_field p ⟨cvar key, .t_array_of_double⟩ r
          | .boolean => push_field p ⟨cvar key, .t_array_of_bool⟩ r
          | .string => push_field p ⟨cvar key, .t_array_of_string⟩ r
          | _ => r)
    ∧ ∀ (file : String) (doc : List (String × Node)) (r' : Reader),
        parser file doc = some r' → ∀ t ∈ r'.tables, ∀ f ∈ t.fields, f.type ≠ .t_array := by
  constructor
  · simp only [tabler_entry, not_mixed_of_same_type first rest h, Bool.false_eq_true, if_false]
    cases first.type <;> rfl
  · intro file doc r' hr t ht f hf
    obtain ⟨i, hi⟩ := List.mem_iff_getElem?.mp ht
    exact parser_no_untyped file doc r' hr i t hi f hf

theorem array_classification_witness :
    (∀ el ∈ [Node.integer 1, Node.integer 2, Node.integer 3], el.type = (Node.integer 1).type)
    ∧ tabler_entry 0 "retry-delays" (.array [.integer 1, .integer 2, .integer 3])
          ⟨[⟨[], [], none, 0, "cfg_t"⟩], 1⟩
        = some (push_field 0 ⟨"retry_delays", .t_array_of_int⟩ ⟨[⟨[], [], none, 0, "cfg_t"⟩], 1⟩)
    ∧ (∀ t ∈ [(⟨[⟨"retry_delays", .t_array_of_int⟩], [], none, 0, "cfg_t"⟩ : Table)],
        ∀ f ∈ t.fields, f.type ≠ .t_array) :=
  ⟨by decide,
    (array_classification 0 "retry-delays" (.integer 1) [.integer 2, .integer 3]
      ⟨[⟨[], [], none, 0, "cfg_t"⟩], 1⟩ (by decide)).1,
    (array_classification 0 "retry-delays" (.integer 1) [.integer 2, .integer 3]
      ⟨[⟨[], [], none, 0, "cfg_t"⟩], 1⟩ (by decide)).2 "cfg.toml"
      [("retry-delays", .array [.integer 1, .integer 2, .integer 3])]
      ⟨[⟨[⟨"retry_delays", .t_array_of_int⟩], [], none, 0, "cfg_t"⟩], 1⟩ (by decide)⟩

theorem tabler_entry_mixed (p : Nat) (key : String) (first : Node) (rest : List Node)
    (r : Reader) (h : ∃ el ∈ first :: rest, el.type ≠ first.type) :
    tabler_entry p key (.array (first :: rest)) r = some r := by
  have hm : mixed_array first (first :: rest) = true := by
    simp only [mixed_array, List.any_eq_true, decide_eq_true_eq]
    exact h
  simp only [tabler_entry, hm, if_true]

theorem tabler_drop_entry (p : Nat) (key : String) (value : Node)
    (h : ∀ r, tabler_entry p key value r = some r) :
    ∀ (before after : List (String × Node)) (r : Reader),
      tabler p (before ++ (key, value) :: after) r = tabler p (before ++ after) r
  | [], after, r => by
    simp only [List.nil_append, tabler, h r]
  | (k, v) :: before, after, r => by
    simp only [List.cons_append, tabler]
    cases tabler_entry p k v r with
    | none => rfl
    | some r1 => exact tabler_drop_entry p key value h before after r1

theorem tabler_congr_nested (key : String) (inner inner' : List (String × Node))
    (h : ∀ p r, tabler p inner r = tabler p inner' r) :
    ∀ (before after : List (String × Node)) (p : Nat) (r : Reader),
      tabler p (before ++ (key, Node.table inner) :: after) r
        = tabler p (before ++ (key, Node.table inner') :: after) r
  | [], after, p, r => by
    simp only [List.nil_append, tabler, tabler_entry, h]
  | (k, v) :: before, after, p, r => by
    simp only [List.cons_append, tabler]
    cases tabler_entry p k v r with
    | none => rfl
    | some r1 => exact tabler_congr_nested key inner inner' h before after p r1

theorem tabler_congr_plug :
    ∀ (ctx : List (List (String × Node) × String × List (String × Node)))
      (inner inner' : List (String × Node)),
      (∀ p r, tabler p inner r = tabler p inner' r) →
      ∀ p r, tabler p (plug ctx inner) r = tabler p (plug ctx inner') r
  | [], _, _, h => h
  | (before, key, after) :: ctx, inner, inner', h => by
    simp only [plug]
    exact tabler_congr_plug ctx _ _ (fun p r => tabler_congr_nested key inner inner' h before after p r)

/-- C8: an array holding an element whose type tag differs from that of its
first element makes the Schema Builder append nothing and fail nowhere (the
state after the entry is the state before it), and the schema built from a
document that holds such an array under `key`, in a table at any nesting, is the
schema built from the document without that key. -/
theorem mixed_array_excluded (file : String)
    (ctx : List (List (String × Node) × String × List (String × Node)))
    (before after : List (String × Node)) (key : String) (first : Node) (rest : List Node)
    (h : ∃ el ∈ first :: rest, el.type ≠ first.type) :
    (∀ p r, tabler_entry p key (.array (first :: rest)) r = some r)
    ∧ parser file (plug ctx (before ++ (key, .array (first :: rest)) :: after))
        = parser file (plug ctx (before ++ after)) := by
  refine ⟨fun p r => tabler_entry_mixed p key first rest r h, ?_⟩
  simp only [parser]
  exact tabler_congr_plug ctx _ _
    (fun p r => tabler_drop_entry p key _
      (fun r0 => tabler_entry_mixed p key first rest r0 h) before after r) 0 _

theorem mixed_array_excluded_witness :
    (∃ el ∈ [Node.integer 1, Node.string "a"], el.type ≠ (Node.integer 1).type)
    ∧ (∀ p r, tabler_entry p "mix" (.array [.integer 1, .string "a"]) r = some r)
    ∧ parser "cfg.toml"
          (plug [([("title", .string "x")], "server", [])]
            ([("port", .integer 8080)] ++ ("mix", .array [.integer 1, .string "a"])
              :: [("on", .boolean true)]))
        = parser "cfg.toml"
          (plug [([("title", .string "x")], "server", [])]
            ([("port", .integer 8080)] ++ [("on", .boolean true)])) :=
  ⟨⟨Node.string "a", by simp, by decide⟩,
    mixed_array_excluded "cfg.toml" [([("title", .string "x")], "server", [])]
      [("port", .integer 8080)] [("on", .boolean true)] "mix" (.integer 1) [.string "a"]
      ⟨Node.string "a", by simp, by decide⟩⟩

/-! ## Writer: the declaration pass -/

theorem render_two (a b : Piece) : render [a, b] = a.text ++ b.text := by
  simp [render, String.join]

theorem render_four (a b c d : Piece) :
    render [a, b, c, d] = a.text ++ b.text ++ c.text ++ d.text := by
  simp [render, String.join]

theorem h_struct_fields (ts : List Table) (fuel i : Nat) (t : Table) (out : List Piece)
    (hi : ts[i]? = some t) (ho : h_struct ts fuel i = some out) :
    ∃ pre post, out = pre ++ t.fields.flatMap (h_field i t) ++ post := by
  cases fuel with
  | zero => simp [h_struct] at ho
  | succ n =>
    simp only [h_struct, hi] at ho
    cases hc : collect (h_struct ts n) t.children with
    | none => simp [hc] at ho
    | some cs =>
      simp only [hc, Option.some.injEq] at ho
      exact ⟨[⟨.indent, i, none, mk_indent t.depth⟩, ⟨.block_open, i, none, s_table⟩],
        cs ++ [⟨.indent, i, none, mk_indent t.depth⟩,
          ⟨.block_close, i, none, "\x7d " ++ block_member_name t ++ ";\n"⟩],
        by rw [← ho]; simp only [List.append_assoc]⟩

/-- C9: in the declaration pass the pieces emitted for the fields of a visited
table are those of `h_field`, field after field; a Field of kind Int, Double,
Bool or String emits one member declaration of type `int64_t`, `double`, `bool`
or `char*`, and a Field of kind ArrayOfInt, ArrayOfDouble, ArrayOfBool or
ArrayOfString emits two: the pointer member of type `int64_t*`, `double*`,
`bool*` or `char**`, then `size_t <field>_len;`. -/
theorem h_struct_member_declarations (ts : List Table) (fuel i : Nat) (t : Table)
    (out : List Piece) (hi : ts[i]? = some t) (ho : h_struct ts fuel i = some out) :
    (∃ pre post, out = pre ++ t.fields.flatMap (h_field i t) ++ post)
    ∧ ∀ name : String,
      member_decls (h_field i t ⟨name, .t_int⟩) = ["int64_t " ++ name ++ ";\n"]
      ∧ member_decls (h_field i t ⟨name, .t_double⟩) = ["double " ++ name ++ ";\n"]
      ∧ member_decls (h_field i t ⟨name, .t_bool⟩) = ["bool " ++ name ++ ";\n"]
      ∧ member_decls (h_field i t ⟨name, .t_string⟩) = ["char* " ++ name ++ ";\n"]
      ∧ member_decls (h_field i t ⟨name, .t_array_of_int⟩)
          = ["int64_t* " ++ name ++ ";\n", "size_t " ++ name ++ "_len;\n"]
      ∧ member_decls (h_field i t ⟨name, .t_array_of_double⟩)
          = ["double* " ++ name ++ ";\n", "size_t " ++ name ++ "_len;\n"]
      ∧ member_decls (h_field i t ⟨name, .t_array_of_bool⟩)
          = ["bool* " ++ name ++ ";\n", "size_t " ++ name ++ "_len;\n"]
      ∧ member_decls (h_field i t ⟨name, .t_array_of_string⟩)
          = ["char** " ++ name ++ ";\n", "size_t " ++ name ++ "_len;\n"]
      ∧ render (h_field i t ⟨name, .t_int⟩)
          = mk_indent (t.depth + 1) ++ "int64_t " ++ name ++ ";\n"
      ∧ render (h_field i t ⟨name, .t_double⟩)
          = mk_indent (t.depth + 1) ++ "double " ++ name ++ ";\n"
      ∧ render (h_field i t ⟨name, .t_bool⟩)
          = mk_indent (t.depth + 1) ++ "bool " ++ name ++ ";\n"
      ∧ render (h_field i t ⟨name, .t_string⟩)
          = mk_indent (t.depth + 1) ++ "char* " ++ name ++ ";\n"
      ∧ render (h_field i t ⟨name, .t_array_of_int⟩)
          = mk_indent (t.depth + 1) ++ "int64_t* " ++ name ++ ";\n"
            ++ mk_indent (t.depth + 1) ++ "size_t " ++ name ++ "_len;\n"
      ∧ render (h_field i t ⟨name, .t_array_of_double⟩)
          = mk_indent (t.depth + 1) ++ "double* " ++ name ++ ";\n"
            ++ mk_indent (t.depth + 1) ++ "size_t " ++ name ++ "_len;\n"
      ∧ render (h_field i t ⟨name, .t_array_of_bool⟩)
          = mk_indent (t.depth + 1) ++ "bool* " ++ name ++ ";\n"
            ++ mk_indent (t.depth + 1) ++ "size_t " ++ name ++ "_len;\n"
      ∧ render (h_field i t ⟨name, .t_array_of_string⟩)
          = mk_indent (t.depth + 1) ++ "char** " ++ name ++ ";\n"
            ++ mk_indent (t.depth + 1) ++ "size_t " ++ name ++ "_len;\n" := by
  refine ⟨h_struct_fields ts fuel i t out hi ho, fun name => ?_⟩
  simp only [h_field, render_two, render_four, member_decls, s_type_int, s_type_double,
    s_type_bool, s_type_string, s_type_array_of_int, s_type_array_of_double,
    s_type_array_of_bool, s_type_array_of_string, String.append_assoc]
  simp

theorem h_struct_member_declarations_witness :
    ([⟨[⟨"tags", .t_array_of_string⟩], [], none, 0, "cfg_t"⟩] : List Table)[0]?
      = some ⟨[⟨"tags", .t_array_of_string⟩], [], none, 0, "cfg_t"⟩
    ∧ h_struct [⟨[⟨"tags", .t_array_of_string⟩], [], none, 0, "cfg_t"⟩] 1 0
      = some [⟨.indent, 0, none, ""⟩, ⟨.block_open, 0, none, "struct \x7b\n"⟩,
          ⟨.indent, 0, some ⟨"tags", .t_array_of_string⟩, "    "⟩,
          ⟨.member, 0, some ⟨"tags", .t_array_of_string⟩, "char** tags;\n"⟩,
          ⟨.indent, 0, some ⟨"tags", .t_array_of_string⟩, "    "⟩,
          ⟨.member_len, 0, some ⟨"tags", .t_array_of_string⟩, "size_t tags_len;\n"⟩,
          ⟨.indent, 0, none, ""⟩, ⟨.block_close, 0, none, "\x7d cfg_t;\n"⟩]
    ∧ member_decls (h_field 0 ⟨[⟨"tags", .t_array_of_string⟩], [], none, 0, "cfg_t"⟩
          ⟨"tags", .t_array_of_string⟩)
        = ["char** " ++ "tags" ++ ";\n", "size_t " ++ "tags" ++ "_len;\n"] :=
  ⟨by decide, by decide,
    ((h_struct_member_declarations [⟨[⟨"tags", .t_array_of_string⟩], [], none, 0, "cfg_t"⟩] 1 0
      ⟨[⟨"tags", .t_array_of_string⟩], [], none, 0, "cfg_t"⟩ _ (by decide) rfl).2
        "tags").2.2.2.2.2.2.2.1⟩

/-! ## Writer: the free pass against the declaration pass -/

theorem wellFormed_of_well_formed (ts : List Table) (h : well_formed ts = true) :
    WellFormed ts := by
  intro i t hi
  have hlt := lt_of_getElem? hi
  simp only [well_formed, List.all_eq_true, List.mem_range] at h
  have hi2 := h i hlt
  simp only [hi, Bool.and_eq_true, List.all_eq_true, decide_eq_true_eq] at hi2
  refine ⟨?_, hi2.2⟩
  intro p hp
  have h1 := hi2.1
  simp only [hp, decide_eq_true_eq] at h1
  exact h1

theorem get_path_var_total (ts : List Table) (hwf : WellFormed ts) :
    ∀ (fuel i : Nat) (path : String), i < fuel → i < ts.length →
      ∃ m, get_path_var ts fuel i path = some m := by
  intro fuel
  induction fuel with
  | zero => intro i path h; omega
  | succ n ih =>
    intro i path hf hi
    unfold get_path_var
    rw [List.getElem?_eq_getElem hi]
    simp only
    cases hp : (ts[i]).parent with
    | none => exact ⟨_, rfl⟩
    | some p =>
      have hpi := (hwf i ts[i] (List.getElem?_eq_getElem hi)).1 p hp
      exact ih p _ (by omega) (by omega)

theorem free_mirrors_nil (ts : List Table) (base_name : String) :
    free_mirrors ts base_name [] [] :=
  ⟨rfl, fun q hq => by simp at hq⟩

theorem free_mirrors_append {ts : List Table} {base_name : String} {a a' b b' : List Piece}
    (h : free_mirrors ts base_name a b) (h' : free_mirrors ts base_name a' b') :
    free_mirrors ts base_name (a ++ a') (b ++ b') := by
  refine ⟨?_, ?_⟩
  · simp only [fields_of, List.filterMap_append, List.filter_append]
    have e1 := h.1
    have e2 := h'.1
    simp only [fields_of] at e1 e2
    rw [e1, e2]
  · intro q hq
    rcases List.mem_append.mp hq with hq | hq
    · exact h.2 q hq
    · exact h'.2 q hq

theorem free_field_mirrors (ts : List Table) (base_name : String) (hwf : WellFormed ts)
    (i : Nat) (t : Table) (hi : i < ts.length) (f : Field) :
    ∃ o, free_field ts base_name i f = some o ∧ free_mirrors ts base_name (h_field i t f) o := by
  obtain ⟨m, hm⟩ := get_path_var_total ts hwf (path_fuel ts) i f.name
    (by simp only [path_fuel]; omega) hi
  obtain ⟨name, ty⟩ := f
  simp only at hm
  cases ty <;>
    simp [free_field, h_field, hm, free_mirrors, fields_of, heap_kind]

theorem free_fields_mirror (ts : List Table) (base_name : String) (hwf : WellFormed ts)
    (i : Nat) (t : Table) (hi : i < ts.length) :
    ∀ fields : List Field, ∃ o, collect (free_field ts base_name i) fields = some o
      ∧ free_mirrors ts base_name (fields.flatMap (h_field i t)) o
  | [] => ⟨[], rfl, free_mirrors_nil ts base_name⟩
  | f :: rest => by
    obtain ⟨o1, h1, m1⟩ := free_field_mirrors ts base_name hwf i t hi f
    obtain ⟨o2, h2, m2⟩ := free_fields_mirror ts base_name hwf i t hi rest
    refine ⟨o1 ++ o2, ?_, ?_⟩
    · simp only [collect, h1, h2]
    · rw [List.flatMap_cons]
      exact free_mirrors_append m1 m2

theorem collect_mirrors (ts : List Table) (base_name : String)
    (f g : Nat → Option (List Piece)) :
    ∀ l : List Nat,
      (∀ c ∈ l, ∃ a b, f c = some a ∧ g c = some b ∧ free_mirrors ts base_name a b) →
      ∃ a b, collect f l = some a ∧ collect g l = some b ∧ free_mirrors ts base_name a b
  | [], _ => ⟨[], [], rfl, rfl, free_mirrors_nil ts base_name⟩
  | c :: rest, h => by
    obtain ⟨a1, b1, hf1, hg1, m1⟩ := h c (List.mem_cons_self _ _)
    obtain ⟨a2, b2, hf2, hg2, m2⟩ :=
      collect_mirrors ts base_name f g rest (fun x hx => h x (List.mem_cons_of_mem _ hx))
    refine ⟨a1 ++ a2, b1 ++ b2, ?_, ?_, free_mirrors_append m1 m2⟩
    · simp only [collect, hf1, hf2]
    · simp only [collect, hg1, hg2]

theorem free_r_mirrors (ts : List Table) (base_name : String) (hwf : WellFormed ts) :
    ∀ (fuel i : Nat), i < ts.length → ts.length - i ≤ fuel →
      ∃ ds fs, h_struct ts fuel i = some ds ∧ free_r ts base_name fuel i = some fs
        ∧ free_mirrors ts base_name ds fs := by
  intro fuel
  induction fuel with
  | zero => intro i hi hf; omega
  | succ n ih =>
    intro i hi hf
    have hti := List.getElem?_eq_getElem hi
    have hkids := (hwf i ts[i] hti).2
    obtain ⟨cs, cs', hc, hc', mc⟩ :=
      collect_mirrors ts base_name (h_struct ts n) (free_r ts base_name n) (ts[i]).children
        (fun c hcm => ih c (hkids c hcm).2 (by have := (hkids c hcm).1; omega))
    obtain ⟨o, ho, mo⟩ := free_fields_mirror ts base_name hwf i ts[i] hi (ts[i]).fields
    refine ⟨[⟨.indent, i, none, mk_indent (ts[i]).depth⟩, ⟨.block_open, i, none, s_table⟩]
        ++ (ts[i]).fields.flatMap (h_field i ts[i]) ++ cs
        ++ [⟨.indent, i, none, mk_indent (ts[i]).depth⟩,
            ⟨.block_close, i, none, "\x7d " ++ block_member_name ts[i] ++ ";\n"⟩],
      [] ++ o ++ cs' ++ [], ?_, ?_, ?_⟩
    · simp only [h_struct, hti, hc]
    · simp only [free_r, hti, ho, hc', List.nil_append, List.append_nil]
    · refine free_mirrors_append (free_mirrors_append (free_mirrors_append ?_ mo) mc) ?_
      · exact ⟨by simp [fields_of], fun q hq => by simp at hq⟩
      · exact ⟨by simp [fields_of], fun q hq => by simp at hq⟩

theorem fields_of_append (st : Stmt) (a b : List Piece) :
    fields_of st (a ++ b) = fields_of st a ++ fields_of st b := by
  simp only [fields_of, List.filterMap_append]

theorem fields_of_member_h_field (i : Nat) (t : Table) (f : Field) :
    fields_of .member (h_field i t f) = [(i, f)] := by
  obtain ⟨name, ty⟩ := f
  cases ty <;> simp [h_field, fields_of]

theorem fields_of_member_fields (i : Nat) (t : Table) :
    ∀ fields : List Field,
      fields_of .member (fields.flatMap (h_field i t)) = fields.map (fun f => (i, f))
  | [] => rfl
  | f :: rest => by
    rw [List.flatMap_cons, fields_of_append, fields_of_member_h_field,
      fields_of_member_fields i t rest]
    rfl

theorem collect_preorder (ts : List Table) (n : Nat)
    (ih : ∀ c ds, h_struct ts n c = some ds →
      preorder_fields ts n c = some (fields_of .member ds)) :
    ∀ (l : List Nat) (cs : List Piece), collect (h_struct ts n) l = some cs →
      collect (preorder_fields ts n) l = some (fields_of .member cs)
  | [], cs, h => by
    simp only [collect, Option.some.injEq] at h
    subst h
    rfl
  | c :: rest, cs, h => by
    simp only [collect] at h
    cases h1 : h_struct ts n c with
    | none => simp [h1] at h
    | some a =>
      cases h2 : collect (h_struct ts n) rest with
      | none => simp [h1, h2] at h
      | some b =>
        simp only [h1, h2, Option.some.injEq] at h
        subst h
        simp only [collect, ih c a h1, collect_preorder ts n ih rest b h2, fields_of_append]

theorem h_struct_preorder (ts : List Table) :
    ∀ (fuel i : Nat) (ds : List Piece), h_struct ts fuel i = some ds →
      preorder_fields ts fuel i = some (fields_of .member ds) := by
  intro fuel
  induction fuel with
  | zero => intro i ds h; simp [h_struct] at h
  | succ n ih =>
    intro i ds h
    unfold h_struct at h
    unfold preorder_fields
    cases hi : ts[i]? with
    | none => simp [hi] at h
    | some t =>
      simp only [hi] at h ⊢
      cases hc : collect (h_struct ts n) t.children with
      | none => simp [hc] at h
      | some cs =>
        simp only [hc, Option.some.injEq] at h
        subst h
        rw [collect_preorder ts n ih t.children cs hc]
        simp only [fields_of_append, fields_of_member_fields]
        simp [fields_of]

theorem well_formed_of_wellFormed (ts : List Table) (h : WellFormed ts) :
    well_formed ts = true := by
  simp only [well_formed, List.all_eq_true, List.mem_range]
  intro i hi
  have hti := List.getElem?_eq_getElem hi
  obtain ⟨hp, hc⟩ := h i ts[i] hti
  simp only [hti, Bool.and_eq_true, List.all_eq_true, decide_eq_true_eq]
  refine ⟨?_, hc⟩
  cases hpar : (ts[i]).parent with
  | none => rfl
  | some p => simpa using hp p hpar

theorem wellFormed_push_field (p : Nat) (f : Field) (r : Reader) (h : WellFormed r.tables) :
    WellFormed (push_field p f r).tables := by
  intro i t hi
  rw [tables_push_field] at hi
  cases hr : r.tables[i]? with
  | none => simp [hr] at hi
  | some t0 =>
    simp only [hr, Option.map_some', Option.some.injEq] at hi
    subst hi
    have h0 := h i t0 hr
    rw [length_push_field]
    by_cases hpi : p = i
    · simpa only [hpi, if_true] using h0
    · simpa only [hpi, if_false] using h0

theorem wellFormed_new_table (p : Nat) (t : Table) (r : Reader) (d : Int)
    (hp : p < r.tables.length) (htp : t.parent = some p) (htc : t.children = [])
    (h : WellFormed r.tables) :
    WellFormed
      (push_child p r.tables.length { tables := r.tables ++ [t], c_depth := d }).tables := by
  intro i t1 hi
  rw [tables_push_child] at hi
  rw [length_push_child]
  change Option.map _ ((r.tables ++ [t])[i]?) = some t1 at hi
  show _ ∧ ∀ c ∈ t1.children, i < c ∧ c < (r.tables ++ [t]).length
  rw [List.length_append, List.length_singleton]
  by_cases hlt : i < r.tables.length
  · rw [List.getElem?_append_left hlt] at hi
    cases hr : r.tables[i]? with
    | none => simp [hr] at hi
    | some t0 =>
      simp only [hr, Option.map_some', Option.some.injEq] at hi
      subst hi
      obtain ⟨h1, h2⟩ := h i t0 hr
      by_cases hpi : p = i
      · simp only [hpi, if_true]
        refine ⟨h1, ?_⟩
        intro c hc
        rcases List.mem_append.mp hc with hc | hc
        · have := h2 c hc; omega
        · simp only [List.mem_singleton] at hc; omega
      · simp only [hpi, if_false]
        refine ⟨h1, ?_⟩
        intro c hc
        have := h2 c hc; omega
  · rw [List.getElem?_append_right (by omega)] at hi
    cases hz : i - r.tables.length with
    | zero =>
      rw [hz] at hi
      simp only [List.getElem?_cons_zero, Option.map_some', Option.some.injEq] at hi
      subst hi
      have hpi : ¬ p = i := by omega
      simp only [hpi, if_false]
      refine ⟨?_, ?_⟩
      · intro q hq
        rw [htp] at hq
        cases hq
        omega
      · intro c hc
        rw [htc] at hc
        simp at hc
    | succ k =>
      rw [hz] at hi
      simp at hi

mutual
theorem tabler_entry_wellFormed : ∀ (value : Node) (p : Nat) (key : String) (r r' : Reader),
    tabler_entry p key value r = some r' → p < r.tables.length → WellFormed r.tables →
    WellFormed r'.tables ∧ r.tables.length ≤ r'.tables.length
  | .table entries, p, key, r, r', h, hp, hr => by
    simp only [tabler_entry, Option.map_eq_some'] at h
    obtain ⟨r2, h2, rfl⟩ := h
    have h3 := tabler_wellFormed entries _ _ r2 h2
      (by rw [length_push_child]; simp)
      (wellFormed_new_table p _ r _ hp rfl rfl hr)
    rw [length_push_child] at h3
    simp only [List.length_append, List.length_singleton] at h3
    exact ⟨h3.1, by show r.tables.length ≤ r2.tables.length; have := h3.2; omega⟩
  | .integer _, p, key, r, r', h, hp, hr => by
    simp only [tabler_entry, Option.some.injEq] at h
    subst h
    exact ⟨wellFormed_push_field _ _ _ hr, by rw [length_push_field]⟩
  | .string _, p, key, r, r', h, hp, hr => by
    simp only [tabler_entry, Option.some.injEq] at h
    subst h
    exact ⟨wellFormed_push_field _ _ _ hr, by rw [length_push_field]⟩
  | .floating_point _, p, key, r, r', h, hp, hr => by
    simp only [tabler_entry, Option.some.injEq] at h
    subst h
    exact ⟨wellFormed_push_field _ _ _ hr, by rw [length_push_field]⟩
  | .boolean _, p, key, r, r', h, hp, hr => by
    simp only [tabler_entry, Option.some.injEq] at h
    subst h
    exact ⟨wellFormed_push_field _ _ _ hr, by rw [length_push_field]⟩
  | .array [], p, key, r, r', h, hp, hr => by
    simp [tabler_entry] at h
  | .array (first :: rest), p, key, r, r', h, hp, hr => by
    simp only [tabler_entry] at h
    cases hm : mixed_array first (first :: rest) with
    | true =>
      simp only [hm, if_true, Option.some.injEq] at h
      subst h; exact ⟨hr, Nat.le_refl _⟩
    | false =>
      simp only [hm, Bool.false_eq_true, if_false] at h
      cases hf : array_field key first.type with
      | none =>
        simp only [hf, Option.some.injEq] at h
        subst h; exact ⟨hr, Nat.le_refl _⟩
      | some f =>
        simp only [hf, Option.some.injEq] at h
        subst h
        exact ⟨wellFormed_push_field _ _ _ hr, by rw [length_push_field]⟩
  | .date _, p, key, r, r', h, hp, hr => by
    simp only [tabler_entry, Option.some.injEq] at h
    subst h; exact ⟨hr, Nat.le_refl _⟩
  | .time _, p, key, r, r', h, hp, hr => by
    simp only [tabler_entry, Option.some.injEq] at h
    subst h; exact ⟨hr, Nat.le_refl _⟩
  | .date_time _, p, key, r, r', h, hp, hr => by
    simp only [tabler_entry, Option.some.injEq] at h
    subst h; exact ⟨hr, Nat.le_refl _⟩
theorem tabler_wellFormed : ∀ (entries : List (String × Node)) (p : Nat) (r r' : Reader),
    tabler p entries r = some r' → p < r.tables.length → WellFormed r.tables →
    WellFormed r'.tables ∧ r.tables.length ≤ r'.tables.length
  | [], p, r, r', h, hp, hr => by
    simp only [tabler, Option.some.injEq] at h
    subst h; exact ⟨hr, Nat.le_refl _⟩
  | (key, value) :: rest, p, r, r', h, hp, hr => by
    simp only [tabler] at h
    cases h1 : tabler_entry p key value r with
    | none => simp [h1] at h
    | some r1 =>
      simp only [h1] at h
      have e1 := tabler_entry_wellFormed value p key r r1 h1 hp hr
      have e2 := tabler_wellFormed rest p r1 r' h (by omega) e1.1
      exact ⟨e2.1, by omega⟩
end

theorem parser_well_formed (file : String) (doc : List (String × Node)) (r : Reader)
    (h : parser file doc = some r) : well_formed r.tables = true ∧ 0 < r.tables.length := by
  have hw := tabler_wellFormed doc 0 _ r h (by simp) (by
    intro i t hi
    cases i with
    | zero =>
      simp only [List.getElem?_cons_zero, Option.some.injEq] at hi
      subst hi
      exact ⟨fun p hp => by simp at hp, fun c hc => by simp at hc⟩
    | succ k => simp at hi)
  refine ⟨well_formed_of_wellFormed _ hw.1, ?_⟩
  have := hw.2
  simp only [List.length_singleton] at this
  omega

/-! ## Reader: a relation kept by every step of `tabler` -/

theorem tabler_entry_table (p : Nat) (key : String) (entries : List (String × Node))
    (r : Reader) :
    tabler_entry p key (.table entries) r
      = (tabler r.tables.length entries
          (push_child p r.tables.length
            { tables := r.tables ++ [new_table p key r], c_depth := r.c_depth + 1 })).map
          (fun r2 => { r2 with c_depth := r2.c_depth - 1 }) := by
  simp only [tabler_entry, new_table]

mutual
theorem tabler_entry_rel (P : Reader → Reader → Prop) (hrefl : ∀ r, P r r)
    (htrans : ∀ a b c, P a b → P b c → P a c)
    (hfield : ∀ p f r, p < r.tables.length → P r (push_field p f r))
    (hnew : ∀ p key r, p < r.tables.length →
      P r (push_child p r.tables.length
        { tables := r.tables ++ [new_table p key r], c_depth := r.c_depth + 1 }))
    (hdepth : ∀ r d, P r { r with c_depth := d }) :
    ∀ (value : Node) (p : Nat) (key : String) (r r' : Reader),
      tabler_entry p key value r = some r' → p < r.tables.length →
      P r r' ∧ r.tables.length ≤ r'.tables.length
  | .table entries, p, key, r, r', h, hp => by
    rw [tabler_entry_table, Option.map_eq_some'] at h
    obtain ⟨r2, h2, rfl⟩ := h
    have h3 := tabler_rel P hrefl htrans hfield hnew hdepth entries _ _ r2 h2
      (by rw [length_push_child]; simp)
    rw [length_push_child] at h3
    simp only [List.length_append, List.length_singleton] at h3
    refine ⟨htrans _ _ _ (htrans _ _ _ (hnew p key r hp) h3.1) (hdepth r2 _), ?_⟩
    show r.tables.length ≤ r2.tables.length
    have := h3.2
    omega
  | .integer _, p, key, r, r', h, hp => by
    simp only [tabler_entry, Option.some.injEq] at h
    subst h
    exact ⟨hfield _ _ _ hp, by rw [length_push_field]⟩
  | .string _, p, key, r, r', h, hp => by
    simp only [tabler_entry, Option.some.injEq] at h
    subst h
    exact ⟨hfield _ _ _ hp, by rw [length_push_field]⟩
  | .floating_point _, p, key, r, r', h, hp => by
    simp only [tabler_entry, Option.some.injEq] at h
    subst h
    exact ⟨hfield _ _ _ hp, by rw [length_push_field]⟩
  | .boolean _, p, key, r, r', h, hp => by
    simp only [tabler_entry, Option.some.injEq] at h
    subst h
    exact ⟨hfield _ _ _ hp, by rw [length_push_field]⟩
  | .array [], p, key, r, r', h, hp => by
    simp [tabler_entry] at h
  | .array (first :: rest), p, key, r, r', h, hp => by
    simp only [tabler_entry] at h
    cases hm : mixed_array first (first :: rest) with
    | true =>
      simp only [hm, if_true, Option.some.injEq] at h
      subst h; exact ⟨hrefl _, Nat.le_refl _⟩
    | false =>
      simp only [hm, Bool.false_eq_true, if_false] at h
      cases hf : array_field key first.type with
      | none =>
        simp only [hf, Option.some.injEq] at h
        subst h; exact ⟨hrefl _, Nat.le_refl _⟩
      | some f =>
        simp only [hf, Option.some.injEq] at h
        subst h
        exact ⟨hfield _ _ _ hp, by rw [length_push_field]⟩
  | .date _, p, key, r, r', h, hp => by
    simp only [tabler_entry, Option.some.injEq] at h
    subst h; exact ⟨hrefl _, Nat.le_refl _⟩
  | .time _, p, key, r, r', h, hp => by
    simp only [tabler_entry, Option.some.injEq] at h
    subst h; exact ⟨hrefl _, Nat.le_refl _⟩
  | .date_time _, p, key, r, r', h, hp => by
    simp only [tabler_entry, Option.some.injEq] at h
    subst h; exact ⟨hrefl _, Nat.le_refl _⟩
theorem tabler_rel (P : Reader → Reader → Prop) (hrefl : ∀ r, P r r)
    (htrans : ∀ a b c, P a b → P b c → P a c)
    (hfield : ∀ p f r, p < r.tables.length → P r (push_field p f r))
    (hnew : ∀ p key r, p < r.tables.length →
      P r (push_child p r.tables.length
        { tables := r.tables ++ [new_table p key r], c_depth := r.c_depth + 1 }))
    (hdepth : ∀ r d, P r { r with c_depth := d }) :
    ∀ (entries : List (String × Node)) (p : Nat) (r r' : Reader),
      tabler p entries r = some r' → p < r.tables.length →
      P r r' ∧ r.tables.length ≤ r'.tables.length
  | [], p, r, r', h, hp => by
    simp only [tabler, Option.some.injEq] at h
    subst h; exact ⟨hrefl _, Nat.le_refl _⟩
  | (key, value) :: rest, p, r, r', h, hp => by
    simp only [tabler] at h
    cases h1 : tabler_entry p key value r with
    | none => simp [h1] at h
    | some r1 =>
      simp only [h1] at h
      have e1 := tabler_entry_rel P hrefl htrans hfield hnew hdepth value p key r r1 h1 hp
      have e2 := tabler_rel P hrefl htrans hfield hnew hdepth rest p r1 r' h (by omega)
      exact ⟨htrans _ _ _ e1.1 e2.1, by omega⟩
end

theorem keeps_tables_refl (r : Reader) : keeps_tables r r :=
  fun _ t h => ⟨t, h, rfl, rfl, rfl⟩

theorem keeps_tables_trans (a b c : Reader) (h1 : keeps_tables a b) (h2 : keeps_tables b c) :
    keeps_tables a c := by
  intro i t h
  obtain ⟨t1, e1, n1, p1, d1⟩ := h1 i t h
  obtain ⟨t2, e2, n2, p2, d2⟩ := h2 i t1 e1
  exact ⟨t2, e2, n2.trans n1, p2.trans p1, d2.trans d1⟩

theorem keeps_tables_push_field (p : Nat) (f : Field) (r : Reader) :
    keeps_tables r (push_field p f r) := by
  intro i t h
  rw [tables_push_field, h]
  by_cases hpi : p = i
  · exact ⟨{ t with fields := t.fields ++ [f] },
      by simp only [Option.map_some', hpi, if_true], rfl, rfl, rfl⟩
  · exact ⟨t, by simp only [Option.map_some', hpi, if_false], rfl, rfl, rfl⟩

theorem keeps_tables_new (p : Nat) (key : String) (r : Reader) :
    keeps_tables r (push_child p r.tables.length
      { tables := r.tables ++ [new_table p key r], c_depth := r.c_depth + 1 }) := by
  intro i t h
  rw [tables_push_child]
  show ∃ t', Option.map _ ((r.tables ++ [new_table p key r])[i]?) = some t' ∧ _
  rw [List.getElem?_append_left (lt_of_getElem? h), h]
  by_cases hpi : p = i
  · exact ⟨{ t with children := t.children ++ [r.tables.length] },
      by simp only [Option.map_some', hpi, if_true], rfl, rfl, rfl⟩
  · exact ⟨t, by simp only [Option.map_some', hpi, if_false], rfl, rfl, rfl⟩

theorem tabler_keeps_tables (entries : List (String × Node)) (p : Nat) (r r' : Reader)
    (h : tabler p entries r = some r') (hp : p < r.tables.length) : keeps_tables r r' :=
  (tabler_rel keeps_tables keeps_tables_refl keeps_tables_trans
    (fun p f r _ => keeps_tables_push_field p f r)
    (fun p key r _ => keeps_tables_new p key r)
    (fun r _ => keeps_tables_refl r) entries p r r' h hp).1

theorem parser_root (file : String) (doc : List (String × Node)) (r : Reader)
    (h : parser file doc = some r) :
    ∃ root, r.tables[0]? = some root ∧ root.name = cvar (strip_name file) ++ "_t"
      ∧ root.parent = none ∧ root.depth = 0 := by
  obtain ⟨t', e, n, p, d⟩ := tabler_keeps_tables doc 0 _ r h (by simp) 0 _ rfl
  exact ⟨t', e, n, p, d⟩


/-! ## Reader: the stored depth -/

theorem nest_tables : ∀ (n p : Nat) (r : Reader), p < r.tables.length →
    ∃ r', tabler p (nest n) r = some r'
      ∧ r'.tables.length = r.tables.length + n
      ∧ r'.c_depth = r.c_depth
      ∧ (∀ i, i < r.tables.length → child_info r'.tables i = child_info r.tables i)
      ∧ ∀ k, k < n → child_info r'.tables (r.tables.length + k)
          = some ("t", some (if k = 0 then p else r.tables.length + k - 1),
              ((r.c_depth + k) % 256).toNat) := by
  intro n
  induction n with
  | zero =>
    intro p r _
    exact ⟨r, rfl, rfl, rfl, fun _ _ => rfl, fun k hk => by omega⟩
  | succ n ih =>
    intro p r hp
    obtain ⟨r2, h2, l2, d2, f2, c2⟩ := ih r.tables.length
      (push_child p r.tables.length
        { tables := r.tables ++ [new_table p "t" r], c_depth := r.c_depth + 1 })
      (by rw [length_push_child]; simp)
    rw [length_push_child] at l2 f2 c2
    simp only [List.length_append, List.length_singleton] at l2 f2 c2
    have hnew : ∀ i, child_info (push_child p r.tables.length
        { tables := r.tables ++ [new_table p "t" r], c_depth := r.c_depth + 1 }).tables i
        = child_info (r.tables ++ [new_table p "t" r]) i := by
      intro i
      simp only [child_info, tables_push_child]
      cases (r.tables ++ [new_table p "t" r])[i]? with
      | none => rfl
      | some t => by_cases hpi : p = i <;> simp [hpi]
    refine ⟨{ r2 with c_depth := r2.c_depth - 1 }, ?_, ?_, ?_, ?_, ?_⟩
    · simp only [nest, tabler, tabler_entry_table, h2, Option.map_some']
    · show r2.tables.length = _
      omega
    · show r2.c_depth - 1 = r.c_depth
      rw [d2]
      show r.c_depth + 1 - 1 = r.c_depth
      omega
    · intro i hi
      show child_info r2.tables i = _
      rw [f2 i (by omega), hnew]
      simp only [child_info, List.getElem?_append_left hi]
    · intro k hk
      show child_info r2.tables (r.tables.length + k) = _
      cases k with
      | zero =>
        rw [Nat.add_zero, f2 _ (by omega), hnew]
        simp [child_info, new_table]
      | succ j =>
        have := c2 j (by omega)
        rw [show r.tables.length + (j + 1) = r.tables.length + 1 + j by omega, this]
        have e : (({ tables := r.tables ++ [new_table p "t" r], c_depth := r.c_depth + 1 } :
            Reader) |> push_child p r.tables.length).c_depth = r.c_depth + 1 := rfl
        rw [e]
        simp only [Nat.succ_ne_zero, if_false, Option.some.injEq, Prod.mk.injEq, true_and]
        refine ⟨?_, ?_⟩
        · by_cases hj : j = 0
          · simp [hj]
          · simp only [hj, if_false]
        · congr 2
          push_cast
          omega

/-- C11: in the document of 256 tables nested in one another the table at nesting
256 (index 256) is not the root, its parent (index 255) has the stored depth
255, and its own stored depth is 0. -/
theorem depth_wraps_at_256 :
    (parser "a.toml" (nest 256)).bind (fun r => child_info r.tables 255)
      = some ("t", some 254, 255)
    ∧ (parser "a.toml" (nest 256)).bind (fun r => child_info r.tables 256)
      = some ("t", some 255, 0) := by
  obtain ⟨r', h, _, _, _, c⟩ := nest_tables 256 0
    { tables := [⟨[], [], none, 0, cvar (strip_name "a.toml") ++ "_t"⟩], c_depth := 1 }
    (by simp)
  have hp : parser "a.toml" (nest 256) = some r' := h
  rw [hp]
  refine ⟨?_, ?_⟩
  · have := c 254 (by omega)
    simpa using this
  · have := c 255 (by omega)
    simpa using this

/-! ## Writer: artifacts, handles and the example document -/

/-- C19: for the root key `title` the extraction call of the read routine takes
the handle `x_t`, which is what `get_path` returns for the root table of
`x.toml`; no handle of that name is declared. -/
theorem root_field_handle :
    (parser "x.toml" [("title", .string "v")]).bind (fun r => c_src_read r.tables)
      = some [⟨.extract, 0, some ⟨"title", .t_string⟩,
                "    datum = toml_string_in(x_t, \"title\");\n"⟩,
              ⟨.store, 0, some ⟨"title", .t_string⟩, "    (*x)->title = datum.u.s;\n"⟩]
    ∧ (parser "x.toml" [("title", .string "v")]).bind (fun r =>
        get_path r.tables (path_fuel r.tables) get_root "x_t") = some "x_t"
    ∧ (parser "x.toml" [("title", .string "v")]).bind (fun r => c_src_decl r.tables)
      = some [] := by
  decide

/-- C20: for a document without tables the handle declaration after the
`// Tables` comment reads `toml_table_; `: the terminator rewrite replaces the
last letter of the type name.  With two tables it reads
`toml_table_t *root_s, *root_u; `. -/
theorem handle_declaration_without_tables :
    (parser "x.toml" [("a", .integer 1)]).bind (fun r =>
        (c_src_handles "x" r.tables).map (fun s =>
          s.data.drop (s.data.length - "    // Tables \n    toml_table_; \n".data.length)))
      = some "    // Tables \n    toml_table_; \n".data
    ∧ (parser "x.toml" [("s", .table []), ("u", .table [])]).bind (fun r =>
        (c_src_handles "x" r.tables).map (fun s =>
          s.data.drop
            (s.data.length - "    // Tables \n    toml_table_t *root_s, *root_u; \n".data.length)))
      = some "    // Tables \n    toml_table_t *root_s, *root_u; \n".data := by
  decide

/-- C17: the read routine generated for the example document holds two scalar
extraction statements, not one. -/
theorem example_two_scalar_extractions :
    (parser "cfg.toml" example_doc).bind (fun r =>
        (c_src_read r.tables).map count_scalar_extract) = some 2
    ∧ (parser "cfg.toml" example_doc).bind (fun r =>
        (c_src_read r.tables).map count_scalar_extract) ≠ some 1 := by
  decide

/-- C17: the read routine generated for the example document holds exactly one
nested-table lookup statement, two scalar extraction statements
(`toml_string_in` for `title`, `toml_int_in` for `port`), one indexed copy loop
and one length assignment. -/
theorem example_read_routine :
    (parser "cfg.toml" example_doc).bind (fun r =>
        (c_src_check r.tables).map (count_stmt .lookup)) = some 1
    ∧ (parser "cfg.toml" example_doc).bind (fun r =>
        (c_src_read r.tables).map count_scalar_extract) = some 2
    ∧ (parser "cfg.toml" example_doc).bind (fun r =>
        (c_src_read r.tables).map (count_stmt .copy_head)) = some 1
    ∧ (parser "cfg.toml" example_doc).bind (fun r =>
        (c_src_read r.tables).map (count_stmt .store_len)) = some 1
    ∧ (parser "cfg.toml" example_doc).bind (fun r =>
        (c_src_check r.tables).map render)
      = some ("    if (!(root_server = toml_table_in(root, \"server\"))) \x7b\n"
          ++ "        fprintf(stderr, \"t2c_cfg_read() failed: failed locating [server] table\");\n"
          ++ "        return 1;\n    \x7d\n")
    ∧ (parser "cfg.toml" example_doc).bind (fun r =>
        (c_src_read r.tables).map (fun rs => rs.map (fun q => (q.stmt, q.text))))
      = some [(.extract, "    datum = toml_string_in(cfg_t, \"title\");\n"),
          (.store, "    (*cfg)->title = datum.u.s;\n"),
          (.extract, "    datum = toml_int_in(root_server, \"port\");\n"),
          (.store, "    (*cfg)->server.port = datum.u.i;\n"),
          (.extract, "    arr = toml_array_in(root_server, \"tags\");\n"),
          (.alloc, "    (*cfg)->server.tags = malloc(toml_array_nelem(arr) * sizeof(char*));\n"),
          (.copy_head,
            "    for (int i = 0; i < toml_array_nelem(arr); ++i) \x7b\n        datum = toml_string_at(arr, i);\n"),
          (.copy_store, "        (*cfg)->server.tags[i] = datum.u.s;\n"),
          (.copy_end, "    \x7d\n"),
          (.store_len, "    (*cfg)->server.tags_len = toml_array_nelem(arr);\n")] := by
  decide


/-! ## Sanitising is not injective -/

theorem same_or_dash_iff (a b : Char) :
    (if a = '-' then '_' else a) = (if b = '-' then '_' else b) ↔ same_or_dash a b := by
  unfold same_or_dash
  by_cases ha : a = '-' <;> by_cases hb : b = '-'
  · rw [if_pos ha, if_pos hb]
    exact ⟨fun _ => Or.inl (ha.trans hb.symm), fun _ => rfl⟩
  · rw [if_pos ha, if_neg hb]
    constructor
    · intro h; exact Or.inr ⟨Or.inl ha, Or.inr h.symm⟩
    · rintro (h | ⟨_, h | h⟩)
      · exact absurd (h.symm.trans ha) hb
      · exact absurd h hb
      · exact h.symm
  · rw [if_neg ha, if_pos hb]
    constructor
    · intro h; exact Or.inr ⟨Or.inr h, Or.inl hb⟩
    · rintro (h | ⟨h | h, _⟩)
      · exact absurd (h.trans hb) ha
      · exact absurd h ha
      · exact h
  · rw [if_neg ha, if_neg hb]
    constructor
    · intro h; exact Or.inl h
    · rintro (h | ⟨h1 | h1, h2 | h2⟩)
      · exact h
      · exact absurd h1 ha
      · exact absurd h1 ha
      · exact absurd h2 hb
      · rw [h1, h2]

theorem map_eq_map_iff_forall₂ {α β : Type} (f : α → β) :
    ∀ (l1 l2 : List α), l1.map f = l2.map f ↔ List.Forall₂ (fun a b => f a = f b) l1 l2
  | [], [] => by simp
  | [], b :: l2 => by simp
  | a :: l1, [] => by simp
  | a :: l1, b :: l2 => by
    simp only [List.map_cons, List.cons.injEq, List.forall₂_cons, map_eq_map_iff_forall₂ f l1 l2]

theorem cvar_eq_iff (k1 k2 : String) :
    cvar k1 = cvar k2 ↔ List.Forall₂ same_or_dash k1.data k2.data := by
  have e : cvar k1 = cvar k2 ↔
      k1.data.map (fun c => if c = '-' then '_' else c)
        = k2.data.map (fun c => if c = '-' then '_' else c) := by
    simp only [cvar, replace_char]
    constructor
    · intro h; exact congrArg String.data h
    · intro h; rw [h]
  rw [e, map_eq_map_iff_forall₂]
  constructor
  · intro h; exact h.imp (fun a b hab => (same_or_dash_iff a b).mp hab)
  · intro h; exact h.imp (fun a b hab => (same_or_dash_iff a b).mpr hab)

theorem entry_of_supported_scalar (p : Nat) (key : String) (v : Node) (ty : FieldType)
    (r : Reader) (h : supported_scalar v = some ty) :
    tabler_entry p key v r = some (push_field p ⟨cvar key, ty⟩ r) := by
  cases v <;> simp [supported_scalar] at h <;> subst h <;> rfl

theorem member_decls_scalar (i : Nat) (t : Table) (name : String) (ty : FieldType)
    (h : scalar_kind ty = true) :
    ∃ c_type, member_decls (h_field i t ⟨name, ty⟩) = [c_type ++ name ++ ";\n"] := by
  cases ty <;> simp [scalar_kind] at h
  · exact ⟨s_type_int, rfl⟩
  · exact ⟨s_type_double, rfl⟩
  · exact ⟨s_type_bool, rfl⟩
  · exact ⟨s_type_string, rfl⟩

theorem supported_scalar_kind (v : Node) (ty : FieldType) (h : supported_scalar v = some ty) :
    scalar_kind ty = true := by
  cases v <;> simp [supported_scalar] at h <;> subst h <;> rfl

/-- C15: `cvar k1 = cvar k2` holds exactly when the two keys have equal length
and at every position agree or both hold `-` or `_`; `cvar` sends `a-b` and
`a_b` to `a_b`; and for two sibling keys of supported scalar type with equal
sanitised forms the Schema Builder appends two Fields with the same name, for
which the declaration pass emits two members of that one name. -/
theorem sanitization_collision (k1 k2 : String) (v1 v2 : Node) (ty1 ty2 : FieldType)
    (p : Nat) (r : Reader) (i : Nat) (t : Table)
    (h1 : supported_scalar v1 = some ty1) (h2 : supported_scalar v2 = some ty2)
    (hk : cvar k1 = cvar k2) :
    (∀ a b : String, cvar a = cvar b ↔ List.Forall₂ same_or_dash a.data b.data)
    ∧ k1.data.length = k2.data.length
    ∧ cvar "a-b" = "a_b" ∧ cvar "a_b" = "a_b"
    ∧ tabler p [(k1, v1), (k2, v2)] r
        = some (push_field p ⟨cvar k1, ty2⟩ (push_field p ⟨cvar k1, ty1⟩ r))
    ∧ ∃ c1 c2, member_decls (h_field i t ⟨cvar k1, ty1⟩ ++ h_field i t ⟨cvar k2, ty2⟩)
        = [c1 ++ cvar k1 ++ ";\n", c2 ++ cvar k1 ++ ";\n"] := by
  refine ⟨cvar_eq_iff, ((cvar_eq_iff k1 k2).mp hk).length_eq, by decide, by decide, ?_, ?_⟩
  · simp only [tabler, entry_of_supported_scalar _ _ _ _ _ h1,
      entry_of_supported_scalar _ _ _ _ _ h2, hk]
  · obtain ⟨c1, e1⟩ := member_decls_scalar i t (cvar k1) ty1 (supported_scalar_kind v1 ty1 h1)
    obtain ⟨c2, e2⟩ := member_decls_scalar i t (cvar k2) ty2 (supported_scalar_kind v2 ty2 h2)
    refine ⟨c1, c2, ?_⟩
    have happ : ∀ a b : List Piece, member_decls (a ++ b) = member_decls a ++ member_decls b := by
      intro a b; simp [member_decls]
    rw [happ, e1, e2, hk]
    rfl

theorem sanitization_collision_witness :
    supported_scalar (.integer 1) = some .t_int
    ∧ supported_scalar (.integer 2) = some .t_int
    ∧ cvar "a-b" = cvar "a_b"
    ∧ tabler 0 [("a-b", .integer 1), ("a_b", .integer 2)] ⟨[⟨[], [], none, 0, "x_t"⟩], 1⟩
        = some (push_field 0 ⟨cvar "a-b", .t_int⟩
            (push_field 0 ⟨cvar "a-b", .t_int⟩ ⟨[⟨[], [], none, 0, "x_t"⟩], 1⟩))
    ∧ (parser "x.toml" [("a-b", .integer 1), ("a_b", .integer 2)]).bind (fun r =>
        (write_h_struct r.tables).map render)
      = some "struct \x7b\n    int64_t a_b;\n    int64_t a_b;\n\x7d x_t;\n" :=
  ⟨by decide, by decide, by decide,
    (sanitization_collision "a-b" "a_b" (.integer 1) (.integer 2) .t_int .t_int 0
      ⟨[⟨[], [], none, 0, "x_t"⟩], 1⟩ 0 ⟨[], [], none, 0, "x_t"⟩
      (by decide) (by decide) (by decide)).2.2.2.2.1,
    by decide⟩


/-! ## Documents with scalar keys only -/

theorem member_decls_append (a b : List Piece) :
    member_decls (a ++ b) = member_decls a ++ member_decls b := by
  simp [member_decls]

theorem scalar_entries_no_empty_array :
    ∀ doc : List (String × Node), (∀ kv ∈ doc, is_scalar kv.2 = true) →
      entries_no_empty_array doc = true
  | [], _ => rfl
  | (k, v) :: rest, h => by
    have hv := h (k, v) (List.mem_cons_self _ _)
    have hr := scalar_entries_no_empty_array rest (fun kv hkv => h kv (List.mem_cons_of_mem _ hkv))
    simp only [entries_no_empty_array, hr, Bool.and_true]
    cases v <;> simp [is_scalar] at hv <;> rfl

theorem scalar_entries_table_keys :
    ∀ doc : List (String × Node), (∀ kv ∈ doc, is_scalar kv.2 = true) → table_keys doc = []
  | [], _ => rfl
  | (k, v) :: rest, h => by
    have hv := h (k, v) (List.mem_cons_self _ _)
    have hr := scalar_entries_table_keys rest (fun kv hkv => h kv (List.mem_cons_of_mem _ hkv))
    cases v <;> simp [is_scalar] at hv <;> simp [table_keys, hr]

theorem scalar_entry_member_count (i : Nat) (t : Table) (k : String) (v : Node)
    (hv : is_scalar v = true) :
    (member_decls ((entry_field k v).toList.flatMap (h_field i t))).length
      = if (supported_scalar v).isSome then 1 else 0 := by
  cases v <;> simp [is_scalar] at hv <;>
    simp [entry_field, supported_scalar, h_field, member_decls]

theorem scalar_entries_member_count (i : Nat) (t : Table) :
    ∀ doc : List (String × Node), (∀ kv ∈ doc, is_scalar kv.2 = true) →
      (member_decls ((doc.filterMap fun kv => entry_field kv.1 kv.2).flatMap (h_field i t))).length
        = (doc.filter fun kv => (supported_scalar kv.2).isSome).length
  | [], _ => rfl
  | (k, v) :: rest, h => by
    have hv := h (k, v) (List.mem_cons_self _ _)
    have hr := scalar_entries_member_count i t rest
      (fun kv hkv => h kv (List.mem_cons_of_mem _ hkv))
    rw [filterMap_entry_cons, List.flatMap_append, member_decls_append, List.length_append, hr,
      scalar_entry_member_count i t k v hv, List.filter_cons]
    by_cases hsup : (supported_scalar v).isSome = true
    · simp only [hsup, if_true, List.length_cons]; omega
    · simp only [hsup, if_false]; simp

/-- C16: for a document all of whose root keys have scalar values, the builder
returns, the declaration pass returns, and the number of member declarations it
emits is the number of keys whose value is an integer, a float, a boolean or a
string. -/
theorem scalar_document_member_count (file : String) (doc : List (String × Node))
    (hs : ∀ kv ∈ doc, is_scalar kv.2 = true) :
    ∃ r ds, parser file doc = some r ∧ write_h_struct r.tables = some ds
      ∧ (member_decls ds).length
          = (doc.filter fun kv => (supported_scalar kv.2).isSome).length := by
  obtain ⟨r, cs, hp, _, _, _, ht, _, _, hm⟩ :=
    tabler_extends doc 0
      { tables := [⟨[], [], none, 0, cvar (strip_name file) ++ "_t"⟩], c_depth := 1 }
      ⟨[], [], none, 0, cvar (strip_name file) ++ "_t"⟩ rfl
      (scalar_entries_no_empty_array doc hs)
  rw [scalar_entries_table_keys doc hs] at hm
  have hcs : cs = [] := by simpa using hm
  subst hcs
  simp only [List.nil_append, List.append_nil] at ht
  have hw : write_h_struct r.tables
      = some ([⟨.indent, 0, none, mk_indent 0⟩, ⟨.block_open, 0, none, s_table⟩]
          ++ (doc.filterMap fun kv => entry_field kv.1 kv.2).flatMap
              (h_field 0 ⟨doc.filterMap fun kv => entry_field kv.1 kv.2, [], none, 0,
                cvar (strip_name file) ++ "_t"⟩)
          ++ []
          ++ [⟨.indent, 0, none, mk_indent 0⟩,
              ⟨.block_close, 0, none, "\x7d " ++ block_member_name
                ⟨doc.filterMap fun kv => entry_field kv.1 kv.2, [], none, 0,
                  cvar (strip_name file) ++ "_t"⟩ ++ ";\n"⟩]) := by
    simp only [write_h_struct, path_fuel, h_struct, get_root, ht, collect]
  refine ⟨r, _, hp, hw, ?_⟩
  simp only [member_decls_append, List.length_append, scalar_entries_member_count 0 _ doc hs]
  simp [member_decls]

theorem scalar_document_member_count_witness :
    (∀ kv ∈ [("a", Node.integer 1), ("when", Node.date 0), ("b-c", Node.string "x")],
      is_scalar kv.2 = true)
    ∧ ∃ r ds, parser "cfg.toml" [("a", .integer 1), ("when", .date 0), ("b-c", .string "x")]
          = some r
        ∧ write_h_struct r.tables = some ds
        ∧ (member_decls ds).length
          = ([("a", Node.integer 1), ("when", Node.date 0), ("b-c", Node.string "x")].filter
              fun kv => (supported_scalar kv.2).isSome).length :=
  ⟨by simp [is_scalar],
    scalar_document_member_count "cfg.toml"
      [("a", .integer 1), ("when", .date 0), ("b-c", .string "x")] (by simp [is_scalar])⟩


/-! ## Writer: all passes walk the tree in the same pre-order -/

theorem get_path_total (ts : List Table) (hwf : WellFormed ts) :
    ∀ (fuel i : Nat) (path : String), i < fuel → i < ts.length →
      ∃ m, get_path ts fuel i path = some m := by
  intro fuel
  induction fuel with
  | zero => intro i path h; omega
  | succ n ih =>
    intro i path hf hi
    unfold get_path
    rw [List.getElem?_eq_getElem hi]
    simp only
    cases hp : (ts[i]).parent with
    | none => exact ⟨_, rfl⟩
    | some p =>
      have hpi := (hwf i ts[i] (List.getElem?_eq_getElem hi)).1 p hp
      have hpl : p < ts.length := by omega
      simp only [List.getElem?_eq_getElem hpl]
      by_cases hd : (ts[p]).depth ≠ 0
      · rw [if_pos hd]; exact ih p _ (by omega) hpl
      · rw [if_neg hd]; exact ih p _ (by omega) hpl

theorem get_parent_path_total (ts : List Table) (hwf : WellFormed ts) :
    ∀ (fuel i : Nat) (path : String), i < fuel → i < ts.length →
      ∃ m, get_parent_path ts fuel i path = some m := by
  intro fuel
  induction fuel with
  | zero => intro i path h; omega
  | succ n ih =>
    intro i path hf hi
    unfold get_parent_path
    rw [List.getElem?_eq_getElem hi]
    simp only
    cases hp : (ts[i]).parent with
    | none => exact ⟨_, rfl⟩
    | some p =>
      have hpi := (hwf i ts[i] (List.getElem?_eq_getElem hi)).1 p hp
      have hpl : p < ts.length := by omega
      simp only [List.getElem?_eq_getElem hpl]
      by_cases hd : (ts[p]).depth ≠ 0
      · rw [if_pos hd]; exact ih p _ (by omega) hpl
      · rw [if_neg hd]; exact ih p _ (by omega) hpl

theorem collect_total {α β : Type} (f : α → Option (List β)) :
    ∀ l : List α, (∀ x ∈ l, ∃ a, f x = some a) → ∃ a, collect f l = some a
  | [], _ => ⟨[], rfl⟩
  | x :: rest, h => by
    obtain ⟨a, ha⟩ := h x (List.mem_cons_self _ _)
    obtain ⟨b, hb⟩ := collect_total f rest (fun y hy => h y (List.mem_cons_of_mem _ hy))
    exact ⟨a ++ b, by simp only [collect, ha, hb]⟩

theorem walk_total (ts : List Table) (fld : Nat → Table → Field → Option (List Piece))
    (pass : Nat → Nat → Option (List Piece)) (hw : is_walk ts fld pass)
    (hwf : WellFormed ts)
    (hfld : ∀ i t f, ts[i]? = some t → ∃ out, fld i t f = some out) :
    ∀ (fuel i : Nat), i < ts.length → ts.length - i ≤ fuel → ∃ out, pass fuel i = some out := by
  intro fuel
  induction fuel with
  | zero => intro i hi hf; omega
  | succ n ih =>
    intro i hi hf
    have hti := List.getElem?_eq_getElem hi
    have hkids := (hwf i ts[i] hti).2
    obtain ⟨fs, hfs⟩ := collect_total (fld i ts[i]) (ts[i]).fields
      (fun f _ => hfld i ts[i] f hti)
    obtain ⟨cs, hcs⟩ := collect_total (pass n) (ts[i]).children
      (fun c hc => ih c (hkids c hc).2 (by have := (hkids c hc).1; omega))
    exact ⟨fs ++ cs, by rw [hw.2, hti]; simp only [hfs, hcs]⟩

theorem headed_walk_total (ts : List Table) (head : Nat → Table → Option Piece)
    (pass : Nat → Nat → Option (List Piece)) (hw : is_headed_walk ts head pass)
    (hwf : WellFormed ts)
    (hhead : ∀ i t, ts[i]? = some t → ∃ q, head i t = some q) :
    ∀ (fuel i : Nat), i < ts.length → ts.length - i ≤ fuel → ∃ out, pass fuel i = some out := by
  intro fuel
  induction fuel with
  | zero => intro i hi hf; omega
  | succ n ih =>
    intro i hi hf
    have hti := List.getElem?_eq_getElem hi
    have hkids := (hwf i ts[i] hti).2
    obtain ⟨q, hq⟩ := hhead i ts[i] hti
    obtain ⟨cs, hcs⟩ := collect_total (pass n) (ts[i]).children
      (fun c hc => ih c (hkids c hc).2 (by have := (hkids c hc).1; omega))
    exact ⟨q :: cs, by rw [hw.2, hti]; simp only [hq, hcs]⟩

theorem collect_fields_sel (sel : List Piece → List (Nat × Field))
    (hnil : sel [] = []) (happ : ∀ a b, sel (a ++ b) = sel a ++ sel b)
    (keep : Field → Bool) (i : Nat) (fld : Field → Option (List Piece))
    (hfld : ∀ f out, fld f = some out → sel out = if keep f then [(i, f)] else []) :
    ∀ (fields : List Field) (out : List Piece), collect fld fields = some out →
      sel out = (fields.map fun f => (i, f)).filter fun tf => keep tf.2
  | [], out, h => by
    simp only [collect, Option.some.injEq] at h
    subst h
    simpa using hnil
  | f :: rest, out, h => by
    simp only [collect] at h
    cases h1 : fld f with
    | none => simp [h1] at h
    | some a =>
      cases h2 : collect fld rest with
      | none => simp [h1, h2] at h
      | some b =>
        simp only [h1, h2, Option.some.injEq] at h
        subst h
        rw [happ, hfld f a h1, collect_fields_sel sel hnil happ keep i fld hfld rest b h2,
          List.map_cons, List.filter_cons]
        by_cases hk : keep f = true
        · simp [hk]
        · simp [hk]

theorem collect_children_sel {γ : Type} (sel : List Piece → List γ)
    (hnil : sel [] = []) (happ : ∀ a b, sel (a ++ b) = sel a ++ sel b)
    (keep : γ → Bool) (pass : Nat → Option (List Piece)) (pre : Nat → Option (List γ))
    (ih : ∀ c out, pass c = some out → ∃ l, pre c = some l ∧ sel out = l.filter keep) :
    ∀ (cs : List Nat) (out : List Piece), collect pass cs = some out →
      ∃ l, collect pre cs = some l ∧ sel out = l.filter keep
  | [], out, h => by
    simp only [collect, Option.some.injEq] at h
    subst h
    exact ⟨[], rfl, by simpa using hnil⟩
  | c :: rest, out, h => by
    simp only [collect] at h
    cases h1 : pass c with
    | none => simp [h1] at h
    | some a =>
      cases h2 : collect pass rest with
      | none => simp [h1, h2] at h
      | some b =>
        simp only [h1, h2, Option.some.injEq] at h
        subst h
        obtain ⟨l1, e1, s1⟩ := ih c a h1
        obtain ⟨l2, e2, s2⟩ := collect_children_sel sel hnil happ keep pass pre ih rest b h2
        exact ⟨l1 ++ l2, by simp only [collect, e1, e2],
          by rw [happ, s1, s2, List.filter_append]⟩

theorem walk_preorder (ts : List Table) (fld : Nat → Table → Field → Option (List Piece))
    (pass : Nat → Nat → Option (List Piece)) (hw : is_walk ts fld pass)
    (sel : List Piece → List (Nat × Field))
    (hnil : sel [] = []) (happ : ∀ a b, sel (a ++ b) = sel a ++ sel b)
    (keep : Field → Bool)
    (hfld : ∀ i t f out, fld i t f = some out → sel out = if keep f then [(i, f)] else []) :
    ∀ (fuel i : Nat) (out : List Piece), pass fuel i = some out →
      ∃ l, preorder_fields ts fuel i = some l ∧ sel out = l.filter fun tf => keep tf.2 := by
  intro fuel
  induction fuel with
  | zero => intro i out h; rw [hw.1] at h; cases h
  | succ n ih =>
    intro i out h
    rw [hw.2] at h
    unfold preorder_fields
    cases hi : ts[i]? with
    | none => simp [hi] at h
    | some t =>
      simp only [hi] at h ⊢
      cases hf : collect (fld i t) t.fields with
      | none => simp [hf] at h
      | some fs =>
        cases hc : collect (pass n) t.children with
        | none => simp [hf, hc] at h
        | some cs =>
          simp only [hf, hc, Option.some.injEq] at h
          subst h
          obtain ⟨l, el, sl⟩ := collect_children_sel sel hnil happ (fun tf => keep tf.2)
            (pass n) (preorder_fields ts n) (ih) t.children cs hc
          refine ⟨_, by rw [el], ?_⟩
          rw [happ, sl, List.filter_append,
            collect_fields_sel sel hnil happ keep i (fld i t) (hfld i t) t.fields fs hf]

theorem headed_walk_preorder (ts : List Table) (head : Nat → Table → Option Piece)
    (pass : Nat → Nat → Option (List Piece)) (hw : is_headed_walk ts head pass) (s : Stmt)
    (hhead : ∀ i t q, head i t = some q → q.stmt = s ∧ q.table = i) :
    ∀ (fuel i : Nat) (out : List Piece), pass fuel i = some out →
      ∃ l, preorder_tables ts fuel i = some l ∧ tables_of s out = l.filter fun _ => true := by
  intro fuel
  induction fuel with
  | zero => intro i out h; rw [hw.1] at h; cases h
  | succ n ih =>
    intro i out h
    rw [hw.2] at h
    unfold preorder_tables
    cases hi : ts[i]? with
    | none => simp [hi] at h
    | some t =>
      simp only [hi] at h ⊢
      cases hq : head i t with
      | none => simp [hq] at h
      | some q =>
        cases hc : collect (pass n) t.children with
        | none => simp [hq, hc] at h
        | some cs =>
          simp only [hq, hc, Option.some.injEq] at h
          subst h
          obtain ⟨l, el, sl⟩ := collect_children_sel (tables_of s) rfl
            (fun a b => by simp [tables_of]) (fun _ => true)
            (pass n) (preorder_tables ts n) (ih) t.children cs hc
          refine ⟨_, by rw [el], ?_⟩
          obtain ⟨h1, h2⟩ := hhead i t q hq
          have e : tables_of s (q :: cs) = i :: tables_of s cs := by
            simp [tables_of, h1, h2]
          rw [e, sl]
          simp

theorem read_r_is_walk (ts : List Table) (base_name : String) :
    is_walk ts (read_field ts base_name) (read_r ts base_name) :=
  ⟨fun _ => rfl, fun _ _ => rfl⟩

theorem print_r_is_walk (ts : List Table) (base_name : String) :
    is_walk ts (fun i _ f => print_field ts base_name i f) (print_r ts base_name) :=
  ⟨fun _ => rfl, fun _ _ => rfl⟩

theorem decl_r_is_headed_walk (ts : List Table) :
    is_headed_walk ts
      (fun i t => (get_path ts (path_fuel ts) i t.name).map
        fun h => ⟨.handle, i, none, "*" ++ h ++ ", "⟩)
      (decl_r ts) := by
  refine ⟨fun _ => rfl, fun fuel i => ?_⟩
  unfold decl_r
  cases ts[i]? with
  | none => rfl
  | some t =>
    simp only
    cases get_path ts (path_fuel ts) i t.name <;> rfl

theorem check_r_is_headed_walk (ts : List Table) (base_name : String) :
    is_headed_walk ts
      (fun i t =>
        match get_path ts (path_fuel ts) i t.name, get_parent_path ts (path_fuel ts) i "" with
        | some h, some ph =>
          some ⟨.lookup, i, none,
            "    if (!(" ++ h ++ " = toml_table_in(" ++ ph ++ ", \"" ++ tvar t.name
              ++ "\"))) \x7b\n        fprintf(stderr, \"" ++ lib_tag ++ base_name
              ++ "_read() failed: failed locating [" ++ t.name
              ++ "] table\");\n        return 1;\n    \x7d\n"⟩
        | _, _ => none)
      (check_r ts base_name) := by
  refine ⟨fun _ => rfl, fun fuel i => ?_⟩
  unfold check_r
  cases ts[i]? with
  | none => rfl
  | some t =>
    simp only
    cases get_path ts (path_fuel ts) i t.name <;>
      cases get_parent_path ts (path_fuel ts) i "" <;> rfl

theorem fields_of_nil (s : Stmt) : fields_of s [] = [] := rfl

theorem fields_of_any_append (ss : List Stmt) (a b : List Piece) :
    fields_of_any ss (a ++ b) = fields_of_any ss a ++ fields_of_any ss b := by
  simp only [fields_of_any, List.filterMap_append]

theorem read_field_extract (ts : List Table) (base_name : String) (i : Nat) (t : Table)
    (f : Field) (out : List Piece) (h : read_field ts base_name i t f = some out) :
    fields_of .extract out = if decide (f.type ≠ .t_array) then [(i, f)] else [] := by
  obtain ⟨name, ty⟩ := f
  unfold read_field at h
  cases hg : get_path ts (path_fuel ts) i t.name <;>
    cases hv : get_path_var ts (path_fuel ts) i name <;>
    cases ty <;> simp only [hg, hv] at h <;> cases h <;> simp [fields_of]

theorem print_field_print (ts : List Table) (base_name : String) (i : Nat)
    (f : Field) (out : List Piece) (h : print_field ts base_name i f = some out) :
    fields_of_any [.print, .print_head] out
      = if decide (f.type ≠ .t_array) then [(i, f)] else [] := by
  obtain ⟨name, ty⟩ := f
  unfold print_field at h
  cases hv : get_path_var ts (path_fuel ts) i name <;>
    cases ty <;> simp only [hv] at h <;> cases h <;> simp [fields_of_any]

theorem read_field_total (ts : List Table) (base_name : String) (hwf : WellFormed ts)
    (i : Nat) (t : Table) (f : Field) (hi : ts[i]? = some t) :
    ∃ out, read_field ts base_name i t f = some out := by
  have hlt := lt_of_getElem? hi
  obtain ⟨g, hg⟩ := get_path_total ts hwf (path_fuel ts) i t.name
    (by simp only [path_fuel]; omega) hlt
  obtain ⟨m, hm⟩ := get_path_var_total ts hwf (path_fuel ts) i f.name
    (by simp only [path_fuel]; omega) hlt
  obtain ⟨name, ty⟩ := f
  simp only at hm
  cases ty <;> simp [read_field, hg, hm]

theorem print_field_total (ts : List Table) (base_name : String) (hwf : WellFormed ts)
    (i : Nat) (t : Table) (f : Field) (hi : ts[i]? = some t) :
    ∃ out, print_field ts base_name i f = some out := by
  have hlt := lt_of_getElem? hi
  obtain ⟨m, hm⟩ := get_path_var_total ts hwf (path_fuel ts) i f.name
    (by simp only [path_fuel]; omega) hlt
  obtain ⟨name, ty⟩ := f
  simp only at hm
  cases ty <;> simp [print_field, hm]

theorem collect_preorder_fields_mem (ts : List Table) (pre : Nat → Option (List (Nat × Field)))
    (ih : ∀ c l, pre c = some l → ∀ tf ∈ l, ∃ t, ts[tf.1]? = some t ∧ tf.2 ∈ t.fields) :
    ∀ (cs : List Nat) (l : List (Nat × Field)), collect pre cs = some l →
      ∀ tf ∈ l, ∃ t, ts[tf.1]? = some t ∧ tf.2 ∈ t.fields
  | [], l, h => by
    simp only [collect, Option.some.injEq] at h
    subst h
    intro tf htf; simp at htf
  | c :: rest, l, h => by
    simp only [collect] at h
    cases h1 : pre c with
    | none => simp [h1] at h
    | some a =>
      cases h2 : collect pre rest with
      | none => simp [h1, h2] at h
      | some b =>
        simp only [h1, h2, Option.some.injEq] at h
        subst h
        intro tf htf
        rcases List.mem_append.mp htf with htf | htf
        · exact ih c a h1 tf htf
        · exact collect_preorder_fields_mem ts pre ih rest b h2 tf htf

theorem preorder_fields_mem (ts : List Table) :
    ∀ (fuel i : Nat) (l : List (Nat × Field)), preorder_fields ts fuel i = some l →
      ∀ tf ∈ l, ∃ t, ts[tf.1]? = some t ∧ tf.2 ∈ t.fields := by
  intro fuel
  induction fuel with
  | zero => intro i l h; simp [preorder_fields] at h
  | succ n ih =>
    intro i l h
    unfold preorder_fields at h
    cases hi : ts[i]? with
    | none => simp [hi] at h
    | some t =>
      simp only [hi] at h
      cases hc : collect (preorder_fields ts n) t.children with
      | none => simp [hc] at h
      | some cs =>
        simp only [hc, Option.some.injEq] at h
        subst h
        intro tf htf
        rcases List.mem_append.mp htf with htf | htf
        · obtain ⟨f, hf, rfl⟩ := List.mem_map.mp htf
          exact ⟨t, hi, hf⟩
        · exact collect_preorder_fields_mem ts _ ih t.children cs hc tf htf

theorem filter_typed_eq_self (ts : List Table)
    (hnt : ∀ t ∈ ts, ∀ f ∈ t.fields, f.type ≠ .t_array) (fuel i : Nat)
    (l : List (Nat × Field)) (h : preorder_fields ts fuel i = some l) :
    l.filter (fun tf => decide (tf.2.type ≠ .t_array)) = l := by
  rw [List.filter_eq_self]
  intro tf htf
  obtain ⟨t, ht, hf⟩ := preorder_fields_mem ts fuel i l h tf htf
  simpa using hnt t (List.mem_iff_getElem?.mpr ⟨_, ht⟩) tf.2 hf

/-- On a well-formed schema tree without fields of the untyped-array kind all
passes return; the fields of the extraction pieces of `read_r`, of the output
pieces of `print_r` and of the member pieces of `h_struct` are the pre-order
sequence of the fields, and the tables of the handle pieces of `decl_r` and of
the lookup pieces of `check_r` are the pre-order sequence of the tables below
the root. -/
theorem passes_share_labels (ts : List Table) (hwf : well_formed ts = true)
    (hne : 0 < ts.length) (hnt : ∀ t ∈ ts, ∀ f ∈ t.fields, f.type ≠ .t_array) :
    ∃ root hs ds cs rs ps, ts[get_root]? = some root
      ∧ write_h_struct ts = some hs ∧ c_src_decl ts = some ds ∧ c_src_check ts = some cs
      ∧ c_src_read ts = some rs ∧ c_src_print ts = some ps
      ∧ preorder_fields ts (path_fuel ts) get_root = some (fields_of .member hs)
      ∧ fields_of .extract rs = fields_of .member hs
      ∧ fields_of_any [.print, .print_head] ps = fields_of .member hs
      ∧ collect (preorder_tables ts (path_fuel ts)) root.children = some (tables_of .handle ds)
      ∧ tables_of .lookup cs = tables_of .handle ds := by
  have hW := wellFormed_of_well_formed ts hwf
  have hroot := List.getElem?_eq_getElem hne
  have hkids := (hW 0 ts[0] hroot).2
  have hfuel : ∀ c, c < ts.length → ts.length - c ≤ path_fuel ts := by
    intro c _; simp only [path_fuel]; omega
  obtain ⟨hs, _, hhs, _⟩ := free_r_mirrors ts "" hW (path_fuel ts) 0 hne (hfuel 0 hne)
  obtain ⟨rs, hrs⟩ := walk_total ts _ _ (read_r_is_walk ts (base_name_of (ts[0]).name)) hW
    (fun i t f hi => read_field_total ts _ hW i t f hi) (path_fuel ts) 0 hne (hfuel 0 hne)
  obtain ⟨ps, hps⟩ := walk_total ts _ _ (print_r_is_walk ts (base_name_of (ts[0]).name)) hW
    (fun i t f hi => print_field_total ts _ hW i t f hi) (path_fuel ts) 0 hne (hfuel 0 hne)
  obtain ⟨ds, hds⟩ := collect_total (decl_r ts (path_fuel ts)) (ts[0]).children
    (fun c hc => headed_walk_total ts _ _ (decl_r_is_headed_walk ts) hW
      (fun i t hi => by
        obtain ⟨g, hg⟩ := get_path_total ts hW (path_fuel ts) i t.name
          (by have := lt_of_getElem? hi; simp only [path_fuel]; omega) (lt_of_getElem? hi)
        simp only [hg, Option.map_some']
        exact ⟨_, rfl⟩)
      (path_fuel ts) c (hkids c hc).2 (hfuel c (hkids c hc).2))
  obtain ⟨cs, hcs⟩ := collect_total (check_r ts (base_name_of (ts[0]).name) (path_fuel ts))
    (ts[0]).children
    (fun c hc => headed_walk_total ts _ _
      (check_r_is_headed_walk ts (base_name_of (ts[0]).name)) hW
      (fun i t hi => by
        obtain ⟨g, hg⟩ := get_path_total ts hW (path_fuel ts) i t.name
          (by have := lt_of_getElem? hi; simp only [path_fuel]; omega) (lt_of_getElem? hi)
        obtain ⟨g', hg'⟩ := get_parent_path_total ts hW (path_fuel ts) i ""
          (by have := lt_of_getElem? hi; simp only [path_fuel]; omega) (lt_of_getElem? hi)
        simp only [hg, hg']
        exact ⟨_, rfl⟩)
      (path_fuel ts) c (hkids c hc).2 (hfuel c (hkids c hc).2))
  have hpre := h_struct_preorder ts (path_fuel ts) 0 hs hhs
  obtain ⟨l1, e1, s1⟩ := walk_preorder ts _ _ (read_r_is_walk ts (base_name_of (ts[0]).name))
    (fields_of .extract) rfl (fields_of_append .extract)
    (fun f => decide (f.type ≠ .t_array))
    (fun i t f out h => read_field_extract ts _ i t f out h) (path_fuel ts) 0 rs hrs
  obtain ⟨l2, e2, s2⟩ := walk_preorder ts _ _ (print_r_is_walk ts (base_name_of (ts[0]).name))
    (fields_of_any [.print, .print_head]) rfl (fields_of_any_append _)
    (fun f => decide (f.type ≠ .t_array))
    (fun i _ f out h => print_field_print ts _ i f out h) (path_fuel ts) 0 ps hps
  rw [hpre, Option.some.injEq] at e1 e2
  subst e1
  subst e2
  rw [filter_typed_eq_self ts hnt _ _ _ hpre] at s1 s2
  obtain ⟨m1, f1, t1⟩ := collect_children_sel (tables_of .handle) rfl
    (fun a b => by simp [tables_of]) (fun _ => true) (decl_r ts (path_fuel ts))
    (preorder_tables ts (path_fuel ts))
    (headed_walk_preorder ts _ _ (decl_r_is_headed_walk ts) .handle
      (fun i t q hq => by
        cases hg : get_path ts (path_fuel ts) i t.name with
        | none => simp [hg] at hq
        | some g =>
          simp only [hg, Option.map_some', Option.some.injEq] at hq
          subst hq
          exact ⟨rfl, rfl⟩) (path_fuel ts))
    (ts[0]).children ds hds
  obtain ⟨m2, f2, t2⟩ := collect_children_sel (tables_of .lookup) rfl
    (fun a b => by simp [tables_of]) (fun _ => true)
    (check_r ts (base_name_of (ts[0]).name) (path_fuel ts))
    (preorder_tables ts (path_fuel ts))
    (headed_walk_preorder ts _ _ (check_r_is_headed_walk ts (base_name_of (ts[0]).name)) .lookup
      (fun i t q hq => by
        cases hg : get_path ts (path_fuel ts) i t.name with
        | none => simp [hg] at hq
        | some g =>
          cases hg' : get_parent_path ts (path_fuel ts) i "" with
          | none => simp [hg, hg'] at hq
          | some g' =>
            simp only [hg, hg', Option.some.injEq] at hq
            subst hq
            exact ⟨rfl, rfl⟩) (path_fuel ts))
    (ts[0]).children cs hcs
  rw [f1, Option.some.injEq] at f2
  subst f2
  simp only [List.filter_true] at t1 t2
  refine ⟨ts[0], hs, ds, cs, rs, ps, hroot, hhs, ?_, ?_, ?_, ?_, hpre, s1, s2, ?_, ?_⟩
  · simp only [c_src_decl, get_root, hroot, hds]
  · simp only [c_src_check, get_root, hroot, hcs]
  · simp only [c_src_read, get_root, hroot, hrs]
  · simp only [c_src_print, get_root, hroot, hps]
  · rw [f1, t1]
  · rw [t2, t1]

/-! ## The generated code does not depend on example-time values -/

theorem same_type_not_mixed (first first' : Node) (rest rest' : List Node)
    (h : ∀ el ∈ rest, el.type = first.type) (h' : ∀ el ∈ rest', el.type = first'.type) :
    mixed_array first (first :: rest) = false
    ∧ mixed_array first' (first' :: rest') = false := by
  refine ⟨not_mixed_of_same_type first rest ?_, not_mixed_of_same_type first' rest' ?_⟩
  · intro el hel
    rcases List.mem_cons.mp hel with rfl | hel
    · rfl
    · exact h el hel
  · intro el hel
    rcases List.mem_cons.mp hel with rfl | hel
    · rfl
    · exact h' el hel

mutual
theorem tabler_entry_same_shape : ∀ (v w : Node), v.same_shape w →
    ∀ (p : Nat) (key : String) (r : Reader), tabler_entry p key v r = tabler_entry p key w r
  | .table entries, w, h, p, key, r => by
    cases w with
    | table entries' =>
      simp only [Node.same_shape] at h
      simp only [tabler_entry, tabler_same_shape entries entries' h]
    | _ => simp [Node.same_shape] at h
  | .array elems, w, h, p, key, r => by
    simp only [Node.same_shape] at h
    rcases h with rfl | ⟨first, rest, first', rest', rfl, rfl, h1, h2, h3⟩
    · rfl
    · obtain ⟨m1, m2⟩ := same_type_not_mixed first first' rest rest' h1 h2
      simp only [tabler_entry, m1, m2, h3]
  | .string _, w, h, p, key, r => by
    cases w <;> simp [Node.same_shape, Node.type] at h
    rfl
  | .integer _, w, h, p, key, r => by
    cases w <;> simp [Node.same_shape, Node.type] at h
    rfl
  | .floating_point _, w, h, p, key, r => by
    cases w <;> simp [Node.same_shape, Node.type] at h
    rfl
  | .boolean _, w, h, p, key, r => by
    cases w <;> simp [Node.same_shape, Node.type] at h
    rfl
  | .date _, w, h, p, key, r => by
    cases w <;> simp [Node.same_shape, Node.type] at h
    rfl
  | .time _, w, h, p, key, r => by
    cases w <;> simp [Node.same_shape, Node.type] at h
    rfl
  | .date_time _, w, h, p, key, r => by
    cases w <;> simp [Node.same_shape, Node.type] at h
    rfl
theorem tabler_same_shape : ∀ (d d' : List (String × Node)), entries_same_shape d d' →
    ∀ (p : Nat) (r : Reader), tabler p d r = tabler p d' r
  | [], d', h, p, r => by
    simp only [entries_same_shape] at h
    subst h
    rfl
  | (key, value) :: rest, d', h, p, r => by
    cases d' with
    | nil => simp [entries_same_shape] at h
    | cons kv rest' =>
      obtain ⟨key', value'⟩ := kv
      simp only [entries_same_shape] at h
      obtain ⟨rfl, hv, hr⟩ := h
      simp only [tabler, tabler_entry_same_shape value value' hv]
      cases tabler_entry p key value' r with
      | none => rfl
      | some r1 => exact tabler_same_shape rest rest' hr p r1
end

theorem collect_forall {α : Type} (P : Piece → Prop) (f : α → Option (List Piece))
    (hf : ∀ x out, f x = some out → ∀ q ∈ out, P q) :
    ∀ (l : List α) (out : List Piece), collect f l = some out → ∀ q ∈ out, P q
  | [], out, h => by
    simp only [collect, Option.some.injEq] at h
    subst h
    intro q hq; simp at hq
  | x :: rest, out, h => by
    simp only [collect] at h
    cases h1 : f x with
    | none => simp [h1] at h
    | some a =>
      cases h2 : collect f rest with
      | none => simp [h1, h2] at h
      | some b =>
        simp only [h1, h2, Option.some.injEq] at h
        subst h
        intro q hq
        rcases List.mem_append.mp hq with hq | hq
        · exact hf x a h1 q hq
        · exact collect_forall P f hf rest b h2 q hq

theorem walk_forall (ts : List Table) (fld : Nat → Table → Field → Option (List Piece))
    (pass : Nat → Nat → Option (List Piece)) (hw : is_walk ts fld pass) (P : Piece → Prop)
    (hfld : ∀ i t f out, fld i t f = some out → ∀ q ∈ out, P q) :
    ∀ (fuel i : Nat) (out : List Piece), pass fuel i = some out → ∀ q ∈ out, P q := by
  intro fuel
  induction fuel with
  | zero => intro i out h; rw [hw.1] at h; cases h
  | succ n ih =>
    intro i out h
    rw [hw.2] at h
    cases hi : ts[i]? with
    | none => simp [hi] at h
    | some t =>
      simp only [hi] at h
      cases hf : collect (fld i t) t.fields with
      | none => simp [hf] at h
      | some fs =>
        cases hc : collect (pass n) t.children with
        | none => simp [hf, hc] at h
        | some cs =>
          simp only [hf, hc, Option.some.injEq] at h
          subst h
          intro q hq
          rcases List.mem_append.mp hq with hq | hq
          · exact collect_forall P (fld i t) (hfld i t) t.fields fs hf q hq
          · exact collect_forall P (pass n) ih t.children cs hc q hq

theorem append_split (a l l1 c l2 : String) (h : l = l1 ++ c ++ l2) :
    a ++ l = a ++ l1 ++ c ++ l2 := by
  subst h
  simp only [String.append_assoc]

theorem read_field_runtime_bound (ts : List Table) (base_name : String) (i : Nat) (t : Table)
    (f : Field) (out : List Piece) (h : read_field ts base_name i t f = some out) :
    ∀ q ∈ out, runtime_bound q := by
  obtain ⟨name, ty⟩ := f
  unfold read_field at h
  cases hg : get_path ts (path_fuel ts) i t.name <;>
    cases hv : get_path_var ts (path_fuel ts) i name <;>
    cases ty <;> simp only [hg, hv] at h <;> cases h <;>
    intro q hq <;> simp only [List.mem_cons, List.mem_singleton, List.not_mem_nil, or_false] at hq
  all_goals
    first
    | exact hq.elim
    | (rcases hq with rfl | rfl | rfl | rfl | rfl | rfl
       all_goals
         refine ⟨fun hs => ?_, fun hs => ?_, fun hs => ?_⟩
         all_goals
           first
           | exact ⟨"toml_int_at", rfl⟩
           | exact ⟨"toml_double_at", rfl⟩
           | exact ⟨"toml_bool_at", rfl⟩
           | exact ⟨"toml_string_at", rfl⟩
           | exact ⟨_, rfl⟩
           | exact ⟨_, "int64_t", append_split _ _ _ _ _ (by decide)⟩
           | exact ⟨_, "double", append_split _ _ _ _ _ (by decide)⟩
           | exact ⟨_, "char*", append_split _ _ _ _ _ (by decide)⟩
           | cases hs)

/-- C18: two documents with the same keys in the same order that differ only
in scalar values and in the elements or lengths of non-empty homogeneous arrays
of the same element type tag give the same schema tree and the same two
artifacts (names and texts); and in every read routine each copy loop head,
each allocation and each length assignment uses the runtime expression
`toml_array_nelem(arr)`. -/
theorem generated_code_value_independent (file : String) (d d' : List (String × Node))
    (h : entries_same_shape d d') :
    parser file d = parser file d'
    ∧ run file d = run file d'
    ∧ ∀ r rs, parser file d = some r → c_src_read r.tables = some rs →
        ∀ q ∈ rs, runtime_bound q := by
  have hp : parser file d = parser file d' := tabler_same_shape d d' h 0 _
  refine ⟨hp, by simp only [run, hp], ?_⟩
  intro r rs _ hrs
  unfold c_src_read at hrs
  cases hroot : r.tables[get_root]? with
  | none => simp [hroot] at hrs
  | some root =>
    simp only [hroot] at hrs
    exact walk_forall r.tables _ _ (read_r_is_walk r.tables (base_name_of root.name))
      runtime_bound (fun i t f out hf => read_field_runtime_bound r.tables _ i t f out hf)
      _ _ rs hrs

theorem generated_code_value_independent_witness :
    entries_same_shape example_doc
        [("title", .string "another"),
          ("server", .table [("port", .integer 1), ("tags", .array [.string "q"])])]
    ∧ parser "cfg.toml" example_doc
        = parser "cfg.toml"
          [("title", .string "another"),
            ("server", .table [("port", .integer 1), ("tags", .array [.string "q"])])]
    ∧ run "cfg.toml" example_doc
        = run "cfg.toml"
          [("title", .string "another"),
            ("server", .table [("port", .integer 1), ("tags", .array [.string "q"])])] :=
  have hs : entries_same_shape example_doc
      [("title", .string "another"),
        ("server", .table [("port", .integer 1), ("tags", .array [.string "q"])])] := by
    simp only [example_doc, entries_same_shape, Node.same_shape, Node.type, true_and, and_true]
    exact Or.inr ⟨.string "a", [.string "b"], .string "q", [], rfl, rfl,
      by simp [Node.type], by simp, rfl⟩
  ⟨hs, (generated_code_value_independent "cfg.toml" _ _ hs).1,
    (generated_code_value_independent "cfg.toml" _ _ hs).2.1⟩


/-! ## The member-access path and the nesting of the declaration -/

theorem linked_push_field (p : Nat) (f : Field) (r : Reader) (h : Linked r.tables) :
    Linked (push_field p f r).tables := by
  intro i t hi c hc
  rw [tables_push_field] at hi
  cases hr : r.tables[i]? with
  | none => simp [hr] at hi
  | some t0 =>
    simp only [hr, Option.map_some', Option.some.injEq] at hi
    subst hi
    have hc0 : c ∈ t0.children := by
      by_cases hpi : p = i
      · simpa only [hpi, if_true] using hc
      · simpa only [hpi, if_false] using hc
    obtain ⟨tc, htc, hpar⟩ := h i t0 hr c hc0
    rw [tables_push_field, htc]
    by_cases hpc : p = c
    · exact ⟨{ tc with fields := tc.fields ++ [f] },
        by simp only [Option.map_some', hpc, if_true], hpar⟩
    · exact ⟨tc, by simp only [Option.map_some', hpc, if_false], hpar⟩

theorem linked_new_table (p : Nat) (key : String) (r : Reader) (hp : p < r.tables.length)
    (h : Linked r.tables) :
    Linked (push_child p r.tables.length
      { tables := r.tables ++ [new_table p key r], c_depth := r.c_depth + 1 }).tables := by
  have hget : ∀ j, (push_child p r.tables.length
      { tables := r.tables ++ [new_table p key r], c_depth := r.c_depth + 1 }).tables[j]?
      = ((r.tables ++ [new_table p key r])[j]?).map
          (fun t : Table =>
            if p = j then { t with children := t.children ++ [r.tables.length] } else t) :=
    fun j => tables_push_child p r.tables.length _ j
  have hold : ∀ (c : Nat) (tc : Table), r.tables[c]? = some tc → ∃ tc' : Table,
      (push_child p r.tables.length
        { tables := r.tables ++ [new_table p key r], c_depth := r.c_depth + 1 }).tables[c]?
        = some tc' ∧ tc'.parent = tc.parent := by
    intro c tc hc
    rw [hget, List.getElem?_append_left (lt_of_getElem? hc), hc]
    by_cases hpc : p = c
    · exact ⟨{ tc with children := tc.children ++ [r.tables.length] },
        by simp only [Option.map_some', hpc, if_true], rfl⟩
    · exact ⟨tc, by simp only [Option.map_some', hpc, if_false], rfl⟩
  have hnew : ∃ tn : Table, (push_child p r.tables.length
      { tables := r.tables ++ [new_table p key r], c_depth := r.c_depth + 1 }).tables[
        r.tables.length]? = some tn ∧ tn.parent = some p := by
    rw [hget, List.getElem?_concat_length]
    have hne : ¬ p = r.tables.length := by omega
    exact ⟨new_table p key r, by simp only [Option.map_some', hne, if_false], rfl⟩
  intro i t hi c hc
  rw [hget] at hi
  by_cases hlt : i < r.tables.length
  · rw [List.getElem?_append_left hlt] at hi
    cases hr : r.tables[i]? with
    | none => simp [hr] at hi
    | some t0 =>
      simp only [hr, Option.map_some', Option.some.injEq] at hi
      subst hi
      by_cases hpi : p = i
      · simp only [hpi, if_true, List.mem_append, List.mem_singleton] at hc
        rcases hc with hc | hc
        · obtain ⟨tc, htc, hpar⟩ := h i t0 hr c hc
          obtain ⟨tc', e1, e2⟩ := hold c tc htc
          exact ⟨tc', e1, e2.trans hpar⟩
        · subst hc
          obtain ⟨tn, e1, e2⟩ := hnew
          exact ⟨tn, e1, by rw [e2, hpi]⟩
      · simp only [hpi, if_false] at hc
        obtain ⟨tc, htc, hpar⟩ := h i t0 hr c hc
        obtain ⟨tc', e1, e2⟩ := hold c tc htc
        exact ⟨tc', e1, e2.trans hpar⟩
  · rw [List.getElem?_append_right (by omega)] at hi
    cases hz : i - r.tables.length with
    | zero =>
      rw [hz] at hi
      simp only [List.getElem?_cons_zero, Option.map_some', Option.some.injEq] at hi
      subst hi
      have hpi : ¬ p = i := by omega
      simp only [hpi, if_false, new_table] at hc
      simp at hc
    | succ k =>
      rw [hz] at hi
      simp at hi

theorem tabler_linked (entries : List (String × Node)) (p : Nat) (r r' : Reader)
    (h : tabler p entries r = some r') (hp : p < r.tables.length)
    (hw : WellFormed r.tables) (hl : Linked r.tables) :
    WellFormed r'.tables ∧ Linked r'.tables :=
  (tabler_rel
    (fun a b => WellFormed a.tables ∧ Linked a.tables → WellFormed b.tables ∧ Linked b.tables)
    (fun _ h => h) (fun _ _ _ h1 h2 h => h2 (h1 h))
    (fun p f r _ h => ⟨wellFormed_push_field p f r h.1, linked_push_field p f r h.2⟩)
    (fun p key r hp h =>
      ⟨wellFormed_new_table p (new_table p key r) r _ hp rfl rfl h.1,
        linked_new_table p key r hp h.2⟩)
    (fun _ _ h => h) entries p r r' h hp).1 ⟨hw, hl⟩

theorem parser_linked (file : String) (doc : List (String × Node)) (r : Reader)
    (h : parser file doc = some r) : WellFormed r.tables ∧ Linked r.tables := by
  refine tabler_linked doc 0 _ r h (by simp) ?_ ?_
  · intro i t hi
    cases i with
    | zero =>
      simp only [List.getElem?_cons_zero, Option.some.injEq] at hi
      subst hi
      exact ⟨fun p hp => by simp at hp, fun c hc => by simp at hc⟩
    | succ k => simp at hi
  · intro i t hi c hc
    cases i with
    | zero =>
      simp only [List.getElem?_cons_zero, Option.some.injEq] at hi
      subst hi
      simp at hc
    | succ k => simp at hi

theorem ancestors_mono (ts : List Table) :
    ∀ (n i : Nat) (ch : List Table), ancestors ts n i = some ch →
      ∀ m, n ≤ m → ancestors ts m i = some ch := by
  intro n
  induction n with
  | zero => intro i ch h; simp [ancestors] at h
  | succ n ih =>
    intro i ch h m hm
    cases m with
    | zero => omega
    | succ m =>
      unfold ancestors at h ⊢
      cases hi : ts[i]? with
      | none => simp [hi] at h
      | some t =>
        simp only [hi] at h ⊢
        cases hp : t.parent with
        | none => simpa only [hp] using h
        | some p =>
          simp only [hp] at h ⊢
          cases ha : ancestors ts n p with
          | none => simp [ha] at h
          | some l =>
            rw [ih p l ha m (by omega)]
            simpa only [ha] using h

theorem ancestors_total (ts : List Table) (hwf : WellFormed ts) :
    ∀ (fuel i : Nat), i < fuel → i < ts.length → ∃ ch, ancestors ts fuel i = some ch := by
  intro fuel
  induction fuel with
  | zero => intro i h; omega
  | succ n ih =>
    intro i hf hi
    unfold ancestors
    rw [List.getElem?_eq_getElem hi]
    simp only
    cases hp : (ts[i]).parent with
    | none => exact ⟨_, rfl⟩
    | some p =>
      have hpi := (hwf i ts[i] (List.getElem?_eq_getElem hi)).1 p hp
      obtain ⟨l, hl⟩ := ih p (by omega) (by omega)
      exact ⟨l ++ [ts[i]], by simp only [hl, Option.map_some']⟩

theorem ancestors_child (ts : List Table) (hwf : WellFormed ts) (i c : Nat) (tc : Table)
    (ch : List Table) (hi : i < ts.length) (hc : ts[c]? = some tc) (hpar : tc.parent = some i)
    (ha : ancestors ts (path_fuel ts) i = some ch) :
    ancestors ts (path_fuel ts) c = some (ch ++ [tc]) := by
  obtain ⟨l, hl⟩ := ancestors_total ts hwf ts.length i hi hi
  have e := ancestors_mono ts _ i l hl (path_fuel ts) (by simp [path_fuel])
  rw [ha, Option.some.injEq] at e
  subst e
  show ancestors ts (ts.length + 1) c = _
  unfold ancestors
  simp only [hc, hpar, hl, Option.map_some']

theorem ancestors_mem (ts : List Table) :
    ∀ (fuel i : Nat) (ch : List Table), ancestors ts fuel i = some ch →
      ∀ t ∈ ch, t ∈ ts ∧ t.parent ≠ none := by
  intro fuel
  induction fuel with
  | zero => intro i ch h; simp [ancestors] at h
  | succ n ih =>
    intro i ch h
    unfold ancestors at h
    cases hi : ts[i]? with
    | none => simp [hi] at h
    | some t =>
      simp only [hi] at h
      cases hp : t.parent with
      | none =>
        simp only [hp, Option.some.injEq] at h
        subst h
        intro t' ht'; simp at ht'
      | some p =>
        simp only [hp] at h
        cases ha : ancestors ts n p with
        | none => simp [ha] at h
        | some l =>
          simp only [ha, Option.map_some', Option.some.injEq] at h
          subst h
          intro t' ht'
          rcases List.mem_append.mp ht' with ht' | ht'
          · exact ih p l ha t' ht'
          · simp only [List.mem_singleton] at ht'
            subst ht'
            exact ⟨List.mem_iff_getElem?.mpr ⟨i, hi⟩, by rw [hp]; simp⟩

theorem with_block_depth_append :
    ∀ (a b : List Piece) (d : Nat),
      with_block_depth d (a ++ b) = with_block_depth d a ++ with_block_depth (end_depth d a) b
  | [], _, _ => rfl
  | q :: rest, b, d => by
    show (q, d) :: with_block_depth (next_depth d q) (rest ++ b)
      = (q, d) :: (with_block_depth (next_depth d q) rest
          ++ with_block_depth (end_depth (next_depth d q) rest) b)
    rw [with_block_depth_append rest b]

theorem end_depth_append :
    ∀ (a b : List Piece) (d : Nat), end_depth d (a ++ b) = end_depth (end_depth d a) b
  | [], _, _ => rfl
  | q :: rest, b, d => by
    show end_depth (next_depth d q) (rest ++ b) = end_depth (end_depth (next_depth d q) rest) b
    rw [end_depth_append rest b]

theorem with_block_depth_fst :
    ∀ (ps : List Piece) (d : Nat) (qe : Piece × Nat), qe ∈ with_block_depth d ps → qe.1 ∈ ps
  | [], _, _, h => by simp [with_block_depth] at h
  | q :: rest, d, qe, h => by
    simp only [with_block_depth, List.mem_cons] at h
    rcases h with rfl | h
    · exact List.mem_cons_self _ _
    · exact List.mem_cons_of_mem _ (with_block_depth_fst rest _ qe h)

theorem flat_depth :
    ∀ (ps : List Piece) (d : Nat),
      (∀ q ∈ ps, q.stmt ≠ .block_open ∧ q.stmt ≠ .block_close) →
      end_depth d ps = d ∧ ∀ qe ∈ with_block_depth d ps, qe.2 = d
  | [], d, _ => ⟨rfl, fun qe h => by simp [with_block_depth] at h⟩
  | q :: rest, d, h => by
    have hq := h q (List.mem_cons_self _ _)
    have hn : next_depth d q = d := by
      unfold next_depth
      cases hs : q.stmt <;> simp_all
    have hr := flat_depth rest d (fun x hx => h x (List.mem_cons_of_mem _ hx))
    refine ⟨by simp only [end_depth, hn, hr.1], ?_⟩
    intro qe hqe
    simp only [with_block_depth, hn, List.mem_cons] at hqe
    rcases hqe with rfl | hqe
    · rfl
    · exact hr.2 qe hqe

theorem h_field_flat (i : Nat) (t : Table) (f : Field) :
    ∀ q ∈ h_field i t f, q.stmt ≠ .block_open ∧ q.stmt ≠ .block_close ∧ q.table = i := by
  obtain ⟨name, ty⟩ := f
  intro q hq
  cases ty <;>
    simp only [h_field, List.mem_cons, List.mem_singleton, List.not_mem_nil, or_false] at hq <;>
    rcases hq with rfl | rfl | rfl | rfl <;> simp

theorem h_fields_flat (i : Nat) (t : Table) (fields : List Field) :
    ∀ q ∈ fields.flatMap (h_field i t),
      q.stmt ≠ .block_open ∧ q.stmt ≠ .block_close ∧ q.table = i := by
  intro q hq
  obtain ⟨f, _, hqf⟩ := List.mem_flatMap.mp hq
  exact h_field_flat i t f q hqf

theorem collect_nested (ts : List Table) (base d : Nat) (pass : Nat → Option (List Piece)) :
    ∀ (cs : List Nat) (out : List Piece),
      (∀ c ∈ cs, ∀ o, pass c = some o → nested_right ts base d o) →
      collect pass cs = some out → nested_right ts base d out
  | [], out, _, h => by
    simp only [collect, Option.some.injEq] at h
    subst h
    exact ⟨rfl, fun qe hqe => by simp [with_block_depth] at hqe⟩
  | c :: rest, out, ih, h => by
    simp only [collect] at h
    cases h1 : pass c with
    | none => simp [h1] at h
    | some a =>
      cases h2 : collect pass rest with
      | none => simp [h1, h2] at h
      | some b =>
        simp only [h1, h2, Option.some.injEq] at h
        subst h
        obtain ⟨ea, ma⟩ := ih c (List.mem_cons_self _ _) a h1
        obtain ⟨eb, mb⟩ := collect_nested ts base d pass rest b
          (fun x hx => ih x (List.mem_cons_of_mem _ hx)) h2
        refine ⟨by rw [end_depth_append, ea, eb], ?_⟩
        intro qe hqe hm
        rw [with_block_depth_append, ea] at hqe
        rcases List.mem_append.mp hqe with hqe | hqe
        · exact ma qe hqe hm
        · exact mb qe hqe hm

theorem h_struct_nested (ts : List Table) (hwf : WellFormed ts) (hl : Linked ts) (base : Nat) :
    ∀ (fuel i : Nat) (out : List Piece) (ch : List Table),
      h_struct ts fuel i = some out → i < ts.length →
      ancestors ts (path_fuel ts) i = some ch →
      nested_right ts base (ch.length + base) out := by
  intro fuel
  induction fuel with
  | zero => intro i out ch h; simp [h_struct] at h
  | succ n ih =>
    intro i out ch h hi ha
    have hti := List.getElem?_eq_getElem hi
    unfold h_struct at h
    simp only [hti] at h
    cases hc : collect (h_struct ts n) (ts[i]).children with
    | none => simp [hc] at h
    | some cs =>
      simp only [hc, Option.some.injEq, List.append_assoc] at h
      subst h
      have hkids := (hwf i ts[i] hti).2
      obtain ⟨ecs, mcs⟩ : nested_right ts base (ch.length + base + 1) cs :=
        collect_nested ts base _ (h_struct ts n) (ts[i]).children cs
          (fun c hcm o hoc => by
            obtain ⟨tc, htc, hpar⟩ := hl i ts[i] hti c hcm
            have hac := ancestors_child ts hwf i c tc ch hi htc hpar ha
            have := ih c o (ch ++ [tc]) hoc (hkids c hcm).2 hac
            simpa only [List.length_append, List.length_singleton,
              Nat.add_right_comm _ 1 base] using this)
          hc
      obtain ⟨ef, mf⟩ := flat_depth ((ts[i]).fields.flatMap (h_field i ts[i]))
        (ch.length + base + 1)
        (fun q hq => ⟨(h_fields_flat i ts[i] _ q hq).1, (h_fields_flat i ts[i] _ q hq).2.1⟩)
      have eA : ∀ d, end_depth d
          [(⟨.indent, i, none, mk_indent (ts[i]).depth⟩ : Piece),
            ⟨.block_open, i, none, s_table⟩] = d + 1 := fun _ => rfl
      have eZ : ∀ d, end_depth (d + 1)
          [(⟨.indent, i, none, mk_indent (ts[i]).depth⟩ : Piece),
            ⟨.block_close, i, none, "\x7d " ++ block_member_name ts[i] ++ ";\n"⟩] = d :=
        fun _ => rfl
      refine ⟨?_, ?_⟩
      · rw [end_depth_append, end_depth_append, end_depth_append, eA, ef, ecs, eZ]
      · intro qe hqe hm
        rw [with_block_depth_append, with_block_depth_append, with_block_depth_append,
          eA, ef, ecs] at hqe
        rcases List.mem_append.mp hqe with hqe | hqe
        · have := with_block_depth_fst _ _ qe hqe
          simp only [List.mem_cons, List.mem_singleton, List.not_mem_nil, or_false] at this
          rcases this with h1 | h1 <;> rw [h1] at hm <;> cases hm
        · rcases List.mem_append.mp hqe with hqe | hqe
          · have hq := with_block_depth_fst _ _ qe hqe
            refine ⟨ch, ?_, mf qe hqe⟩
            rw [(h_fields_flat i ts[i] _ qe.1 hq).2.2]
            exact ha
          · rcases List.mem_append.mp hqe with hqe | hqe
            · exact mcs qe hqe hm
            · have := with_block_depth_fst _ _ qe hqe
              simp only [List.mem_cons, List.mem_singleton, List.not_mem_nil, or_false] at this
              rcases this with h1 | h1 <;> rw [h1] at hm <;> cases hm

theorem dots_append (a b : String) : dots (a ++ b) = dots a + dots b := by
  simp [dots, List.count_append]

theorem dots_cvar (s : String) : dots (cvar s) = dots s := by
  simp only [dots, cvar, replace_char]
  induction s.data with
  | nil => rfl
  | cons c rest ih =>
    simp only [List.map_cons, List.count_cons, ih]
    by_cases hc : c = '-'
    · subst hc; rfl
    · simp only [hc, if_false]

theorem dots_zero (s : String) (h : '.' ∉ s.data) : dots s = 0 := by
  simpa [dots, List.count_eq_zero] using h

theorem dots_chain (chain : List Table) (path : String)
    (hc : ∀ t ∈ chain, '.' ∉ t.name.data) (hp : '.' ∉ path.data) :
    dots (chain.foldr (fun t acc => t.name ++ "." ++ acc) path) = chain.length := by
  induction chain with
  | nil => simpa using dots_zero path hp
  | cons t rest ih =>
    simp only [List.foldr_cons, dots_append, List.length_cons]
    rw [ih (fun x hx => hc x (List.mem_cons_of_mem _ hx)),
      dots_zero t.name (hc t (List.mem_cons_self _ _))]
    have : dots "." = 1 := by decide
    omega

/-- C12: for the document with the quoted table key `"a.b"` holding `x = 1`,
the field `x` lies one table below the root, yet its member-access path
`a.b.x` holds two `.` characters. -/
theorem dotted_key_extra_dot :
    (parser "cfg.toml" [("a.b", .table [("x", .integer 1)])]).bind (fun r =>
        get_path_var r.tables (path_fuel r.tables) 1 "x") = some "a.b.x"
    ∧ dots "a.b.x" = 2
    ∧ (parser "cfg.toml" [("a.b", .table [("x", .integer 1)])]).bind (fun r =>
        (ancestors r.tables (path_fuel r.tables) 1).map List.length) = some 1 := by
  decide

/-- C12: in a schema tree built from a document none of whose table keys and
field names holds a `.`, every field for which the declaration pass emits a
member lies in a table with some chain of `k` non-root ancestors (the table
itself included), its member-access path holds exactly `k` characters `.`, and
the declaration pass declares it with `k + 1` blocks open: the block of the
root and `k` nested ones. -/
theorem member_path_dots (file : String) (doc : List (String × Node)) (r : Reader)
    (hp : parser file doc = some r)
    (hnd : ∀ t ∈ r.tables, (t.parent ≠ none → '.' ∉ t.name.data)
      ∧ ∀ f ∈ t.fields, '.' ∉ f.name.data) :
    ∃ ds, write_h_struct r.tables = some ds
      ∧ preorder_fields r.tables (path_fuel r.tables) get_root = some (fields_of .member ds)
      ∧ ∀ qe ∈ with_block_depth 0 ds, qe.1.stmt = .member → ∀ f, qe.1.field = some f →
          ∃ chain m, ancestors r.tables (path_fuel r.tables) qe.1.table = some chain
            ∧ get_path_var r.tables (path_fuel r.tables) qe.1.table f.name = some m
            ∧ dots m = chain.length
            ∧ qe.2 = chain.length + 1 := by
  obtain ⟨hW, hL⟩ := parser_linked file doc r hp
  obtain ⟨root, hroot, _, hrp, _⟩ := parser_root file doc r hp
  have hne : 0 < r.tables.length := lt_of_getElem? hroot
  obtain ⟨ds, _, hds, _⟩ := free_r_mirrors r.tables "" hW (path_fuel r.tables) 0 hne
    (by simp only [path_fuel]; omega)
  have hpre := h_struct_preorder r.tables _ 0 ds hds
  have ha0 : ancestors r.tables (path_fuel r.tables) 0 = some [] := by
    show ancestors r.tables (r.tables.length + 1) 0 = some []
    unfold ancestors
    simp only [hroot, hrp]
  obtain ⟨_, hmem⟩ := h_struct_nested r.tables hW hL 0 _ 0 ds [] hds hne ha0
  refine ⟨ds, hds, hpre, ?_⟩
  intro qe hqe hm f hf
  obtain ⟨chq, hchq, hd⟩ := hmem qe hqe hm
  have hq := with_block_depth_fst _ _ qe hqe
  have hin : (qe.1.table, f) ∈ fields_of .member ds := by
    simp only [fields_of, List.mem_filterMap]
    exact ⟨qe.1, hq, by simp only [hm, if_true, hf, Option.map_some']⟩
  obtain ⟨t, ht, hft⟩ := preorder_fields_mem r.tables _ 0 _ hpre _ hin
  have hfn : '.' ∉ f.name.data := (hnd t (List.mem_iff_getElem?.mpr ⟨_, ht⟩)).2 f hft
  have hcn : ∀ x ∈ chq, '.' ∉ x.name.data := by
    intro x hx
    obtain ⟨hxm, hxp⟩ := ancestors_mem r.tables _ _ chq hchq x hx
    exact (hnd x hxm).1 hxp
  refine ⟨chq, _, hchq, get_path_var_of_ancestors r.tables _ _ f.name chq hchq, ?_, ?_⟩
  · rw [dots_cvar, dots_chain chq f.name hcn hfn]
  · simpa using hd

theorem member_path_dots_witness :
    parser "cfg.toml" example_doc = some ⟨example_tables, 1⟩
    ∧ (∀ t ∈ example_tables, (t.parent ≠ none → '.' ∉ t.name.data)
        ∧ ∀ f ∈ t.fields, '.' ∉ f.name.data)
    ∧ ∃ ds, write_h_struct example_tables = some ds
      ∧ preorder_fields example_tables (path_fuel example_tables) get_root
          = some (fields_of .member ds)
      ∧ ∀ qe ∈ with_block_depth 0 ds, qe.1.stmt = .member → ∀ f, qe.1.field = some f →
          ∃ chain m, ancestors example_tables (path_fuel example_tables) qe.1.table = some chain
            ∧ get_path_var example_tables (path_fuel example_tables) qe.1.table f.name = some m
            ∧ dots m = chain.length
            ∧ qe.2 = chain.length + 1 :=
  ⟨by decide, by decide,
    member_path_dots "cfg.toml" example_doc ⟨example_tables, 1⟩ (by decide) (by decide)⟩

mutual
theorem tabler_entry_isSome : ∀ (value : Node) (p : Nat) (key : String) (r : Reader),
    (tabler_entry p key value r).isSome = value.no_empty_array
  | .table entries, p, key, r => by
    simp only [tabler_entry, Node.no_empty_array]
    generalize push_child _ _ _ = q
    rw [← tabler_isSome entries r.tables.length q]
    cases tabler r.tables.length entries q <;> rfl
  | .integer _, _, _, _ => rfl
  | .string _, _, _, _ => rfl
  | .floating_point _, _, _, _ => rfl
  | .boolean _, _, _, _ => rfl
  | .array [], _, _, _ => rfl
  | .array (first :: rest), p, key, r => by
    simp only [tabler_entry, Node.no_empty_array]
    split
    · rfl
    · split <;> rfl
  | .date _, _, _, _ => rfl
  | .time _, _, _, _ => rfl
  | .date_time _, _, _, _ => rfl
theorem tabler_isSome : ∀ (entries : List (String × Node)) (p : Nat) (r : Reader),
    (tabler p entries r).isSome = entries_no_empty_array entries
  | [], _, _ => rfl
  | (key, value) :: rest, p, r => by
    have h1 := tabler_entry_isSome value p key r
    simp only [tabler, entries_no_empty_array]
    cases h : tabler_entry p key value r with
    | none =>
      rw [h] at h1
      simp only [Option.isSome_none] at h1
      simp [← h1]
    | some r1 =>
      rw [h] at h1
      simp only [Option.isSome_some] at h1
      simp only [← h1, Bool.true_and]
      exact tabler_isSome rest p r1
end

/-- C21: the Schema Builder aborts on an empty array. For every key, parent and
reader state the array case on an empty array does not return (element 0 is
read although there is none), the whole builder returns exactly on the
documents in which no table holds an empty array as a value, and the document
`a = []` makes it fail while the same document with `a = [1]` is processed. -/
theorem empty_array_aborts :
    (∀ (p : Nat) (key : String) (r : Reader), tabler_entry p key (.array []) r = none)
    ∧ (∀ (file : String) (tbl : List (String × Node)),
        (parser file tbl).isSome = entries_no_empty_array tbl)
    ∧ parser "x.toml" [("a", .array [])] = none
    ∧ run "x.toml" [("a", .array [])] = none
    ∧ (parser "x.toml" [("a", .array [.integer 1])]).map (fun r => r.tables)
        = some [⟨[⟨"a", .t_array_of_int⟩], [], none, 0, "x_t"⟩] :=
  ⟨fun _ _ _ => rfl, fun _ tbl => tabler_isSome tbl _ _, by decide, by decide, by decide⟩

/-- C22: for the document `flags = [true]` the declaration pass declares the
member `bool* flags;` while the read pass allocates
`toml_array_nelem(arr) * sizeof(double)` bytes for it; for arrays of integers,
doubles and strings the allocation is sized by the element type of the declared
pointer member (`int64_t`, `double`, `char*`). -/
theorem bool_array_allocation_size :
    ((parser "x.toml" [("flags", .array [.boolean true])]).bind
        (fun r => write_h_struct r.tables)).map member_decls
      = some ["bool* flags;\n", "size_t flags_len;\n"]
    ∧ ((parser "x.toml" [("flags", .array [.boolean true])]).bind
        (fun r => c_src_read r.tables)).map alloc_texts
      = some ["    (*x)->flags = malloc(toml_array_nelem(arr) * sizeof(double));\n"]
    ∧ ((parser "x.toml" [("i", .array [.integer 1]), ("d", .array [.floating_point 0]),
          ("s", .array [.string "v"])]).bind
        (fun r => write_h_struct r.tables)).map member_decls
      = some ["int64_t* i;\n", "size_t i_len;\n", "double* d;\n", "size_t d_len;\n",
          "char** s;\n", "size_t s_len;\n"]
    ∧ ((parser "x.toml" [("i", .array [.integer 1]), ("d", .array [.floating_point 0]),
          ("s", .array [.string "v"])]).bind
        (fun r => c_src_read r.tables)).map alloc_texts
      = some ["    (*x)->i = malloc(toml_array_nelem(arr) * sizeof(int64_t));\n",
          "    (*x)->d = malloc(toml_array_nelem(arr) * sizeof(double));\n",
          "    (*x)->s = malloc(toml_array_nelem(arr) * sizeof(char*));\n"] := by
  decide

/-- C23: for the input path `dir/a.toml.bak.toml` the base name computed by the
reader and by the writer is `a`, not `a.toml.bak`: the name is cut at the first
occurrence of `.toml`, so the root record type is `a_t` and the artifacts are
`t2c-a.h` and `t2c-a.c`; a file name with `.toml` only at its end, such as
`dir/a.bak.toml`, loses just that extension. -/
theorem strip_name_first_extension :
    strip_name "dir/a.toml.bak.toml" = "a"
    ∧ strip_name "dir/a.toml.bak.toml" ≠ "a.toml.bak"
    ∧ (parser "dir/a.toml.bak.toml" []).map (fun r => r.tables.map (fun t => t.name))
        = some ["a_t"]
    ∧ (run "dir/a.toml.bak.toml" []).map (fun a => (a.1.name, a.2.name))
        = some ("t2c-a.h", "t2c-a.c")
    ∧ strip_name "dir/a.bak.toml" = "a.bak" := by
  decide

/-! ## The rendered text of a pass -/

theorem join_append (a b : List String) :
    String.join (a ++ b) = String.join a ++ String.join b := by
  apply String.ext
  simp [String.data_join]

theorem join_cons (a : String) (l : List String) : String.join (a :: l) = a ++ String.join l :=
  join_append [a] l

theorem render_append (a b : List Piece) : render (a ++ b) = render a ++ render b := by
  simp only [render, List.map_append, join_append]

theorem render_cons (q : Piece) (l : List Piece) : render (q :: l) = q.text ++ render l :=
  render_append [q] l

theorem render_nil : render [] = "" := rfl

theorem collect_fields_codes (R : Nat × Field → String → Prop) (i : Nat)
    (fld : Field → Option (List Piece)) :
    ∀ (fields : List Field) (out : List Piece),
      (∀ f ∈ fields, ∀ o, fld f = some o → R (i, f) (render o)) →
      collect fld fields = some out →
      ∃ codes, List.Forall₂ R (fields.map fun f => (i, f)) codes
        ∧ render out = String.join codes
  | [], out, _, h => by
    simp only [collect, Option.some.injEq] at h
    subst h
    exact ⟨[], List.Forall₂.nil, rfl⟩
  | f :: rest, out, hR, h => by
    simp only [collect] at h
    cases h1 : fld f with
    | none => simp [h1] at h
    | some a =>
      cases h2 : collect fld rest with
      | none => simp [h1, h2] at h
      | some b =>
        simp only [h1, h2, Option.some.injEq] at h
        subst h
        obtain ⟨codes, hc, hr⟩ := collect_fields_codes R i fld rest b
          (fun g hg => hR g (List.mem_cons_of_mem _ hg)) h2
        exact ⟨render a :: codes,
          List.Forall₂.cons (hR f (List.mem_cons_self _ _) a h1) hc,
          by rw [render_append, hr, join_cons]⟩

theorem forall₂_append {α β : Type} (R : α → β → Prop) :
    ∀ (a : List α) (b : List β) (c : List α) (d : List β),
      List.Forall₂ R a b → List.Forall₂ R c d → List.Forall₂ R (a ++ c) (b ++ d)
  | _, _, _, _, .nil, h => h
  | _, _, c, d, .cons h1 h2, h => .cons h1 (forall₂_append R _ _ c d h2 h)

theorem collect_children_codes {γ : Type} (R : γ → String → Prop)
    (pass : Nat → Option (List Piece)) (pre : Nat → Option (List γ)) :
    ∀ (cs : List Nat) (out : List Piece),
      (∀ c ∈ cs, ∀ o, pass c = some o →
        ∃ l codes, pre c = some l ∧ List.Forall₂ R l codes ∧ render o = String.join codes) →
      collect pass cs = some out →
      ∃ l codes, collect pre cs = some l ∧ List.Forall₂ R l codes
        ∧ render out = String.join codes
  | [], out, _, h => by
    simp only [collect, Option.some.injEq] at h
    subst h
    exact ⟨[], [], rfl, List.Forall₂.nil, rfl⟩
  | c :: rest, out, ih, h => by
    simp only [collect] at h
    cases h1 : pass c with
    | none => simp [h1] at h
    | some a =>
      cases h2 : collect pass rest with
      | none => simp [h1, h2] at h
      | some b =>
        simp only [h1, h2, Option.some.injEq] at h
        subst h
        obtain ⟨l1, c1, e1, f1, r1⟩ := ih c (List.mem_cons_self _ _) a h1
        obtain ⟨l2, c2, e2, f2, r2⟩ := collect_children_codes R pass pre rest b
          (fun x hx => ih x (List.mem_cons_of_mem _ hx)) h2
        exact ⟨l1 ++ l2, c1 ++ c2, by simp only [collect, e1, e2],
          forall₂_append R _ _ _ _ f1 f2, by rw [render_append, r1, r2, join_append]⟩

theorem walk_codes (ts : List Table) (fld : Nat → Table → Field → Option (List Piece))
    (pass : Nat → Nat → Option (List Piece)) (hw : is_walk ts fld pass)
    (R : Nat × Field → String → Prop)
    (hfld : ∀ i t f o, ts[i]? = some t → fld i t f = some o → R (i, f) (render o)) :
    ∀ (fuel i : Nat) (out : List Piece), pass fuel i = some out →
      ∃ l codes, preorder_fields ts fuel i = some l ∧ List.Forall₂ R l codes
        ∧ render out = String.join codes := by
  intro fuel
  induction fuel with
  | zero => intro i out h; rw [hw.1] at h; cases h
  | succ n ih =>
    intro i out h
    rw [hw.2] at h
    unfold preorder_fields
    cases hi : ts[i]? with
    | none => simp [hi] at h
    | some t =>
      simp only [hi] at h ⊢
      cases hf : collect (fld i t) t.fields with
      | none => simp [hf] at h
      | some fs =>
        cases hc : collect (pass n) t.children with
        | none => simp [hf, hc] at h
        | some cs =>
          simp only [hf, hc, Option.some.injEq] at h
          subst h
          obtain ⟨l, c2, el, f2, r2⟩ := collect_children_codes R (pass n)
            (preorder_fields ts n) t.children cs (fun c _ o ho => ih c o ho) hc
          obtain ⟨c1, f1, r1⟩ := collect_fields_codes R i (fld i t) t.fields fs
            (fun f _ o ho => hfld i t f o hi ho) hf
          exact ⟨_, c1 ++ c2, by rw [el], forall₂_append R _ _ _ _ f1 f2,
            by rw [render_append, r1, r2, join_append]⟩

theorem headed_walk_codes (ts : List Table) (head : Nat → Table → Option Piece)
    (pass : Nat → Nat → Option (List Piece)) (hw : is_headed_walk ts head pass)
    (R : Nat → String → Prop)
    (hhead : ∀ i t q, ts[i]? = some t → head i t = some q → R i q.text) :
    ∀ (fuel i : Nat) (out : List Piece), pass fuel i = some out →
      ∃ l codes, preorder_tables ts fuel i = some l ∧ List.Forall₂ R l codes
        ∧ render out = String.join codes := by
  intro fuel
  induction fuel with
  | zero => intro i out h; rw [hw.1] at h; cases h
  | succ n ih =>
    intro i out h
    rw [hw.2] at h
    unfold preorder_tables
    cases hi : ts[i]? with
    | none => simp [hi] at h
    | some t =>
      simp only [hi] at h ⊢
      cases hq : head i t with
      | none => simp [hq] at h
      | some q =>
        cases hc : collect (pass n) t.children with
        | none => simp [hq, hc] at h
        | some cs =>
          simp only [hq, hc, Option.some.injEq] at h
          subst h
          obtain ⟨l, c2, el, f2, r2⟩ := collect_children_codes R (pass n)
            (preorder_tables ts n) t.children cs (fun c _ o ho => ih c o ho) hc
          exact ⟨_, q.text :: c2, by rw [el], List.Forall₂.cons (hhead i t q hi hq) f2,
            by rw [render_cons, r2, join_cons]⟩

/-! ## The text emitted for one field and for one table -/

theorem render_one (a : Piece) : render [a] = a.text := by
  simp [render, String.join]

theorem render_three (a b c : Piece) : render [a, b, c] = a.text ++ b.text ++ c.text := by
  simp [render, String.join]

theorem render_six (a b c d e g : Piece) :
    render [a, b, c, d, e, g] = a.text ++ b.text ++ c.text ++ d.text ++ e.text ++ g.text := by
  simp [render, String.join]

theorem h_field_code (i : Nat) (t : Table) (f : Field) :
    render (h_field i t f) = member_code (mk_indent (t.depth + 1)) f.name f.type := by
  obtain ⟨name, ty⟩ := f
  cases ty <;>
    simp only [h_field, member_code, render_two, render_four, s_type_int, s_type_double,
      s_type_bool, s_type_string, s_type_array, s_type_array_of_int, s_type_array_of_double,
      s_type_array_of_bool, s_type_array_of_string, String.append_assoc]

theorem read_field_code (ts : List Table) (base_name : String) (hwf : WellFormed ts)
    (i : Nat) (t : Table) (f : Field) (o : List Piece) (hi : ts[i]? = some t)
    (h : read_field ts base_name i t f = some o) :
    reads_field ts base_name (i, f) (render o) := by
  have hlt := lt_of_getElem? hi
  obtain ⟨g, hg⟩ := get_path_total ts hwf (path_fuel ts) i t.name
    (by simp only [path_fuel]; omega) hlt
  obtain ⟨m, hm⟩ := get_path_var_total ts hwf (path_fuel ts) i f.name
    (by simp only [path_fuel]; omega) hlt
  refine ⟨t, g, m, hi, hg, hm, ?_⟩
  obtain ⟨name, ty⟩ := f
  simp only at hm
  unfold read_field at h
  cases ty <;> simp only [hg, hm, Option.some.injEq] at h <;> subst h <;>
    simp only [read_code, render_two, render_six, render_nil, String.append_assoc]

theorem print_field_code (ts : List Table) (base_name : String) (hwf : WellFormed ts)
    (i : Nat) (t : Table) (f : Field) (o : List Piece) (hi : ts[i]? = some t)
    (h : print_field ts base_name i f = some o) :
    prints_field ts base_name (i, f) (render o) := by
  have hlt := lt_of_getElem? hi
  obtain ⟨m, hm⟩ := get_path_var_total ts hwf (path_fuel ts) i f.name
    (by simp only [path_fuel]; omega) hlt
  refine ⟨m, hm, ?_⟩
  obtain ⟨name, ty⟩ := f
  simp only at hm
  unfold print_field at h
  cases ty <;> simp only [hm, Option.some.injEq] at h <;> subst h <;>
    simp only [print_code, render_one, render_three, render_nil, String.append_assoc]

theorem free_field_total (ts : List Table) (base_name : String) (hwf : WellFormed ts)
    (i : Nat) (t : Table) (f : Field) (hi : ts[i]? = some t) :
    ∃ out, free_field ts base_name i f = some out := by
  have hlt := lt_of_getElem? hi
  obtain ⟨m, hm⟩ := get_path_var_total ts hwf (path_fuel ts) i f.name
    (by simp only [path_fuel]; omega) hlt
  obtain ⟨name, ty⟩ := f
  simp only at hm
  cases ty <;> simp [free_field, hm]

theorem append_ne_empty (a b : String) (h : a.length ≠ 0) : a ++ b ≠ "" := by
  intro e
  have := congrArg String.length e
  simp only [String.length_append] at this
  have h0 : "".length = 0 := rfl
  omega

theorem read_code_ne_empty (base h key m : String) (ty : FieldType) (hty : ty ≠ .t_array) :
    read_code base h key m ty ≠ "" := by
  cases ty <;> first
    | exact absurd rfl hty
    | (simp only [read_code, String.append_assoc]; exact append_ne_empty _ _ (by decide))

theorem print_code_ne_empty (base m : String) (ty : FieldType) (hty : ty ≠ .t_array) :
    print_code base m ty ≠ "" := by
  cases ty <;> first
    | exact absurd rfl hty
    | (simp only [print_code, String.append_assoc]; exact append_ne_empty _ _ (by decide))

theorem member_code_ne_empty (ind name : String) (ty : FieldType) :
    member_code ind name ty ≠ "" := by
  cases ty <;>
    (simp only [member_code, String.append_assoc]
     intro e
     have := congrArg String.length e
     simp only [String.length_append] at this
     have h0 : "".length = 0 := rfl
     have h1 : ";\n".length = 2 := rfl
     omega)

theorem visit_fields_append (a b : List Visit) :
    visit_fields (a ++ b) = visit_fields a ++ visit_fields b := by
  simp only [visit_fields, List.filterMap_append]

theorem visit_fields_map_field (i : Nat) (fields : List Field) :
    visit_fields (fields.map (Visit.field i)) = fields.map fun f => (i, f) := by
  induction fields with
  | nil => rfl
  | cons f rest ih =>
    simp only [List.map_cons]
    rw [← ih]
    rfl

theorem render_fields_code (ts : List Table) (i : Nat) (t : Table) (hi : ts[i]? = some t) :
    ∀ fields : List Field, render (fields.flatMap (h_field i t))
      = String.join ((fields.map (Visit.field i)).map (declaration_code ts))
  | [] => rfl
  | f :: rest => by
    rw [List.flatMap_cons, render_append, render_fields_code ts i t hi rest, h_field_code]
    simp only [List.map_cons, join_cons, declaration_code, hi]

theorem collect_visits (ts : List Table) (pass : Nat → Option (List Piece))
    (pre : Nat → Option (List Visit)) (prf : Nat → Option (List (Nat × Field))) :
    ∀ (cs : List Nat) (out : List Piece),
      (∀ c ∈ cs, ∀ o, pass c = some o →
        ∃ vs, pre c = some vs ∧ render o = String.join (vs.map (declaration_code ts))
          ∧ prf c = some (visit_fields vs)) →
      collect pass cs = some out →
      ∃ vs, collect pre cs = some vs ∧ render out = String.join (vs.map (declaration_code ts))
        ∧ collect prf cs = some (visit_fields vs)
  | [], out, _, h => by
    simp only [collect, Option.some.injEq] at h
    subst h
    exact ⟨[], rfl, rfl, rfl⟩
  | c :: rest, out, ih, h => by
    simp only [collect] at h
    cases h1 : pass c with
    | none => simp [h1] at h
    | some a =>
      cases h2 : collect pass rest with
      | none => simp [h1, h2] at h
      | some b =>
        simp only [h1, h2, Option.some.injEq] at h
        subst h
        obtain ⟨v1, e1, r1, p1⟩ := ih c (List.mem_cons_self _ _) a h1
        obtain ⟨v2, e2, r2, p2⟩ := collect_visits ts pass pre prf rest b
          (fun x hx => ih x (List.mem_cons_of_mem _ hx)) h2
        exact ⟨v1 ++ v2, by simp only [collect, e1, e2],
          by rw [render_append, r1, r2, List.map_append, join_append],
          by simp only [collect, p1, p2, visit_fields_append]⟩

theorem h_struct_visits (ts : List Table) :
    ∀ (fuel i : Nat) (out : List Piece), h_struct ts fuel i = some out →
      ∃ vs, preorder_visits ts fuel i = some vs
        ∧ render out = String.join (vs.map (declaration_code ts))
        ∧ preorder_fields ts fuel i = some (visit_fields vs) := by
  intro fuel
  induction fuel with
  | zero => intro i out h; simp [h_struct] at h
  | succ n ih =>
    intro i out h
    unfold h_struct at h
    unfold preorder_visits preorder_fields
    cases hi : ts[i]? with
    | none => simp [hi] at h
    | some t =>
      simp only [hi] at h ⊢
      cases hc : collect (h_struct ts n) t.children with
      | none => simp [hc] at h
      | some cs =>
        simp only [hc, Option.some.injEq] at h
        subst h
        obtain ⟨vs, ev, rv, pv⟩ := collect_visits ts (h_struct ts n) (preorder_visits ts n)
          (preorder_fields ts n) t.children cs (fun c _ o ho => ih c o ho) hc
        refine ⟨_, by rw [ev], ?_, ?_⟩
        · rw [render_append, render_append, render_append, render_two, render_two, rv,
            render_fields_code ts i t hi]
          have e : (Visit.enter i :: List.map (Visit.field i) t.fields ++ vs ++ [Visit.leave i])
              = [Visit.enter i] ++ (List.map (Visit.field i) t.fields ++ (vs ++ [Visit.leave i])) := by
            simp
          rw [e, List.map_append, List.map_append, List.map_append, join_append, join_append,
            join_append]
          have e1 : String.join ([Visit.enter i].map (declaration_code ts))
              = mk_indent t.depth ++ s_table := by
            simp [declaration_code, hi, String.join, s_table]
          have e2 : String.join ([Visit.leave i].map (declaration_code ts))
              = mk_indent t.depth ++ ("\x7d " ++ block_member_name t ++ ";\n") := by
            simp [declaration_code, hi, String.join, block_member_name, String.append_assoc]
          rw [e1, e2]
          simp only [String.append_assoc]
        · rw [pv]
          have e : (Visit.enter i :: List.map (Visit.field i) t.fields ++ vs ++ [Visit.leave i])
              = [Visit.enter i] ++ (List.map (Visit.field i) t.fields ++ (vs ++ [Visit.leave i])) := by
            simp
          rw [e, visit_fields_append, visit_fields_append, visit_fields_append,
            visit_fields_map_field]
          have e1 : visit_fields [Visit.enter i] = [] := rfl
          have e2 : visit_fields [Visit.leave i] = [] := rfl
          rw [e1, e2, List.nil_append, List.append_nil]

theorem forall₂_not_mem {α : Type} (R : α → String → Prop) (P : α → Prop)
    (hne : ∀ a c, P a → R a c → c ≠ "") :
    ∀ (l : List α) (codes : List String), List.Forall₂ R l codes → (∀ a ∈ l, P a) →
      "" ∉ codes
  | _, _, .nil, _ => by simp
  | a :: l, c :: codes, .cons h1 h2, hP => by
    intro hmem
    rcases List.mem_cons.mp hmem with e | e
    · exact hne a c (hP a (List.mem_cons_self _ _)) h1 e.symm
    · exact forall₂_not_mem R P hne l codes h2
        (fun x hx => hP x (List.mem_cons_of_mem _ hx)) e

/-! ## Every table stands before its children -/

theorem parents_first_nil (ts : List Table) : parents_first ts [] := by
  intro before after c t h
  simp at h

theorem parents_first_append (ts : List Table) (a b : List Nat)
    (ha : parents_first ts a) (hb : parents_first ts b) : parents_first ts (a ++ b) := by
  intro before after c t h ht d hd
  rcases List.append_eq_append_iff.mp h with ⟨a', e1, e2⟩ | ⟨c', e1, e2⟩
  · exact hb a' after c t e2 ht d hd
  · cases c' with
    | nil =>
      simp only [List.nil_append] at e2
      exact hb [] after c t e2.symm ht d hd
    | cons x c2 =>
      simp only [List.cons_append, List.cons.injEq] at e2
      obtain ⟨rfl, rfl⟩ := e2
      exact List.mem_append_left _ (ha before c2 c t e1 ht d hd)

theorem collect_parents_first (ts : List Table) (pre : Nat → Option (List Nat)) :
    ∀ (cs : List Nat) (l : List Nat),
      (∀ c ∈ cs, ∀ lc, pre c = some lc → parents_first ts lc ∧ c ∈ lc) →
      collect pre cs = some l → parents_first ts l ∧ ∀ c ∈ cs, c ∈ l
  | [], l, _, h => by
    simp only [collect, Option.some.injEq] at h
    subst h
    exact ⟨parents_first_nil ts, fun c hc => by simp at hc⟩
  | c :: rest, l, ih, h => by
    simp only [collect] at h
    cases h1 : pre c with
    | none => simp [h1] at h
    | some a =>
      cases h2 : collect pre rest with
      | none => simp [h1, h2] at h
      | some b =>
        simp only [h1, h2, Option.some.injEq] at h
        subst h
        obtain ⟨pa, ma⟩ := ih c (List.mem_cons_self _ _) a h1
        obtain ⟨pb, mb⟩ := collect_parents_first ts pre rest b
          (fun x hx => ih x (List.mem_cons_of_mem _ hx)) h2
        refine ⟨parents_first_append ts a b pa pb, ?_⟩
        intro x hx
        rcases List.mem_cons.mp hx with rfl | hx
        · exact List.mem_append_left _ ma
        · exact List.mem_append_right _ (mb x hx)

theorem preorder_tables_parents_first (ts : List Table) :
    ∀ (fuel i : Nat) (l : List Nat), preorder_tables ts fuel i = some l →
      parents_first ts l ∧ i ∈ l := by
  intro fuel
  induction fuel with
  | zero => intro i l h; simp [preorder_tables] at h
  | succ n ih =>
    intro i l h
    unfold preorder_tables at h
    cases hi : ts[i]? with
    | none => simp [hi] at h
    | some t =>
      simp only [hi] at h
      cases hc : collect (preorder_tables ts n) t.children with
      | none => simp [hc] at h
      | some cs =>
        simp only [hc, Option.some.injEq] at h
        subst h
        obtain ⟨pc, mc⟩ := collect_parents_first ts (preorder_tables ts n) t.children cs
          (fun c _ lc hlc => ih c lc hlc) hc
        refine ⟨?_, List.mem_cons_self _ _⟩
        intro before after c t' h ht' d hd
        cases before with
        | nil =>
          simp only [List.nil_append, List.cons.injEq] at h
          obtain ⟨rfl, rfl⟩ := h
          rw [hi, Option.some.injEq] at ht'
          subst ht'
          exact mc d hd
        | cons x before' =>
          simp only [List.cons_append, List.cons.injEq] at h
          exact pc before' after c t' h.2 ht' d hd

/-! ## Every step of the declaration walk emits text -/

theorem collect_visits_valid (ts : List Table) (pre : Nat → Option (List Visit)) :
    ∀ (cs : List Nat) (vs : List Visit),
      (∀ c ∈ cs, ∀ v, pre c = some v → ∀ x ∈ v, declaration_code ts x ≠ "") →
      collect pre cs = some vs → ∀ x ∈ vs, declaration_code ts x ≠ ""
  | [], vs, _, h => by
    simp only [collect, Option.some.injEq] at h
    subst h
    intro x hx; simp at hx
  | c :: rest, vs, ih, h => by
    simp only [collect] at h
    cases h1 : pre c with
    | none => simp [h1] at h
    | some a =>
      cases h2 : collect pre rest with
      | none => simp [h1, h2] at h
      | some b =>
        simp only [h1, h2, Option.some.injEq] at h
        subst h
        intro x hx
        rcases List.mem_append.mp hx with hx | hx
        · exact ih c (List.mem_cons_self _ _) a h1 x hx
        · exact collect_visits_valid ts pre rest b
            (fun y hy => ih y (List.mem_cons_of_mem _ hy)) h2 x hx

theorem preorder_visits_ne_empty (ts : List Table) :
    ∀ (fuel i : Nat) (vs : List Visit), preorder_visits ts fuel i = some vs →
      ∀ x ∈ vs, declaration_code ts x ≠ "" := by
  intro fuel
  induction fuel with
  | zero => intro i vs h; simp [preorder_visits] at h
  | succ n ih =>
    intro i vs h
    unfold preorder_visits at h
    cases hi : ts[i]? with
    | none => simp [hi] at h
    | some t =>
      simp only [hi] at h
      cases hc : collect (preorder_visits ts n) t.children with
      | none => simp [hc] at h
      | some cs =>
        simp only [hc, Option.some.injEq] at h
        subst h
        have hcs := collect_visits_valid ts (preorder_visits ts n) t.children cs
          (fun c _ v hv => ih c v hv) hc
        intro x hx
        simp only [List.cons_append, List.mem_cons, List.mem_append, List.mem_map,
          List.mem_singleton, List.not_mem_nil, or_false] at hx
        rcases hx with rfl | (⟨f, _, rfl⟩ | hx) | rfl
        · simp only [declaration_code, hi]
          intro e
          have := congrArg String.length e
          simp only [String.length_append] at this
          have h0 : "".length = 0 := rfl
          have h1 : "struct \x7b\n".length = 9 := rfl
          omega
        · simp only [declaration_code, hi]
          exact member_code_ne_empty _ _ _
        · exact hcs x hx
        · simp only [declaration_code, hi]
          intro e
          have := congrArg String.length e
          simp only [String.length_append] at this
          have h0 : "".length = 0 := rfl
          have h1 : ";\n".length = 2 := rfl
          omega

/-- C13: on a well-formed schema tree without fields of the untyped-array kind
all passes return and walk the tree in one pre-order. With `l` the pre-order
sequence of the (table, field) pairs (fields of a table in encounter order,
then its children in encounter order): the text of `read_r` is exactly the
extraction code of the pairs of `l`, one after the other in that order, the
text of `print_r` is exactly their output code in that order, and the text of
`h_struct` is the text of the pre-order walk whose field visits are `l`, each
with its member declaration; no pair is left without code. With `tl` the
pre-order sequence of the tables below the root: the text of `decl_r` is
exactly the handle declarators of the tables of `tl` in that order and the text
of `check_r` exactly their lookup statements in that order, and in `tl` every
table stands before its children, so its lookup statement is emitted before
those of the tables below it. -/
theorem passes_share_preorder (ts : List Table) (hwf : well_formed ts = true)
    (hne : 0 < ts.length) (hnt : ∀ t ∈ ts, ∀ f ∈ t.fields, f.type ≠ .t_array) :
    ∃ root hs ds cs rs ps vs l tl rcodes pcodes hcodes lcodes,
      ts[get_root]? = some root
      ∧ write_h_struct ts = some hs ∧ c_src_decl ts = some ds ∧ c_src_check ts = some cs
      ∧ c_src_read ts = some rs ∧ c_src_print ts = some ps
      ∧ preorder_fields ts (path_fuel ts) get_root = some l
      ∧ render rs = String.join rcodes
      ∧ List.Forall₂ (reads_field ts (base_name_of root.name)) l rcodes
      ∧ "" ∉ rcodes
      ∧ render ps = String.join pcodes
      ∧ List.Forall₂ (prints_field ts (base_name_of root.name)) l pcodes
      ∧ "" ∉ pcodes
      ∧ preorder_visits ts (path_fuel ts) get_root = some vs
      ∧ render hs = String.join (vs.map (declaration_code ts))
      ∧ visit_fields vs = l
      ∧ (∀ v ∈ vs, declaration_code ts v ≠ "")
      ∧ fields_of .extract rs = l
      ∧ fields_of_any [.print, .print_head] ps = l
      ∧ fields_of .member hs = l
      ∧ collect (preorder_tables ts (path_fuel ts)) root.children = some tl
      ∧ render ds = String.join hcodes
      ∧ List.Forall₂ (declares_handle ts) tl hcodes
      ∧ render cs = String.join lcodes
      ∧ List.Forall₂ (looks_up ts (base_name_of root.name)) tl lcodes
      ∧ tables_of .handle ds = tl
      ∧ tables_of .lookup cs = tl
      ∧ parents_first ts tl := by
  have hW := wellFormed_of_well_formed ts hwf
  obtain ⟨root, hs, ds, cs, rs, ps, hroot, hhs, hds, hcs, hrs, hps, hpre, s1, s2, t1, t2⟩ :=
    passes_share_labels ts hwf hne hnt
  have hds' := hds
  have hcs' := hcs
  have hrs' := hrs
  have hps' := hps
  simp only [c_src_decl, hroot] at hds'
  simp only [c_src_check, hroot] at hcs'
  simp only [c_src_read, hroot] at hrs'
  simp only [c_src_print, hroot] at hps'
  obtain ⟨vs, ev, rv, pv⟩ := h_struct_visits ts _ get_root hs hhs
  obtain ⟨l1, rcodes, el1, fr, rr⟩ := walk_codes ts _ _
    (read_r_is_walk ts (base_name_of root.name)) (reads_field ts (base_name_of root.name))
    (fun j t f o hj h => read_field_code ts _ hW j t f o hj h) _ get_root rs hrs'
  obtain ⟨l2, pcodes, el2, fp, rp⟩ := walk_codes ts _ _
    (print_r_is_walk ts (base_name_of root.name)) (prints_field ts (base_name_of root.name))
    (fun j t f o hj h => print_field_code ts _ hW j t f o hj h) _ get_root ps hps'
  rw [hpre, Option.some.injEq] at el1 el2
  subst el1
  subst el2
  have e2 : visit_fields vs = fields_of .member hs := by
    rw [pv, Option.some.injEq] at hpre
    exact hpre
  have htyped : ∀ tf ∈ fields_of .member hs, tf.2.type ≠ .t_array := by
    intro tf htf
    obtain ⟨t, ht, hft⟩ := preorder_fields_mem ts _ _ _ hpre tf htf
    exact hnt t (List.mem_iff_getElem?.mpr ⟨_, ht⟩) tf.2 hft
  obtain ⟨tl1, hcodes, eh, fh, rh⟩ := collect_children_codes (declares_handle ts)
    (decl_r ts (path_fuel ts)) (preorder_tables ts (path_fuel ts)) root.children ds
    (fun c _ o ho => headed_walk_codes ts _ _ (decl_r_is_headed_walk ts) (declares_handle ts)
      (fun j t q hj hq => by
        cases hg : get_path ts (path_fuel ts) j t.name with
        | none => simp [hg] at hq
        | some g =>
          simp only [hg, Option.map_some', Option.some.injEq] at hq
          subst hq
          exact ⟨t, g, hj, hg, rfl⟩) _ c o ho) hds'
  obtain ⟨tl2, lcodes, ec, fc, rc⟩ := collect_children_codes
    (looks_up ts (base_name_of root.name))
    (check_r ts (base_name_of root.name) (path_fuel ts)) (preorder_tables ts (path_fuel ts))
    root.children cs
    (fun c _ o ho => headed_walk_codes ts _ _
      (check_r_is_headed_walk ts (base_name_of root.name))
      (looks_up ts (base_name_of root.name))
      (fun j t q hj hq => by
        cases hg : get_path ts (path_fuel ts) j t.name with
        | none => simp [hg] at hq
        | some g =>
          cases hg' : get_parent_path ts (path_fuel ts) j "" with
          | none => simp [hg, hg'] at hq
          | some g' =>
            simp only [hg, hg', Option.some.injEq] at hq
            subst hq
            exact ⟨t, g, g', hj, hg, hg', rfl⟩) _ c o ho) hcs'
  rw [t1, Option.some.injEq] at eh ec
  subst eh
  subst ec
  refine ⟨root, hs, ds, cs, rs, ps, vs, _, _, rcodes, pcodes, hcodes, lcodes, hroot, hhs, hds,
    hcs, hrs, hps, hpre, rr, fr, ?_, rp, fp, ?_, ev, rv, e2,
    preorder_visits_ne_empty ts _ _ vs ev, s1, s2, rfl, t1, rh, fh, rc, fc, rfl, t2, ?_⟩
  · exact forall₂_not_mem _ (fun tf => tf.2.type ≠ .t_array)
      (fun tf c hty hr => by
        obtain ⟨t, h, m, _, _, _, rfl⟩ := hr
        exact read_code_ne_empty _ _ _ _ _ hty) _ rcodes fr htyped
  · exact forall₂_not_mem _ (fun tf => tf.2.type ≠ .t_array)
      (fun tf c hty hr => by
        obtain ⟨m, _, rfl⟩ := hr
        exact print_code_ne_empty _ _ _ hty) _ pcodes fp htyped
  · exact (collect_parents_first ts (preorder_tables ts (path_fuel ts)) root.children _
      (fun c _ lc hlc => preorder_tables_parents_first ts _ c lc hlc) t1).1

theorem passes_share_preorder_witness :
    well_formed example_tables = true
    ∧ 0 < example_tables.length
    ∧ (∀ t ∈ example_tables, ∀ f ∈ t.fields, f.type ≠ .t_array)
    ∧ ∃ root hs ds cs rs ps vs l tl rcodes pcodes hcodes lcodes,
      example_tables[get_root]? = some root
      ∧ write_h_struct example_tables = some hs ∧ c_src_decl example_tables = some ds
      ∧ c_src_check example_tables = some cs
      ∧ c_src_read example_tables = some rs ∧ c_src_print example_tables = some ps
      ∧ preorder_fields example_tables (path_fuel example_tables) get_root = some l
      ∧ render rs = String.join rcodes
      ∧ List.Forall₂ (reads_field example_tables (base_name_of root.name)) l rcodes
      ∧ "" ∉ rcodes
      ∧ render ps = String.join pcodes
      ∧ List.Forall₂ (prints_field example_tables (base_name_of root.name)) l pcodes
      ∧ "" ∉ pcodes
      ∧ preorder_visits example_tables (path_fuel example_tables) get_root = some vs
      ∧ render hs = String.join (vs.map (declaration_code example_tables))
      ∧ visit_fields vs = l
      ∧ (∀ v ∈ vs, declaration_code example_tables v ≠ "")
      ∧ fields_of .extract rs = l
      ∧ fields_of_any [.print, .print_head] ps = l
      ∧ fields_of .member hs = l
      ∧ collect (preorder_tables example_tables (path_fuel example_tables)) root.children
          = some tl
      ∧ render ds = String.join hcodes
      ∧ List.Forall₂ (declares_handle example_tables) tl hcodes
      ∧ render cs = String.join lcodes
      ∧ List.Forall₂ (looks_up example_tables (base_name_of root.name)) tl lcodes
      ∧ tables_of .handle ds = tl
      ∧ tables_of .lookup cs = tl
      ∧ parents_first example_tables tl :=
  ⟨by decide, by decide, by decide,
    passes_share_preorder example_tables (by decide) (by decide) (by decide)⟩

/-! ## Reader: every table is attached to its parent, every field name is sanitised -/

theorem attached_push_field (p : Nat) (f : Field) (r : Reader) (h : Attached r.tables) :
    Attached (push_field p f r).tables := by
  intro i t hi h0
  rw [tables_push_field] at hi
  cases hr : r.tables[i]? with
  | none => simp [hr] at hi
  | some t0 =>
    simp only [hr, Option.map_some', Option.some.injEq] at hi
    obtain ⟨q, tq, hq, htq, hmem⟩ := h i t0 hr h0
    have hpar : t.parent = some q := by
      subst hi
      by_cases hpi : p = i
      · simpa only [hpi, if_true] using hq
      · simpa only [hpi, if_false] using hq
    rw [hpar]
    by_cases hpq : p = q
    · exact ⟨q, { tq with fields := tq.fields ++ [f] }, rfl,
        by rw [tables_push_field, htq]; simp only [Option.map_some', hpq, if_true], hmem⟩
    · exact ⟨q, tq, rfl,
        by rw [tables_push_field, htq]; simp only [Option.map_some', hpq, if_false], hmem⟩

theorem attached_new_table (p : Nat) (key : String) (r : Reader) (hp : p < r.tables.length)
    (h : Attached r.tables) :
    Attached (push_child p r.tables.length
      { tables := r.tables ++ [new_table p key r], c_depth := r.c_depth + 1 }).tables := by
  have hget : ∀ j, (push_child p r.tables.length
      { tables := r.tables ++ [new_table p key r], c_depth := r.c_depth + 1 }).tables[j]?
      = ((r.tables ++ [new_table p key r])[j]?).map
          (fun t : Table =>
            if p = j then { t with children := t.children ++ [r.tables.length] } else t) :=
    fun j => tables_push_child p r.tables.length _ j
  have hold : ∀ (q : Nat) (tq : Table), r.tables[q]? = some tq → ∃ tq' : Table,
      (push_child p r.tables.length
        { tables := r.tables ++ [new_table p key r], c_depth := r.c_depth + 1 }).tables[q]?
        = some tq' ∧ tq'.parent = tq.parent ∧ (∀ c ∈ tq.children, c ∈ tq'.children)
        ∧ (p = q → r.tables.length ∈ tq'.children) := by
    intro q tq hq
    rw [hget, List.getElem?_append_left (lt_of_getElem? hq), hq]
    by_cases hpq : p = q
    · exact ⟨{ tq with children := tq.children ++ [r.tables.length] },
        by simp only [Option.map_some', hpq, if_true], rfl,
        fun c hc => List.mem_append_left _ hc, fun _ => by simp⟩
    · exact ⟨tq, by simp only [Option.map_some', hpq, if_false], rfl, fun c hc => hc,
        fun e => absurd e hpq⟩
  intro i t hi h0
  rw [hget] at hi
  by_cases hlt : i < r.tables.length
  · rw [List.getElem?_append_left hlt] at hi
    cases hr : r.tables[i]? with
    | none => simp [hr] at hi
    | some t0 =>
      simp only [hr, Option.map_some', Option.some.injEq] at hi
      obtain ⟨q, tq, hq, htq, hmem⟩ := h i t0 hr h0
      have hpar : t.parent = some q := by
        subst hi
        by_cases hpi : p = i
        · simpa only [hpi, if_true] using hq
        · simpa only [hpi, if_false] using hq
      obtain ⟨tq', e1, _, e3, _⟩ := hold q tq htq
      exact ⟨q, tq', hpar, e1, e3 i hmem⟩
  · rw [List.getElem?_append_right (by omega)] at hi
    cases hz : i - r.tables.length with
    | zero =>
      rw [hz] at hi
      simp only [List.getElem?_cons_zero, Option.map_some', Option.some.injEq] at hi
      have hpi : ¬ p = i := by omega
      simp only [hpi, if_false] at hi
      subst hi
      have hil : i = r.tables.length := by omega
      obtain ⟨tp', e1, _, _, e4⟩ := hold p (r.tables[p]) (List.getElem?_eq_getElem hp)
      exact ⟨p, tp', rfl, e1, by rw [hil]; exact e4 rfl⟩
    | succ k =>
      rw [hz] at hi
      simp at hi

theorem tabler_attached (entries : List (String × Node)) (p : Nat) (r r' : Reader)
    (h : tabler p entries r = some r') (hp : p < r.tables.length) (ha : Attached r.tables) :
    Attached r'.tables :=
  (tabler_rel (fun a b => Attached a.tables → Attached b.tables)
    (fun _ h => h) (fun _ _ _ h1 h2 h => h2 (h1 h))
    (fun p f r _ h => attached_push_field p f r h)
    (fun p key r hp h => attached_new_table p key r hp h)
    (fun _ _ h => h) entries p r r' h hp).1 ha

theorem parser_attached (file : String) (doc : List (String × Node)) (r : Reader)
    (h : parser file doc = some r) : Attached r.tables := by
  refine tabler_attached doc 0 _ r h (by simp) ?_
  intro i t hi h0
  cases i with
  | zero => exact absurd rfl h0
  | succ k => simp at hi

theorem sanitised_push_field (p : Nat) (f : Field) (r : Reader) (hf : cvar f.name = f.name)
    (h : Sanitised r.tables) : Sanitised (push_field p f r).tables := by
  intro i t hi g hg
  rw [tables_push_field] at hi
  cases hr : r.tables[i]? with
  | none => simp [hr] at hi
  | some t0 =>
    simp only [hr, Option.map_some', Option.some.injEq] at hi
    subst hi
    by_cases hpi : p = i
    · simp only [hpi, if_true, List.mem_append, List.mem_singleton] at hg
      rcases hg with hg | hg
      · exact h i t0 hr g hg
      · subst hg; exact hf
    · simp only [hpi, if_false] at hg
      exact h i t0 hr g hg

theorem sanitised_new_table (p : Nat) (t : Table) (r : Reader) (d : Int) (ht : t.fields = [])
    (h : Sanitised r.tables) :
    Sanitised (push_child p r.tables.length { tables := r.tables ++ [t], c_depth := d }).tables := by
  intro i t1 hi g hg
  rw [tables_push_child] at hi
  have key : ∀ t0 : Table, (r.tables ++ [t])[i]? = some t0 → ∀ g ∈ t0.fields,
      cvar g.name = g.name := by
    intro t0 h0 g hg
    rw [List.getElem?_append] at h0
    by_cases hlt : i < r.tables.length
    · rw [if_pos hlt] at h0
      exact h i t0 h0 g hg
    · rw [if_neg hlt] at h0
      cases hz : i - r.tables.length with
      | zero =>
        rw [hz] at h0
        simp only [List.getElem?_cons_zero, Option.some.injEq] at h0
        subst h0
        rw [ht] at hg
        simp at hg
      | succ k =>
        rw [hz] at h0
        simp at h0
  cases h0 : (r.tables ++ [t])[i]? with
  | none =>
    change Option.map _ ((r.tables ++ [t])[i]?) = some t1 at hi
    rw [h0] at hi
    simp at hi
  | some t0 =>
    change Option.map _ ((r.tables ++ [t])[i]?) = some t1 at hi
    rw [h0] at hi
    simp only [Option.map_some', Option.some.injEq] at hi
    subst hi
    by_cases hpi : p = i
    · simp only [hpi, if_true] at hg
      exact key t0 h0 g hg
    · simp only [hpi, if_false] at hg
      exact key t0 h0 g hg

theorem array_field_sanitised (key : String) (ty : NodeType) (f : Field)
    (h : array_field key ty = some f) : cvar f.name = f.name := by
  cases ty <;> simp [array_field, Field.new] at h <;> subst h <;> exact cvar_cvar key

mutual
theorem tabler_entry_sanitised : ∀ (value : Node) (p : Nat) (key : String) (r r' : Reader),
    tabler_entry p key value r = some r' → Sanitised r.tables → Sanitised r'.tables
  | .table entries, p, key, r, r', h, hr => by
    simp only [tabler_entry, Option.map_eq_some'] at h
    obtain ⟨r2, h2, rfl⟩ := h
    exact tabler_sanitised entries _ _ r2 h2 (sanitised_new_table p _ r _ rfl hr)
  | .integer _, p, key, r, r', h, hr => by
    simp only [tabler_entry, Option.some.injEq] at h
    subst h
    exact sanitised_push_field _ _ _ (cvar_cvar key) hr
  | .string _, p, key, r, r', h, hr => by
    simp only [tabler_entry, Option.some.injEq] at h
    subst h
    exact sanitised_push_field _ _ _ (cvar_cvar key) hr
  | .floating_point _, p, key, r, r', h, hr => by
    simp only [tabler_entry, Option.some.injEq] at h
    subst h
    exact sanitised_push_field _ _ _ (cvar_cvar key) hr
  | .boolean _, p, key, r, r', h, hr => by
    simp only [tabler_entry, Option.some.injEq] at h
    subst h
    exact sanitised_push_field _ _ _ (cvar_cvar key) hr
  | .array [], p, key, r, r', h, hr => by
    simp [tabler_entry] at h
  | .array (first :: rest), p, key, r, r', h, hr => by
    simp only [tabler_entry] at h
    cases hm : mixed_array first (first :: rest) with
    | true =>
      simp only [hm, if_true, Option.some.injEq] at h
      subst h; exact hr
    | false =>
      simp only [hm, Bool.false_eq_true, if_false] at h
      cases hf : array_field key first.type with
      | none =>
        simp only [hf, Option.some.injEq] at h
        subst h; exact hr
      | some f =>
        simp only [hf, Option.some.injEq] at h
        subst h
        exact sanitised_push_field _ _ _ (array_field_sanitised key _ f hf) hr
  | .date _, p, key, r, r', h, hr => by
    simp only [tabler_entry, Option.some.injEq] at h
    subst h; exact hr
  | .time _, p, key, r, r', h, hr => by
    simp only [tabler_entry, Option.some.injEq] at h
    subst h; exact hr
  | .date_time _, p, key, r, r', h, hr => by
    simp only [tabler_entry, Option.some.injEq] at h
    subst h; exact hr
theorem tabler_sanitised : ∀ (entries : List (String × Node)) (p : Nat) (r r' : Reader),
    tabler p entries r = some r' → Sanitised r.tables → Sanitised r'.tables
  | [], p, r, r', h, hr => by
    simp only [tabler, Option.some.injEq] at h
    subst h; exact hr
  | (key, value) :: rest, p, r, r', h, hr => by
    simp only [tabler] at h
    cases h1 : tabler_entry p key value r with
    | none => simp [h1] at h
    | some r1 =>
      simp only [h1] at h
      exact tabler_sanitised rest p r1 r' h (tabler_entry_sanitised value p key r r1 h1 hr)
end

theorem parser_sanitised (file : String) (doc : List (String × Node)) (r : Reader)
    (h : parser file doc = some r) : Sanitised r.tables := by
  refine tabler_sanitised doc 0 _ r h ?_
  intro i t hi f hf
  cases i with
  | zero =>
    simp only [List.getElem?_cons_zero, Option.some.injEq] at hi
    subst hi
    simp at hf
  | succ k => simp at hi

/-! ## The member-access path against the blocks of the declaration -/

theorem collect_mono {α β : Type} (f g : α → Option (List β)) :
    ∀ (l : List α) (out : List β), (∀ x ∈ l, ∀ o, f x = some o → g x = some o) →
      collect f l = some out → collect g l = some out
  | [], out, _, h => h
  | x :: rest, out, hfg, h => by
    simp only [collect] at h ⊢
    cases h1 : f x with
    | none => simp [h1] at h
    | some a =>
      cases h2 : collect f rest with
      | none => simp [h1, h2] at h
      | some b =>
        simp only [h1, h2] at h
        rw [hfg x (List.mem_cons_self _ _) a h1,
          collect_mono f g rest b (fun y hy => hfg y (List.mem_cons_of_mem _ hy)) h2]
        exact h

theorem h_struct_mono (ts : List Table) :
    ∀ (n i : Nat) (out : List Piece), h_struct ts n i = some out →
      ∀ m, n ≤ m → h_struct ts m i = some out := by
  intro n
  induction n with
  | zero => intro i out h; simp [h_struct] at h
  | succ n ih =>
    intro i out h m hm
    cases m with
    | zero => omega
    | succ m =>
      unfold h_struct at h ⊢
      cases hi : ts[i]? with
      | none => simp [hi] at h
      | some t =>
        simp only [hi] at h ⊢
        cases hc : collect (h_struct ts n) t.children with
        | none => simp [hc] at h
        | some cs =>
          rw [collect_mono (h_struct ts n) (h_struct ts m) t.children cs
            (fun c _ o ho => ih c o ho m (by omega)) hc]
          simpa only [hc] using h

theorem collect_segment {α β : Type} (f : α → Option (List β)) :
    ∀ (l : List α) (out : List β), collect f l = some out → ∀ x ∈ l,
      ∃ a b o, f x = some o ∧ out = a ++ o ++ b
  | [], _, _, x, hx => by simp at hx
  | y :: rest, out, h, x, hx => by
    simp only [collect] at h
    cases h1 : f y with
    | none => simp [h1] at h
    | some a =>
      cases h2 : collect f rest with
      | none => simp [h1, h2] at h
      | some b =>
        simp only [h1, h2, Option.some.injEq] at h
        subst h
        rcases List.mem_cons.mp hx with rfl | hx
        · exact ⟨[], b, a, h1, by simp⟩
        · obtain ⟨a', b', o, ho, e⟩ := collect_segment f rest b h2 x hx
          exact ⟨a ++ a', b', o, ho, by rw [e]; simp only [List.append_assoc]⟩

theorem flatMap_segment {α β : Type} (g : α → List β) :
    ∀ (l : List α) (x : α), x ∈ l → ∃ a b, l.flatMap g = a ++ g x ++ b
  | [], x, hx => by simp at hx
  | y :: rest, x, hx => by
    rw [List.flatMap_cons]
    rcases List.mem_cons.mp hx with rfl | hx
    · exact ⟨[], rest.flatMap g, by simp⟩
    · obtain ⟨a, b, e⟩ := flatMap_segment g rest x hx
      exact ⟨g y ++ a, b, by rw [e]; simp only [List.append_assoc]⟩

theorem h_struct_block (ts : List Table) (n i : Nat) (t : Table) (out : List Piece)
    (hi : ts[i]? = some t) (h : h_struct ts (n + 1) i = some out) :
    (∀ f ∈ t.fields, holds_in_block out (cvar t.name) (h_field i t f))
    ∧ ∀ c ∈ t.children, ∃ oc, h_struct ts n c = some oc
        ∧ holds_in_block out (cvar t.name) oc := by
  unfold h_struct at h
  simp only [hi] at h
  cases hc : collect (h_struct ts n) t.children with
  | none => simp [hc] at h
  | some cs =>
    simp only [hc, Option.some.injEq] at h
    subst h
    refine ⟨?_, ?_⟩
    · intro f hf
      obtain ⟨a, b, e⟩ := flatMap_segment (h_field i t) t.fields f hf
      exact ⟨⟨.indent, i, none, mk_indent t.depth⟩, ⟨.block_open, i, none, s_table⟩, a, b ++ cs,
        ⟨.indent, i, none, mk_indent t.depth⟩,
        ⟨.block_close, i, none, "\x7d " ++ block_member_name t ++ ";\n"⟩,
        by rw [e]; simp only [List.append_assoc, List.cons_append, List.nil_append], rfl, rfl⟩
    · intro c hcm
      obtain ⟨a, b, oc, ho, e⟩ := collect_segment (h_struct ts n) t.children cs hc c hcm
      exact ⟨oc, ho, ⟨.indent, i, none, mk_indent t.depth⟩, ⟨.block_open, i, none, s_table⟩,
        t.fields.flatMap (h_field i t) ++ a, b, ⟨.indent, i, none, mk_indent t.depth⟩,
        ⟨.block_close, i, none, "\x7d " ++ block_member_name t ++ ";\n"⟩,
        by rw [e]; simp only [List.append_assoc, List.cons_append, List.nil_append], rfl, rfl⟩

theorem nested_decl_snoc (ts : List Table) (c : Nat) (tc : Table) (oc inner : List Piece)
    (hc : ts[c]? = some tc) (ho : h_struct ts (path_fuel ts) c = some oc)
    (hin : holds_in_block oc (cvar tc.name) inner) :
    ∀ (chain : List Table) (out : List Piece) (m : String),
      nested_decl ts out m chain oc → nested_decl ts out m (chain ++ [tc]) inner
  | [], out, m, h => ⟨c, oc, hc, ho, h, hin⟩
  | t1 :: rest, out, m, h => by
    obtain ⟨c1, o1, h1, h2, h3, h4⟩ := h
    exact ⟨c1, o1, h1, h2, h3, nested_decl_snoc ts c tc oc inner hc ho hin rest o1 _ h4⟩

theorem block_nested (ts : List Table) (hW : WellFormed ts) (hA : Attached ts)
    (root : Table) (hroot : ts[0]? = some root) (hrp : root.parent = none)
    (hs : List Piece) (hhs : h_struct ts (path_fuel ts) 0 = some hs) :
    ∀ (n i : Nat) (t : Table), i ≤ n → ts[i]? = some t →
      ∃ chain oi, ancestors ts (path_fuel ts) i = some chain
        ∧ h_struct ts (path_fuel ts) i = some oi
        ∧ ∀ inner, holds_in_block oi (cvar t.name) inner →
            nested_decl ts hs (cvar root.name) chain inner := by
  intro n
  induction n with
  | zero =>
    intro i t hi ht
    have hi0 : i = 0 := by omega
    subst hi0
    rw [hroot, Option.some.injEq] at ht
    subst ht
    refine ⟨[], hs, ?_, hhs, fun inner h => h⟩
    show ancestors ts (ts.length + 1) 0 = some []
    unfold ancestors
    simp only [hroot, hrp]
  | succ n ih =>
    intro i t hi ht
    by_cases hle : i ≤ n
    · exact ih i t hle ht
    · have hi0 : i ≠ 0 := by omega
      obtain ⟨p, tp, hpar, htp, hmem⟩ := hA i t ht hi0
      have hpi : p < i := (hW i t ht).1 p hpar
      obtain ⟨chain, op, hch, hop, hnest⟩ := ih p tp (by omega) htp
      have hop' : h_struct ts (ts.length + 1) p = some op := hop
      obtain ⟨_, hkids⟩ := h_struct_block ts ts.length p tp op htp hop'
      obtain ⟨oi, hoi, hblock⟩ := hkids i hmem
      have hoi' : h_struct ts (path_fuel ts) i = some oi :=
        h_struct_mono ts _ i oi hoi _ (by simp [path_fuel])
      refine ⟨chain ++ [t], oi, ancestors_child ts hW p i t chain (lt_of_getElem? htp) ht hpar hch,
        hoi', ?_⟩
      intro inner hin
      exact nested_decl_snoc ts i t oi inner ht hoi' hin chain hs _ (hnest oi hblock)

theorem cvar_chain_names (chain : List Table) (path : String) :
    cvar (chain.foldr (fun t acc => t.name ++ "." ++ acc) path)
      = member_path (chain.map fun tc => cvar tc.name) (cvar path) :=
  cvar_chain chain path

/-- C2: in a schema tree built by the Schema Builder, for every field `f` of
every table `t` (at index `i`), with `chain` the non-root ancestors of `t` from
the outermost down to `t` itself: the member-access path `get_path_var` of `f`
is the names `cvar tc.name` of the tables of `chain`, in that order, joined
with `.`, followed by `f.name`; and the declaration pass mirrors it: in the
text of `h_struct` the member declaration of `f`, which declares the name
`f.name`, stands inside the block of the last table of `chain`, the block of
each table of `chain` stands inside the block of the table before it (the first
inside the block of the root), and `h_struct` closes the block of each table
`tc` of `chain` with the member name `cvar tc.name`; the whole text of
`h_struct` is the text of the pre-order walk, which opens one block per table
and closes it under the sanitised name of the table. -/
theorem get_path_var_mirrors_declaration (file : String) (doc : List (String × Node))
    (r : Reader) (hp : parser file doc = some r) (i : Nat) (t : Table) (f : Field)
    (hi : r.tables[i]? = some t) (hf : f ∈ t.fields) :
    ∃ root hs vs chain,
      r.tables[get_root]? = some root
      ∧ write_h_struct r.tables = some hs
      ∧ preorder_visits r.tables (path_fuel r.tables) get_root = some vs
      ∧ render hs = String.join (vs.map (declaration_code r.tables))
      ∧ ancestors r.tables (path_fuel r.tables) i = some chain
      ∧ get_path_var r.tables (path_fuel r.tables) i f.name
          = some (member_path (chain.map fun tc => cvar tc.name) f.name)
      ∧ nested_decl r.tables hs (cvar root.name) chain (h_field i t f)
      ∧ render (h_field i t f) = member_code (mk_indent (t.depth + 1)) f.name f.type := by
  obtain ⟨hW, _⟩ := parser_linked file doc r hp
  have hA := parser_attached file doc r hp
  have hS := parser_sanitised file doc r hp
  obtain ⟨root, hroot, _, hrp, _⟩ := parser_root file doc r hp
  have hne : 0 < r.tables.length := lt_of_getElem? hroot
  obtain ⟨hs, _, hhs, _⟩ := free_r_mirrors r.tables "" hW (path_fuel r.tables) 0 hne
    (by simp only [path_fuel]; omega)
  obtain ⟨chain, oi, hch, hoi, hnest⟩ :=
    block_nested r.tables hW hA root hroot hrp hs hhs i i t (Nat.le_refl i) hi
  have hoi' : h_struct r.tables (r.tables.length + 1) i = some oi := hoi
  obtain ⟨hfields, _⟩ := h_struct_block r.tables r.tables.length i t oi hi hoi'
  obtain ⟨vs, ev, rv, _⟩ := h_struct_visits r.tables _ 0 hs hhs
  refine ⟨root, hs, vs, chain, hroot, hhs, ev, rv, hch, ?_, hnest _ (hfields f hf),
    h_field_code i t f⟩
  rw [get_path_var_of_ancestors r.tables _ i f.name chain hch, cvar_chain_names,
    hS i t hi f hf]

theorem get_path_var_mirrors_declaration_witness :
    parser "cfg.toml" nested_example_doc = some ⟨nested_example_tables, 1⟩
    ∧ nested_example_tables[2]? = some ⟨[⟨"max_conn", .t_int⟩], [], some 1, 2, "tls"⟩
    ∧ (⟨"max_conn", .t_int⟩ : Field) ∈ [(⟨"max_conn", .t_int⟩ : Field)]
    ∧ get_path_var nested_example_tables (path_fuel nested_example_tables) 2 "max_conn"
        = some "web_server.tls.max_conn"
    ∧ (write_h_struct nested_example_tables).map render
        = some ("struct \x7b\n    struct \x7b\n        struct \x7b\n"
            ++ "            int64_t max_conn;\n        \x7d tls;\n    \x7d web_server;\n\x7d cfg_t;\n")
    ∧ ∃ root hs vs chain,
      nested_example_tables[get_root]? = some root
      ∧ write_h_struct nested_example_tables = some hs
      ∧ preorder_visits nested_example_tables (path_fuel nested_example_tables) get_root
          = some vs
      ∧ render hs = String.join (vs.map (declaration_code nested_example_tables))
      ∧ ancestors nested_example_tables (path_fuel nested_example_tables) 2 = some chain
      ∧ get_path_var nested_example_tables (path_fuel nested_example_tables) 2 "max_conn"
          = some (member_path (chain.map fun tc => cvar tc.name) "max_conn")
      ∧ nested_decl nested_example_tables hs (cvar root.name) chain
          (h_field 2 ⟨[⟨"max_conn", .t_int⟩], [], some 1, 2, "tls"⟩ ⟨"max_conn", .t_int⟩)
      ∧ render (h_field 2 ⟨[⟨"max_conn", .t_int⟩], [], some 1, 2, "tls"⟩ ⟨"max_conn", .t_int⟩)
          = member_code (mk_indent (2 + 1)) "max_conn" .t_int :=
  ⟨by decide, by decide, by simp, by decide, by decide,
    get_path_var_mirrors_declaration "cfg.toml" nested_example_doc
      ⟨nested_example_tables, 1⟩ (by decide) 2
      ⟨[⟨"max_conn", .t_int⟩], [], some 1, 2, "tls"⟩ ⟨"max_conn", .t_int⟩ (by decide) (by simp)⟩

/-- C6: on the document `a = []`, `b = 1` the Schema Builder does not return a
schema tree, so no Field of kind Int named `b` is appended for the integer key
`b`; the same holds when the empty array comes after the scalar key (`b = 1`,
`c = []`) and when it lies in a nested table (`b = 1`, `[s]` with `a = []`).
Without the empty array the key `b` gives the one Field `b` of kind Int. -/
theorem classification_lost_on_empty_array :
    parser "x.toml" [("a", .array []), ("b", .integer 1)] = none
    ∧ parser "x.toml" [("b", .integer 1), ("c", .array [])] = none
    ∧ parser "x.toml" [("b", .integer 1), ("s", .table [("a", .array [])])] = none
    ∧ (parser "x.toml" [("b", .integer 1)]).map (fun r => r.tables)
        = some [⟨[⟨"b", .t_int⟩], [], none, 0, "x_t"⟩] := by
  decide

end Toml2c
